import Mathlib

/-!
# simple-wal: a verification development

A shallow embedding of the write-ahead log of `internal/wal` (files `wal.go`,
`segments.go`, `entry.go`, `config.go`) together with the properties of its
record framing, its sequence numbering and its two segment scanners.

Conventions of the embedding.

* A byte is a natural number below 256; a byte slice is a `List Nat`.  A nil
  slice and an empty slice are both the empty list.
* Go machine integers are natural numbers (or integers) reduced explicitly:
  `uint64` arithmetic is taken modulo `2 ^ 64`, the conversion `int32(n)` is
  `toInt32`.
* A Go call has one of three outcomes (`Res`): a value, a returned error, or a
  run-time panic.
* The file system (`FS`) is the list of its directories by cleaned Unix path,
  each with its regular files.  Names are lists of characters (valid UTF-8),
  and there are no symbolic links.  The functions `Clean`, `Join`, `Split`,
  `Base`, `Match` and `Glob` follow `path/filepath` of the Go standard library
  for Unix, so that `prepareCurrentSegment` reads the directory path as part
  of its glob pattern, as the code does.
* The system calls of `InitWAL` (`os.MkdirAll`, `os.Create`, `Close`,
  `os.OpenFile`, `Seek`) fail when the environment (`Env`) says so, and where
  the file system makes them fail.
* The engine state carries the regular files of its own directory (`disk`);
  the open segment, the `bufio.Writer` and the timer are fields of the engine
  state.
-/

namespace SimpleWal

/-! ## Outcomes -/

/-- The errors the package returns, one constructor per `return ... err` site.
The error of `WriteEntryWithCheckpoint` wraps (`%w`) the error `Sync`
returned. -/
inductive WalError where
  | emptyDirectory
  | createSegment
  | invalidSegmentName
  | openSegment
  | readSize
  | readData
  | unmarshal
  | crcMismatch
  | marshalFailed
  | writeSize
  | writeData
  | flush
  | fsync
  | syncBeforeCheckpoint (err : WalError)
  | closeFile
  | mkdirAll
  | badPattern
  | seek
  deriving DecidableEq, Repr

/-- Outcome of a Go call: a value, a returned error, or a run-time panic. -/
inductive Res (α : Type) where
  | ok (val : α)
  | error (e : WalError)
  | panic
  deriving DecidableEq, Repr

/-! ## Little-endian 32-bit integers (`encoding/binary`) -/

/-- The conversion `int32(n)` of a non-negative Go `int`: the value keeps its
low 32 bits, read as a two's complement number. -/
def toInt32 (n : Nat) : Int :=
  if n % 2 ^ 32 < 2 ^ 31 then ((n % 2 ^ 32 : Nat) : Int) else ((n % 2 ^ 32 : Nat) : Int) - 2 ^ 32

/-- The four bytes `binary.Write(w, binary.LittleEndian, size)` produces for
an `int32`: the bytes of the two's complement representation, lowest first. -/
def putInt32LE (v : Int) : List Nat :=
  let u := (v % 2 ^ 32).toNat
  [u % 256, u / 256 % 256, u / 65536 % 256, u / 16777216 % 256]

/-- The `int32` that `binary.Read(r, binary.LittleEndian, &size)` decodes from
four bytes. -/
def getInt32LE (b0 b1 b2 b3 : Nat) : Int :=
  toInt32 (b0 + 256 * b1 + 65536 * b2 + 16777216 * b3)

/-! ## CRC-32 (`hash/crc32`, IEEE polynomial) -/

/-- The reversed IEEE polynomial, `crc32.IEEE`. -/
def crcPoly : Nat := 0xEDB88320

/-- One bit of the CRC register: shift right, and fold the polynomial in when
the bit shifted out is set. -/
def crcShift (c : Nat) : Nat :=
  if c % 2 = 1 then (c / 2) ^^^ crcPoly else c / 2

/-- One input byte: it is combined with the low byte of the register, and the
register is shifted eight times. -/
def crcUpdateByte (c v : Nat) : Nat :=
  crcShift (crcShift (crcShift (crcShift (crcShift (crcShift (crcShift (crcShift
    (c ^^^ (v % 256)))))))))

/-- The function `crc32.ChecksumIEEE`: the register starts at all ones, takes
every byte in order, and is complemented at the end. -/
def ChecksumIEEE (data : List Nat) : Nat :=
  (data.foldl crcUpdateByte 0xFFFFFFFF) ^^^ 0xFFFFFFFF

/-! ## Protocol Buffers wire format (`google.golang.org/protobuf`) -/

/-- Continuation of `AppendVarint`: `n` more continuation bytes may follow. -/
def appendVarintAux : Nat → Nat → List Nat
  | 0, v => [v]
  | n + 1, v => if v < 128 then [v] else (v % 128 + 128) :: appendVarintAux n (v / 128)

/-- The function `protowire.AppendVarint` for a `uint64`: base-128, least
significant group first, at most ten bytes. -/
def AppendVarint (v : Nat) : List Nat :=
  appendVarintAux 9 (v % 2 ^ 64)

/-- Continuation of `ConsumeVarint`: `n` more continuation bytes may follow;
the tenth byte must be 0 or 1. -/
def consumeVarintAux : Nat → List Nat → Option (Nat × List Nat)
  | _, [] => none
  | 0, b :: bs => if b < 2 then some (b, bs) else none
  | n + 1, b :: bs =>
    if b < 128 then some (b, bs)
    else
      match consumeVarintAux n bs with
      | none => none
      | some (v, rest) => some (b % 128 + 128 * v, rest)

/-- The function `protowire.ConsumeVarint`: the decoded value and the bytes
behind it, or nothing when the input is truncated or overflows 64 bits. -/
def ConsumeVarint (b : List Nat) : Option (Nat × List Nat) :=
  consumeVarintAux 9 b

/-- Largest field number of a message field, `protowire.MaxValidNumber`. -/
def MaxValidNumber : Nat := 2 ^ 29 - 1

/-- Skipping the value of a field that the message does not declare
(`protowire.ConsumeFieldValue`): the bytes behind the value.  `fuel` bounds
the walk through the fields of a group, `depth` is the nesting limit of the
library.  When the second argument is `some num` the function walks the fields
of the group `num` up to its end marker.  Every call takes one unit of fuel;
a walk that ends at its end marker has read a tag or an end marker for each
unit, so the fuel `ConsumeFieldValue` passes is never what stops it. -/
def consumeFieldValueD : Nat → Option Nat → Nat → Nat → Int → List Nat → Option (List Nat)
  | 0, _, _, _, _, _ => none
  | fuel + 1, some num, _, _, depth, b =>
    match ConsumeVarint b with
    | none => none
    | some (tag, b1) =>
      let num2 := tag / 8
      let typ2 := tag % 8
      if num2 < 1 ∨ num2 > 2 ^ 31 - 1 then none
      else if typ2 = 4 then (if num = num2 then some b1 else none)
      else
        match consumeFieldValueD fuel none num2 typ2 (depth - 1) b1 with
        | none => none
        | some b2 => consumeFieldValueD fuel (some num) 0 0 depth b2
  | fuel + 1, none, num, typ, depth, b =>
    match typ with
    | 0 => (ConsumeVarint b).map Prod.snd
    | 1 => if b.length < 8 then none else some (b.drop 8)
    | 2 =>
      match ConsumeVarint b with
      | none => none
      | some (m, b1) => if m > b1.length then none else some (b1.drop m)
    | 3 => if depth < 0 then none else consumeFieldValueD fuel (some num) 0 0 depth b
    | 5 => if b.length < 4 then none else some (b.drop 4)
    | _ => none

/-- The function `protowire.ConsumeFieldValue` with the default recursion limit. -/
def ConsumeFieldValue (num typ : Nat) (b : List Nat) : Option (List Nat) :=
  consumeFieldValueD (b.length + 2) none num typ 10000 b

/-- Modelled from the spec: the message type `pb.WAL_Entry` of the generated
file `proto/wal.pb.go`, which is not among the sources.  The spec names the
four fields (an unsigned 64-bit sequence number, the payload bytes, a 32-bit
checksum and a checkpoint flag that is absent by default) and leaves the field
layout open; the callers in `wal.go` fix the Go types (`uint64`, `[]byte`,
`uint32`, `*bool`).  The layout taken here is the proto3 message
`uint64 logSeqNumber = 1; bytes data = 2; uint32 CRC = 3;
optional bool isCheckpoint = 4`. -/
structure WAL_Entry where
  LogSeqNumber : Nat
  Data : List Nat
  CRC : Nat
  IsCheckpoint : Option Bool
  deriving DecidableEq, Repr

/-- The getter `GetIsCheckpoint`: an absent flag reads as false. -/
def WAL_Entry.GetIsCheckpoint (e : WAL_Entry) : Bool :=
  e.IsCheckpoint.getD false

/-- Field 1 on the wire: left out when the number is zero. -/
def marshalSeq (e : WAL_Entry) : List Nat :=
  if e.LogSeqNumber % 2 ^ 64 = 0 then [] else 0x08 :: AppendVarint e.LogSeqNumber

/-- Field 2 on the wire: left out when the payload is empty. -/
def marshalData (e : WAL_Entry) : List Nat :=
  if e.Data = [] then [] else 0x12 :: (AppendVarint e.Data.length ++ e.Data)

/-- Field 3 on the wire: left out when the checksum is zero. -/
def marshalCRC (e : WAL_Entry) : List Nat :=
  if e.CRC % 2 ^ 32 = 0 then [] else 0x18 :: AppendVarint (e.CRC % 2 ^ 32)

/-- Field 4 on the wire: written when the flag is present. -/
def marshalFlag (e : WAL_Entry) : List Nat :=
  match e.IsCheckpoint with
  | none => []
  | some c => [0x20, if c then 1 else 0]

/-- The function `proto.Marshal` on a `WAL_Entry`: the set fields in field
order, each as a tag byte and its value.  A proto3 scalar that is zero and an
empty byte field are left out; the optional flag is written when present. -/
def Marshal (e : WAL_Entry) : List Nat :=
  marshalSeq e ++ marshalData e ++ marshalCRC e ++ marshalFlag e

/-- The decoding loop of `proto.Unmarshal` on a `WAL_Entry`: one field per
round.  A declared field with its wire type sets the field (the last
occurrence wins), any other field is skipped as unknown, and a malformed tag
or value is an error. -/
def unmarshalFields : Nat → List Nat → WAL_Entry → Option WAL_Entry
  | _, [], e => some e
  | 0, _ :: _, _ => none
  | fuel + 1, b0 :: bs, e =>
    match ConsumeVarint (b0 :: bs) with
    | none => none
    | some (tag, b1) =>
      let num := tag / 8
      let wtyp := tag % 8
      if num < 1 ∨ num > MaxValidNumber then none
      else if wtyp = 4 then none
      else if num = 1 ∧ wtyp = 0 then
        match ConsumeVarint b1 with
        | none => none
        | some (v, b2) => unmarshalFields fuel b2 { e with LogSeqNumber := v }
      else if num = 2 ∧ wtyp = 2 then
        match ConsumeVarint b1 with
        | none => none
        | some (m, b2) =>
          if m > b2.length then none
          else unmarshalFields fuel (b2.drop m) { e with Data := b2.take m }
      else if num = 3 ∧ wtyp = 0 then
        match ConsumeVarint b1 with
        | none => none
        | some (v, b2) => unmarshalFields fuel b2 { e with CRC := v % 2 ^ 32 }
      else if num = 4 ∧ wtyp = 0 then
        match ConsumeVarint b1 with
        | none => none
        | some (v, b2) => unmarshalFields fuel b2 { e with IsCheckpoint := some (decide (v ≠ 0)) }
      else
        match ConsumeFieldValue num wtyp b1 with
        | none => none
        | some b2 => unmarshalFields fuel b2 e

/-- The function `proto.Unmarshal` into a fresh `WAL_Entry`. -/
def Unmarshal (data : List Nat) : Option WAL_Entry :=
  unmarshalFields data.length data ⟨0, [], 0, none⟩

/-! ## Constants and configuration (`entry.go`, `config.go`) -/

/-- The constant `SyncInterval`, 300 ms as a `time.Duration` in nanoseconds. -/
def SyncInterval : Nat := 300 * 1000000

/-- The constant `SegmentPrefix`. -/
def SegmentPrefix : List Char := "wal-segment-".toList

/-- The struct `WALConfig`. -/
structure WALConfig where
  Directory : String
  EnableFsync : Bool
  MaxFileSize : Nat
  MaxSegments : Int
  SyncInterval : Nat
  deriving DecidableEq, Repr

/-- The function `CreateDefaultWALConfig`. -/
def CreateDefaultWALConfig (directory : String) : WALConfig :=
  { Directory := directory
    EnableFsync := true
    MaxFileSize := 16 * 1024 * 1024
    MaxSegments := 1
    SyncInterval := 300 * 1000000 }

/-! ## The directory of segment files -/

/-- The regular files of the WAL directory: base name and content. -/
abbrev Dir := List (List Char × List Nat)

/-- Content of the file called `name`, if the directory has one. -/
def readFile : Dir → List Char → Option (List Nat)
  | [], _ => none
  | (n, c) :: rest, name => if n = name then some c else readFile rest name

/-- A write through a handle opened with `O_APPEND`: the bytes go behind the
present content of the file. -/
def appendFile : Dir → List Char → List Nat → Dir
  | [], _, _ => []
  | (n, c) :: rest, name, p =>
    if n = name then (n, c ++ p) :: rest else (n, c) :: appendFile rest name p

/-- The call `os.Create`: an existing file is truncated, a missing one is made. -/
def createFile : Dir → List Char → Dir
  | [], name => [(name, [])]
  | (n, c) :: rest, name =>
    if n = name then (n, []) :: rest else (n, c) :: createFile rest name

/-- The call `os.OpenFile` with `O_CREATE` and without `O_TRUNC`: an existing
file is kept as it is, a missing one is made empty. -/
def openCreate : Dir → List Char → Dir
  | [], name => [(name, [])]
  | (n, c) :: rest, name =>
    if n = name then (n, c) :: rest else (n, c) :: openCreate rest name

/-! ## Path and number helpers (`path/filepath`, `strings`, `strconv`, `fmt`) -/

/-- Walk of `filepath.Ext` from the end of the name: `acc` is the part
already passed. -/
def extAux : List Char → List Char → List Char
  | [], _ => []
  | c :: cs, acc =>
    if c = '/' then [] else if c = '.' then '.' :: acc else extAux cs (c :: acc)

/-- The function `filepath.Ext`: the suffix that starts at the last dot of the
last path element, or the empty string. -/
def Ext (path : List Char) : List Char :=
  extAux path.reverse []

/-- The function `strings.HasPrefix`. -/
def HasPrefix (s pre : List Char) : Bool :=
  pre.isPrefixOf s

/-- The function `strings.TrimPrefix`. -/
def TrimPrefix (s pre : List Char) : List Char :=
  if HasPrefix s pre then s.drop pre.length else s

/-- The function `strings.TrimSuffix`. -/
def TrimSuffix (s suf : List Char) : List Char :=
  if suf.isSuffixOf s then s.take (s.length - suf.length) else s

/-- Value of a string of decimal digits, or nothing when a character is not a
digit. -/
def parseDigits : List Char → Nat → Option Nat
  | [], acc => some acc
  | c :: cs, acc =>
    if '0' ≤ c ∧ c ≤ '9' then parseDigits cs (acc * 10 + (c.toNat - '0'.toNat)) else none

/-- The function `strconv.Atoi` on a 64-bit platform: an optional sign, then
at least one digit and digits only, and a value in the range of `int`. -/
def Atoi (s : List Char) : Option Int :=
  match s with
  | [] => none
  | c :: cs =>
    let neg := decide (c = '-')
    let digits := if c = '-' ∨ c = '+' then cs else c :: cs
    if digits = [] then none
    else
      match parseDigits digits 0 with
      | none => none
      | some n =>
        if neg then (if n ≤ 2 ^ 63 then some (-(n : Int)) else none)
        else (if n ≤ 2 ^ 63 - 1 then some (n : Int) else none)

/-- The verb `%d` of `fmt.Sprintf` on an `int`. -/
def formatInt (i : Int) : List Char :=
  match i with
  | Int.ofNat n => Nat.toDigits 10 n
  | Int.negSucc n => '-' :: Nat.toDigits 10 (n + 1)

/-- Name of the segment file with the given ID, `fmt.Sprintf("%s%d", SegmentPrefix, id)`. -/
def segmentName (id : Int) : List Char :=
  SegmentPrefix ++ formatInt id

/-! ## Paths and patterns (`path/filepath`, Unix) -/

/-- The pieces of a path between separators. -/
def splitPath : List Char → List (List Char)
  | [] => [[]]
  | c :: cs =>
    if c = '/' then [] :: splitPath cs
    else
      match splitPath cs with
      | [] => [[c]]
      | e :: es => (c :: e) :: es

/-- The elements of a path put together again, a separator between two. -/
def joinPath : List (List Char) → List Char
  | [] => []
  | [e] => e
  | e :: es => e ++ '/' :: joinPath es

/-- One element in the loop of `filepath.Clean`; `out` holds the elements
kept so far, the last one first.  An empty element and `.` are dropped, `..`
takes the last element away when there is one to take, and stays when the
path is not rooted. -/
def cleanStep (rooted : Bool) (out : List (List Char)) (e : List Char) : List (List Char) :=
  if e = [] ∨ e = ['.'] then out
  else if e = ['.', '.'] then
    match out with
    | [] => if rooted then [] else [e]
    | top :: rest => if top = ['.', '.'] then e :: out else rest
  else e :: out

/-- The function `filepath.Clean` (Unix). -/
def Clean (path : List Char) : List Char :=
  if path = [] then ['.']
  else
    let rooted := decide (path.head? = some '/')
    let out := ((splitPath path).foldl (cleanStep rooted) []).reverse
    if rooted then '/' :: joinPath out
    else if out = [] then ['.'] else joinPath out

/-- The function `filepath.Join` of two elements. -/
def Join (dir name : List Char) : List Char :=
  if dir = [] then (if name = [] then [] else Clean name)
  else Clean (dir ++ '/' :: name)

/-- The function `filepath.Split`: the path up to and with its last
separator, and what follows. -/
def Split (path : List Char) : List Char × List Char :=
  let file := (path.reverse.takeWhile (fun c => c ≠ '/')).reverse
  (path.take (path.length - file.length), file)

/-- The function `filepath.Base`. -/
def Base (path : List Char) : List Char :=
  if path = [] then ['.']
  else
    let p := (path.reverse.dropWhile (fun c => c = '/')).reverse
    let e := (p.reverse.takeWhile (fun c => c ≠ '/')).reverse
    if e = [] then ['/'] else e

/-- The function `hasMeta` of `path/filepath` (Unix): the path holds one of
the characters that are special in a pattern. -/
def hasMeta (path : List Char) : Bool :=
  path.any (fun c => c = '*' ∨ c = '?' ∨ c = '[' ∨ c = '\\')

/-- The function `cleanGlobPath` (Unix). -/
def cleanGlobPath (path : List Char) : List Char :=
  if path = [] then ['.']
  else if path = ['/'] then path
  else path.take (path.length - 1)

/-- The scan of `scanChunk` behind the leading stars: the chunk, which ends
in front of the first star outside a character class, and the rest. -/
def scanChunkLoop : List Char → Bool → List Char × List Char
  | [], _ => ([], [])
  | [c], inrange => if c = '*' ∧ inrange = false then ([], [c]) else ([c], [])
  | c :: d :: ds, inrange =>
    if c = '\\' then
      let r := scanChunkLoop ds inrange
      (c :: d :: r.1, r.2)
    else if c = '[' then
      let r := scanChunkLoop (d :: ds) true
      (c :: r.1, r.2)
    else if c = ']' then
      let r := scanChunkLoop (d :: ds) false
      (c :: r.1, r.2)
    else if c = '*' ∧ inrange = false then ([], c :: d :: ds)
    else
      let r := scanChunkLoop (d :: ds) inrange
      (c :: r.1, r.2)

/-- The function `scanChunk`: whether the pattern starts with a star, the
chunk behind the stars, and the rest of the pattern. -/
def scanChunk (pattern : List Char) : Bool × List Char × List Char :=
  let p := pattern.dropWhile (fun c => c = '*')
  let r := scanChunkLoop p false
  (decide (pattern.head? = some '*'), r.1, r.2)

/-- The function `getEsc`: a character of a class, possibly escaped, and the
chunk behind it; nothing stands for `ErrBadPattern`. -/
def getEsc (chunk : List Char) : Option (Char × List Char) :=
  match chunk with
  | [] => none
  | c :: cs =>
    if c = '-' ∨ c = ']' then none
    else if c = '\\' then
      match cs with
      | [] => none
      | r :: n => if n = [] then none else some (r, n)
    else if cs = [] then none else some (c, cs)

/-- The loop of `matchChunk` over the ranges of a character class: whether
`r` is in one of them, and the chunk behind the closing bracket; nothing
stands for `ErrBadPattern`. -/
def classLoop : Nat → List Char → Char → Bool → Bool → Option (Bool × List Char)
  | 0, _, _, _, _ => none
  | fuel + 1, chunk, r, matched, started =>
    if chunk.head? = some ']' ∧ started = true then some (matched, chunk.tail)
    else
      match getEsc chunk with
      | none => none
      | some (lo, c1) =>
        if c1.head? = some '-' then
          match getEsc c1.tail with
          | none => none
          | some (hi, c2) => classLoop fuel c2 r (matched || decide (lo ≤ r ∧ r ≤ hi)) true
        else classLoop fuel c1 r (matched || decide (lo ≤ r ∧ r ≤ lo)) true

/-- The loop of `matchChunk`.  The outer option is nothing for
`ErrBadPattern`; the inner one is the rest of `s` behind the match, or
nothing when the chunk does not match.  After a failure the loop goes on to
check the chunk and no longer reads `s`. -/
def matchChunkLoop : Nat → List Char → List Char → Bool → Option (Option (List Char))
  | 0, _, _, _ => none
  | fuel + 1, chunk, s, failed =>
    match chunk with
    | [] => some (if failed then none else some s)
    | c :: cs =>
      let failed := failed || s.isEmpty
      if c = '[' then
        let r := if failed then (default : Char) else s.headD default
        let s1 := if failed then s else s.tail
        let negated := decide (cs.head? = some '^')
        let cs1 := if negated then cs.tail else cs
        match classLoop (cs1.length + 1) cs1 r false false with
        | none => none
        | some (matched, cs2) =>
          matchChunkLoop fuel cs2 s1 (failed || (matched == negated))
      else if c = '?' then
        if failed then matchChunkLoop fuel cs s failed
        else matchChunkLoop fuel cs s.tail (decide (s.head? = some '/'))
      else if c = '\\' then
        match cs with
        | [] => none
        | e :: cs1 =>
          if failed then matchChunkLoop fuel cs1 s failed
          else matchChunkLoop fuel cs1 s.tail (decide (s.head? ≠ some e))
      else
        if failed then matchChunkLoop fuel cs s failed
        else matchChunkLoop fuel cs s.tail (decide (s.head? ≠ some c))

/-- The function `matchChunk`. -/
def matchChunk (chunk s : List Char) : Option (Option (List Char)) :=
  matchChunkLoop (chunk.length + 1) chunk s false

/-- The search of `Match` behind a star: the chunk is tried at every later
position of the name up to the first separator.  `last` says that the chunk
is the last one, which has to use the name up.  The outer option is nothing
for `ErrBadPattern`, the inner one is the rest of the name behind the match
found. -/
def starSearch (chunk : List Char) (last : Bool) : List Char → Option (Option (List Char))
  | [] => some none
  | c :: cs =>
    if c = '/' then some none
    else
      match matchChunk chunk cs with
      | none => none
      | some (some t) => if last ∧ t ≠ [] then starSearch chunk last cs else some (some t)
      | some none => starSearch chunk last cs

/-- The check `Match` makes before it returns false: the rest of the pattern
is well formed. -/
def checkRest : Nat → List Char → Bool
  | 0, _ => true
  | fuel + 1, pattern =>
    if pattern = [] then true
    else
      let r := scanChunk pattern
      match matchChunk r.2.1 [] with
      | none => false
      | some _ => checkRest fuel r.2.2

/-- The loop of `filepath.Match`; nothing stands for `ErrBadPattern`. -/
def matchLoop : Nat → List Char → List Char → Option Bool
  | 0, _, _ => none
  | fuel + 1, pattern, name =>
    if pattern = [] then some (decide (name = []))
    else
      let r := scanChunk pattern
      let star := r.1
      let chunk := r.2.1
      let rest := r.2.2
      if star = true ∧ chunk = [] then some (!name.contains '/')
      else
        match matchChunk chunk name with
        | none => none
        | some first =>
          match (match first with
                 | some t => if t = [] ∨ rest ≠ [] then some t else none
                 | none => none) with
          | some t => matchLoop fuel rest t
          | none =>
            if star then
              match starSearch chunk (decide (rest = [])) name with
              | none => none
              | some (some t) => matchLoop fuel rest t
              | some none => if checkRest (rest.length + 1) rest then some false else none
            else if checkRest (rest.length + 1) rest then some false else none

/-- The function `filepath.Match`; nothing stands for `ErrBadPattern`. -/
def Match (pattern name : List Char) : Option Bool :=
  matchLoop (pattern.length + 1) pattern name

/-! ## The file system and `filepath.Glob` -/

/-- The directories of the file system, each with its cleaned path and its
regular files.  A directory that is only passed through on the way to a
listed one exists without being listed; there are no symbolic links. -/
abbrev FS := List (List Char × Dir)

instance : DecidableEq FS := inferInstanceAs (DecidableEq (List (List Char × Dir)))

/-- The regular files of the directory listed under `path`, if it is listed. -/
def fsLookup : FS → List Char → Option Dir
  | [], _ => none
  | (k, d) :: rest, path => if k = path then some d else fsLookup rest path

/-- The regular files of a directory; none when the directory is not listed. -/
def fsFiles (fs : FS) (path : List Char) : Dir :=
  (fsLookup fs path).getD []

/-- The file system with the regular files of the directory `path` replaced
by `d`; the directory is added when it is not listed. -/
def fsSet : FS → List Char → Dir → FS
  | [], path, d => [(path, d)]
  | (k, x) :: rest, path, d =>
    if k = path then (k, d) :: rest else (k, x) :: fsSet rest path d

/-- What is left of the path `k` below the directory `d`, when `k` lies
below `d`. -/
def below (d k : List Char) : Option (List Char) :=
  if d = ['.'] then (if k.head? = some '/' ∨ k = ['.'] then none else some k)
  else if d = ['/'] then (if k.head? = some '/' ∧ k ≠ ['/'] then some k.tail else none)
  else if (d ++ ['/']).isPrefixOf k then some (k.drop (d.length + 1)) else none

/-- The names of the directories directly below the directory `d`. -/
def fsChildDirs (fs : FS) (d : List Char) : List (List Char) :=
  ((fs.filterMap (fun e => (below d e.1).map (fun r => (splitPath r).headD []))).filter
    (fun n => n ≠ [] ∧ n ≠ ['.'] ∧ n ≠ ['.', '.'])).eraseDups

/-- Whether `path` is a directory: the working directory, the root, a listed
directory, or one passed through on the way to a listed one. -/
def fsIsDir (fs : FS) (path : List Char) : Bool :=
  decide (path = ['.']) || decide (path = ['/']) ||
    fs.any (fun e => decide (e.1 = path) || (below path e.1).isSome)

/-- The names `Readdirnames` returns for a directory: its regular files and
its directories.  The order is not modelled. -/
def fsNames (fs : FS) (d : List Char) : List (List Char) :=
  (fsFiles fs d).map Prod.fst ++ fsChildDirs fs d

/-- Whether `os.Lstat` finds something at `path`: a directory or a regular
file. -/
def fsExists (fs : FS) (path : List Char) : Bool :=
  fsIsDir fs path ||
    decide ((Split path).2 ∈ (fsFiles fs (cleanGlobPath (Split path).1)).map Prod.fst)

/-- The loop of `glob` (in `path/filepath`) over the names of a directory:
every name the pattern matches is added to the matches, joined with the
directory.  Nothing stands for `ErrBadPattern`. -/
def globNames (dir pattern : List Char) :
    List (List Char) → List (List Char) → Option (List (List Char))
  | [], m => some m
  | n :: ns, m =>
    match Match pattern n with
    | none => none
    | some true => globNames dir pattern ns (m ++ [Join dir n])
    | some false => globNames dir pattern ns m

/-- The function `glob` of `path/filepath`: the names in `dir` that the
pattern, which holds no separator, matches.  What is not a directory gives no
match.  `Glob` sorts the names; the order does not show in the result of
`prepareCurrentSegment`, which takes a maximum and returns an error without
the name. -/
def globDir (fs : FS) (dir pattern : List Char) (m : List (List Char)) :
    Option (List (List Char)) :=
  if fsIsDir fs dir = false then some m
  else globNames dir pattern (fsNames fs dir) m

/-- The loop of `globWithLimit` over the directories its recursion found. -/
def globAll (fs : FS) (file : List Char) :
    List (List Char) → List (List Char) → Option (List (List Char))
  | [], m => some m
  | d :: ds, m =>
    match globDir fs d file m with
    | none => none
    | some m1 => globAll fs file ds m1

/-- The function `globWithLimit`: the pattern is checked, split at its last
separator, and the part in front is itself expanded when it holds a special
character.  Every recursive call is on a shorter pattern, so the fuel
`Glob` passes is never what stops it.  Nothing stands for `ErrBadPattern`. -/
def globWithLimit (fs : FS) : Nat → Nat → List Char → Option (List (List Char))
  | 0, _, _ => none
  | fuel + 1, depth, pattern =>
    if depth = 10000 then none
    else
      match Match pattern [] with
      | none => none
      | some _ =>
        if hasMeta pattern = false then
          (if fsExists fs pattern then some [pattern] else some [])
        else
          let dir := cleanGlobPath (Split pattern).1
          let file := (Split pattern).2
          if hasMeta dir = false then globDir fs dir file []
          else if dir = pattern then none
          else
            match globWithLimit fs fuel (depth + 1) dir with
            | none => none
            | some m => globAll fs file m []

/-- The function `filepath.Glob`; nothing stands for `ErrBadPattern`. -/
def Glob (fs : FS) (pattern : List Char) : Option (List (List Char)) :=
  globWithLimit fs (pattern.length + 1) 0 pattern

/-- The system calls of `InitWAL` that the environment makes fail
(permissions, a full disk, a path element that is no directory). -/
structure Env where
  mkdirAllFails : Bool
  createFails : Bool
  closeFails : Bool
  openFails : Bool
  seekFails : Bool
  deriving DecidableEq, Repr

/-- The environment in which no system call of `InitWAL` fails. -/
def noFaults : Env :=
  { mkdirAllFails := false, createFails := false, closeFails := false, openFails := false,
    seekFails := false }

/-- The call `os.MkdirAll` when it succeeds: the directory exists afterwards. -/
def MkdirAll (fs : FS) (dir : List Char) : FS :=
  if fsIsDir fs (Clean dir) then fs else fs ++ [(Clean dir, [])]

/-! ## Engine state (`entry.go`) -/

/-- The struct `WAL`.  The directory content the engine acts on is carried in
`disk`; `currSegment` is the name of the open segment file; `bufWriter` holds
the bytes buffered by the `bufio.Writer` and `bufErr` its sticky error;
`syncTimer` is the duration the timer was last armed with; `cancelled` and
`closed` record `cancel()` and the closing of the file handle.  `ioFault`
stands for the environment: when it is set, the write and fsync system calls
on the segment fail.  The mutex is not modelled: every operation runs as one
step. -/
structure WAL where
  directory : String
  disk : Dir
  currSegment : List Char
  bufWriter : List Nat
  bufErr : Bool
  currSegmentIdx : Int
  lastSeqNo : Nat
  maxFileSize : Nat
  maxSegments : Int
  syncTimer : Nat
  shouldFsync : Bool
  cancelled : Bool
  closed : Bool
  ioFault : Bool
  deriving DecidableEq, Repr

/-! ## The buffered writer (`bufio`) -/

/-- Size of the buffer of `bufio.NewWriter`. -/
def defaultBufSize : Nat := 4096

/-- The method `(*os.File).Write` on the segment handle: all bytes are
appended, or the call fails and writes nothing. -/
def fileWrite (w : WAL) (p : List Nat) : Option WAL :=
  if w.ioFault ∨ w.closed then none
  else some { w with disk := appendFile w.disk w.currSegment p }

/-- The method `(*bufio.Writer).Available`. -/
def bufAvailable (w : WAL) : Nat :=
  defaultBufSize - w.bufWriter.length

/-- The method `(*bufio.Writer).Flush`: the state afterwards and whether the
call returned nil. -/
def bufFlush (w : WAL) : WAL × Bool :=
  if w.bufErr then (w, false)
  else if w.bufWriter.length = 0 then (w, true)
  else
    match fileWrite w w.bufWriter with
    | none => ({ w with bufErr := true }, false)
    | some w1 => ({ w1 with bufWriter := [] }, true)

/-- The loop of `(*bufio.Writer).Write`, run while the bytes left do not fit
the buffer and no error is recorded: a write into an empty buffer goes to
the file directly, otherwise the buffer is filled up and flushed.  The
result is the state and the bytes still to be copied. -/
def bufWriteLoop : Nat → WAL → List Nat → WAL × List Nat
  | 0, w, p => (w, p)
  | fuel + 1, w, p =>
    if p.length > bufAvailable w ∧ w.bufErr = false then
      if w.bufWriter.length = 0 then
        match fileWrite w p with
        | none => bufWriteLoop fuel { w with bufErr := true } p
        | some w1 => bufWriteLoop fuel w1 []
      else
        let n := min (bufAvailable w) p.length
        let w1 := { w with bufWriter := w.bufWriter ++ p.take n }
        bufWriteLoop fuel (bufFlush w1).1 (p.drop n)
    else (w, p)

/-- The method `(*bufio.Writer).Write`: the state afterwards and whether the
call returned nil.  The loop body runs at most twice (`bufWriteLoop_exit`). -/
def bufWrite (w : WAL) (p : List Nat) : WAL × Bool :=
  let r := bufWriteLoop 2 w p
  if r.1.bufErr then (r.1, false)
  else ({ r.1 with bufWriter := r.1.bufWriter ++ r.2 }, true)

/-- Every byte the engine has accepted for its segment so far: the content of
the segment file, then the bytes still held by the buffered writer. -/
def logBytes (w : WAL) : List Nat :=
  (readFile w.disk w.currSegment).getD [] ++ w.bufWriter

/-- The engine is in working order: its segment file exists and is open, the
environment lets writes through, and the writer has recorded no error. -/
def healthy (w : WAL) : Prop :=
  w.bufErr = false ∧ w.ioFault = false ∧ w.closed = false
    ∧ (readFile w.disk w.currSegment).isSome = true

/-! ## Appending (`wal.go`) -/

/-- The bytes `writeEntryToBuffer` hands to the writer for a marshalled entry:
its length as a little-endian `int32`, then the entry. -/
def frameBytes (body : List Nat) : List Nat :=
  putInt32LE (toInt32 body.length) ++ body

/-- A segment that holds the given marshalled entries, one frame after the
other. -/
def framesBytes : List (List Nat) → List Nat
  | [] => []
  | body :: bodies => frameBytes body ++ framesBytes bodies

/-- The method `writeEntryToBuffer`: the length of the marshalled entry as an
`int32`, then the marshalled entry, both through the buffered writer. -/
def writeEntryToBuffer (w : WAL) (entry : WAL_Entry) : WAL × Option WalError :=
  let marshaledEntry := Marshal entry
  let size := toInt32 marshaledEntry.length
  let r1 := bufWrite w (putInt32LE size)
  if r1.2 = false then (r1.1, some WalError.writeSize)
  else
    let r2 := bufWrite r1.1 marshaledEntry
    if r2.2 = false then (r2.1, some WalError.writeData)
    else (r2.1, none)

/-- The method `WriteEntry`. -/
def WriteEntry (w : WAL) (data : List Nat) : WAL × Option WalError :=
  let w1 := { w with lastSeqNo := (w.lastSeqNo + 1) % 2 ^ 64 }
  let entry : WAL_Entry :=
    { LogSeqNumber := w1.lastSeqNo, Data := data, CRC := ChecksumIEEE data, IsCheckpoint := none }
  writeEntryToBuffer w1 entry

/-- The method `Sync`: flush, fsync when enabled, and re-arm the timer with
the constant `SyncInterval`. -/
def Sync (w : WAL) : WAL × Option WalError :=
  let r := bufFlush w
  if r.2 = false then (r.1, some WalError.flush)
  else if r.1.shouldFsync ∧ (r.1.ioFault ∨ r.1.closed) then (r.1, some WalError.fsync)
  else ({ r.1 with syncTimer := SyncInterval }, none)

/-- The method `WriteEntryWithCheckpoint`. -/
def WriteEntryWithCheckpoint (w : WAL) (data : List Nat) : WAL × Option WalError :=
  let r := Sync w
  match r.2 with
  | some err => (r.1, some (WalError.syncBeforeCheckpoint err))
  | none =>
    let w1 := { r.1 with lastSeqNo := (r.1.lastSeqNo + 1) % 2 ^ 64 }
    let entry : WAL_Entry :=
      { LogSeqNumber := w1.lastSeqNo, Data := data, CRC := ChecksumIEEE data,
        IsCheckpoint := some true }
    writeEntryToBuffer w1 entry

/-- The method `Close`. -/
def Close (w : WAL) : WAL × Option WalError :=
  let w0 := { w with cancelled := true }
  let r := Sync w0
  match r.2 with
  | some e => (r.1, some e)
  | none =>
    if r.1.closed then (r.1, some WalError.closeFile)
    else ({ r.1 with closed := true }, none)

/-! ## Scanning a segment (`wal.go`, `segments.go`) -/

/-- The loop of `ReadAll` over the bytes of the segment file.  An end of file
in front of a length word ends the loop; a short length word, a short body,
a body that does not unmarshal and a checksum mismatch are errors; a negative
length makes `make([]byte, size)` panic. -/
def readAllLoop : Nat → List Nat → List WAL_Entry → Res (List WAL_Entry)
  | 0, _, _ => Res.error WalError.readSize
  | fuel + 1, file, entries =>
    match file with
    | [] => Res.ok entries
    | b0 :: b1 :: b2 :: b3 :: rest =>
      let size := getInt32LE b0 b1 b2 b3
      if size < 0 then Res.panic
      else if rest.length < size.toNat then Res.error WalError.readData
      else
        match Unmarshal (rest.take size.toNat) with
        | none => Res.error WalError.unmarshal
        | some entry =>
          if ChecksumIEEE entry.Data ≠ entry.CRC then Res.error WalError.crcMismatch
          else readAllLoop fuel (rest.drop size.toNat) (entries ++ [entry])
    | _ => Res.error WalError.readSize

/-- The method `ReadAll`: the segment is opened by name and scanned from the
start. -/
def ReadAll (w : WAL) : Res (List WAL_Entry) :=
  match readFile w.disk w.currSegment with
  | none => Res.error WalError.openSegment
  | some file => readAllLoop (file.length + 1) file []

/-- The function `verifyCRC`. -/
def verifyCRC (entry : WAL_Entry) : Bool :=
  decide (entry.CRC = ChecksumIEEE entry.Data)

/-- The function `unmarshalAndVerifyEntry`. -/
def unmarshalAndVerifyEntry (data : List Nat) : Res WAL_Entry :=
  match Unmarshal data with
  | none => Res.error WalError.unmarshal
  | some entry =>
    if verifyCRC entry = false then Res.error WalError.crcMismatch
    else Res.ok entry

/-- The loop of `getLastEntryInLog` over the bytes of the segment file: every
read or decode failure ends the scan with the last entry decoded so far; a
negative length makes `make([]byte, size)` panic. -/
def getLastEntryLoop : Nat → List Nat → Option WAL_Entry → Res (Option WAL_Entry)
  | 0, _, lastEntry => Res.ok lastEntry
  | fuel + 1, file, lastEntry =>
    match file with
    | [] => Res.ok lastEntry
    | b0 :: b1 :: b2 :: b3 :: rest =>
      let size := getInt32LE b0 b1 b2 b3
      if size < 0 then Res.panic
      else if rest.length < size.toNat then Res.ok lastEntry
      else
        match unmarshalAndVerifyEntry (rest.take size.toNat) with
        | Res.ok entry => getLastEntryLoop fuel (rest.drop size.toNat) (some entry)
        | _ => Res.ok lastEntry
    | _ => Res.ok lastEntry

/-- The method `getLastEntryInLog`: a missing file has no entries. -/
def getLastEntryInLog (w : WAL) : Res (Option WAL_Entry) :=
  match readFile w.disk w.currSegment with
  | none => Res.ok none
  | some file => getLastEntryLoop (file.length + 1) file none

/-- The method `getLastSeqNo`. -/
def getLastSeqNo (w : WAL) : Res Nat :=
  match getLastEntryInLog w with
  | Res.error e => Res.error e
  | Res.panic => Res.panic
  | Res.ok none => Res.ok 0
  | Res.ok (some entry) => Res.ok entry.LogSeqNumber

/-! ## Locating the current segment (`segments.go`) and opening the engine -/

/-- The function `createSegmentFile`, followed by the `Close` of the new
file: `os.Create` on the file with the segment name in the directory `dir`.
The file system afterwards, or the error. -/
def createSegmentFile (env : Env) (fs : FS) (dir : List Char) (segmentID : Int) : Res FS :=
  if env.createFails = true ∨ fsIsDir fs (Clean dir) = false
      ∨ segmentName segmentID ∈ fsChildDirs fs (Clean dir) then
    Res.error WalError.createSegment
  else if env.closeFails then Res.error WalError.closeFile
  else Res.ok (fsSet fs (Clean dir) (createFile (fsFiles fs (Clean dir)) (segmentName segmentID)))

/-- The loop of `prepareCurrentSegment` over the base names of the paths
matched by the glob. -/
def maxSegmentLoop : List (List Char) → Int → Res Int
  | [], maxSegmentID => Res.ok maxSegmentID
  | filename :: files, maxSegmentID =>
    let nameWithoutExt := TrimSuffix filename (Ext filename)
    if HasPrefix nameWithoutExt SegmentPrefix = false then maxSegmentLoop files maxSegmentID
    else
      let idStr := TrimPrefix nameWithoutExt SegmentPrefix
      if idStr = [] then maxSegmentLoop files maxSegmentID
      else
        match Atoi idStr with
        | none => Res.error WalError.invalidSegmentName
        | some segmentID => maxSegmentLoop files (max maxSegmentID segmentID)

/-- The names of a directory listing that start with the segment stem. -/
def globSegments (disk : Dir) : List (List Char) :=
  (disk.map Prod.fst).filter (fun name => HasPrefix name SegmentPrefix)

/-- The function `prepareCurrentSegment`: the segment ID and the file system
afterwards (a segment 0 is created when the glob matches nothing).  The
pattern of the glob is the directory joined with the segment stem and a
star, so the directory is read as a pattern too. -/
def prepareCurrentSegment (env : Env) (dir : List Char) (fs : FS) : Res (Int × FS) :=
  match Glob fs (Join dir (SegmentPrefix ++ ['*'])) with
  | none => Res.error WalError.badPattern
  | some files =>
    if files.length = 0 then
      match createSegmentFile env fs dir 0 with
      | Res.ok fs1 => Res.ok (0, fs1)
      | Res.error e => Res.error e
      | Res.panic => Res.panic
    else
      match maxSegmentLoop (files.map Base) 0 with
      | Res.ok maxSegmentID => Res.ok (maxSegmentID, fs)
      | Res.error e => Res.error e
      | Res.panic => Res.panic

/-- The function `InitWAL` on a file system.  The engine keeps the regular
files of its directory in `disk`. -/
def InitWAL (cfg : WALConfig) (env : Env) (fs : FS) : Res WAL :=
  if cfg.Directory = "" then Res.error WalError.emptyDirectory
  else if env.mkdirAllFails then Res.error WalError.mkdirAll
  else
    match prepareCurrentSegment env cfg.Directory.toList (MkdirAll fs cfg.Directory.toList) with
    | Res.error e => Res.error e
    | Res.panic => Res.panic
    | Res.ok (segmentId, fs1) =>
      let filePath := segmentName segmentId
      if env.openFails = true ∨ filePath ∈ fsChildDirs fs1 (Clean cfg.Directory.toList) then
        Res.error WalError.openSegment
      else if env.seekFails then Res.error WalError.seek
      else
        let wal : WAL :=
          { directory := cfg.Directory
            disk := openCreate (fsFiles fs1 (Clean cfg.Directory.toList)) filePath
            currSegment := filePath
            bufWriter := []
            bufErr := false
            currSegmentIdx := segmentId
            lastSeqNo := 0
            maxFileSize := cfg.MaxFileSize
            maxSegments := cfg.MaxSegments
            syncTimer := cfg.SyncInterval
            shouldFsync := cfg.EnableFsync
            cancelled := false
            closed := false
            ioFault := false }
        match getLastSeqNo wal with
        | Res.error e => Res.error e
        | Res.panic => Res.panic
        | Res.ok n => Res.ok { wal with lastSeqNo := n }

/-- The file system a run of the engine in the directory `dir` leaves behind:
the regular files of that directory are those the engine holds in `disk`,
everything else is as `InitWAL` found it. -/
def fsAfter (fs : FS) (dir : List Char) (disk : Dir) : FS :=
  fsSet fs (Clean dir) disk

/-- The directory `dir` of `fs` is an ordinary one for the engine: its
cleaned path holds no character that is special in a pattern, the names of
its regular files hold no separator, and no directory directly below it has a
name that starts with the segment stem. -/
def plainDir (fs : FS) (dir : List Char) : Prop :=
  hasMeta (Clean dir) = false ∧
    (∀ n ∈ (fsFiles fs (Clean dir)).map Prod.fst, '/' ∉ n) ∧
    (∀ n ∈ fsChildDirs fs (Clean dir), HasPrefix n SegmentPrefix = false)

instance (fs : FS) (dir : List Char) : Decidable (plainDir fs dir) := by
  unfold plainDir
  infer_instance

/-! ## Call sequences -/

/-- A call on the engine: `WriteEntry`, `WriteEntryWithCheckpoint` or `Sync`. -/
inductive Call where
  | write (data : List Nat)
  | checkpoint (data : List Nat)
  | sync
  deriving DecidableEq, Repr

/-- One call: the state afterwards and the error returned. -/
def applyCall (w : WAL) : Call → WAL × Option WalError
  | Call.write data => WriteEntry w data
  | Call.checkpoint data => WriteEntryWithCheckpoint w data
  | Call.sync => Sync w

/-- A sequence of calls, in order: the final state and the error returned by
each call. -/
def applyCalls : WAL → List Call → WAL × List (Option WalError)
  | w, [] => (w, [])
  | w, c :: cs =>
    let r := applyCall w c
    let rs := applyCalls r.1 cs
    (rs.1, r.2 :: rs.2)

/-- An operation on the engine: one of the calls above, or `Close`. -/
inductive Op where
  | call (c : Call)
  | close
  deriving DecidableEq, Repr

/-- One operation: the state afterwards and the error returned. -/
def applyOp (w : WAL) : Op → WAL × Option WalError
  | Op.call c => applyCall w c
  | Op.close => Close w

/-- A sequence of operations, in order: the final state. -/
def applyOps : WAL → List Op → WAL
  | w, [] => w
  | w, o :: os => applyOps (applyOp w o).1 os

/-- The append call for a payload: a checkpoint write when the flag is set, a
plain write otherwise. -/
def appendCall (x : Bool × List Nat) : Call :=
  if x.1 then Call.checkpoint x.2 else Call.write x.2

/-- The entries the append calls of a sequence build, in call order, when the
counter stands at `seq` before the first call (`WriteEntry` and
`WriteEntryWithCheckpoint` increment the counter and put the new value in the
entry). -/
def builtEntries : Nat → List Call → List WAL_Entry
  | _, [] => []
  | seq, Call.write data :: cs =>
    { LogSeqNumber := (seq + 1) % 2 ^ 64, Data := data, CRC := ChecksumIEEE data,
      IsCheckpoint := none } :: builtEntries ((seq + 1) % 2 ^ 64) cs
  | seq, Call.checkpoint data :: cs =>
    { LogSeqNumber := (seq + 1) % 2 ^ 64, Data := data, CRC := ChecksumIEEE data,
      IsCheckpoint := some true } :: builtEntries ((seq + 1) % 2 ^ 64) cs
  | seq, Call.sync :: cs => builtEntries seq cs

/-- The payload of a call; `Sync` carries none. -/
def Call.payload : Call → List Nat
  | Call.write data => data
  | Call.checkpoint data => data
  | Call.sync => []

/-- A damaged end of a segment as a crash leaves it: one to three bytes of a
length word, or a whole length word followed by fewer bytes than it
declares. -/
def isTruncatedTail : List Nat → Bool
  | [] => false
  | [_] => true
  | [_, _] => true
  | [_, _, _] => true
  | b0 :: b1 :: b2 :: b3 :: rest => decide ((rest.length : Int) < getInt32LE b0 b1 b2 b3)

/-- The engine `InitWAL` returns for the default configuration on an empty
directory. -/
def exampleEngine : WAL :=
  { directory := "wal", disk := [(segmentName 0, [])], currSegment := segmentName 0,
    bufWriter := [], bufErr := false, currSegmentIdx := 0, lastSeqNo := 0,
    maxFileSize := 16 * 1024 * 1024, maxSegments := 1, syncTimer := 300 * 1000000,
    shouldFsync := true, cancelled := false, closed := false, ioFault := false }

/-- A payload of 2 GiB, all bytes zero. -/
def hugePayload : List Nat :=
  List.replicate (2 ^ 31) 0

/-- All but the last byte of `wrapPayload`.  Read as part of a marshalled
entry the bytes are payload; read as a segment they are the end of one frame
and two frames more: eight bytes, a length-delimited field number 5 with
302088181 zero bytes, the length word 2000000000 and a field number 5 with
1999999994 zero bytes, the length word 1992879084 and the start of a field
number 5 with 1992879078 bytes of content, of which 1992879071 zero bytes
stand here. -/
def wrapStart : List Nat :=
  List.replicate 8 0 ++ (0x2A :: (AppendVarint 302088181 ++ List.replicate 302088181 0))
    ++ putInt32LE 2000000000 ++ (0x2A :: (AppendVarint 1999999994 ++ List.replicate 1999999994 0))
    ++ putInt32LE 1992879084 ++ (0x2A :: (AppendVarint 1992879078 ++ List.replicate 1992879071 0))

/-- A payload of `2 ^ 32 - 15` bytes.  Its last byte is the low byte of the
CRC register after the bytes before it, so the checksum of the payload is at
least `0xFF000000` and takes five bytes as a varint.  Written as entry number
128 the payload gives a marshalled entry of exactly `2 ^ 32` bytes: three
bytes for the number, one tag and five length bytes, the payload, one tag and
five bytes for the checksum. -/
def wrapPayload : List Nat :=
  wrapStart ++ [wrapStart.foldl crcUpdateByte 0xFFFFFFFF % 256]

/-! ## Lemmas -/

theorem consumeVarintAux_append (n : Nat) : ∀ (v : Nat) (rest : List Nat), v < 2 * 128 ^ n →
    consumeVarintAux n (appendVarintAux n v ++ rest) = some (v, rest) := by
  induction n with
  | zero =>
    intro v rest hv
    have hv2 : v < 2 := by simpa using hv
    simp [appendVarintAux, consumeVarintAux, hv2]
  | succ n ih =>
    intro v rest hv
    by_cases h : v < 128
    · simp [appendVarintAux, consumeVarintAux, h]
    · have hdiv : v / 128 < 2 * 128 ^ n := by
        rw [Nat.div_lt_iff_lt_mul (by norm_num)]
        calc v < 2 * 128 ^ (n + 1) := hv
          _ = 2 * 128 ^ n * 128 := by ring
      have hnot : ¬ (v % 128 + 128 < 128) := by omega
      simp only [appendVarintAux, h, if_false, List.cons_append, consumeVarintAux, hnot, ih _ rest hdiv]
      simp
      omega

theorem ConsumeVarint_AppendVarint (v : Nat) (rest : List Nat) (hv : v < 2 ^ 64) :
    ConsumeVarint (AppendVarint v ++ rest) = some (v, rest) := by
  unfold ConsumeVarint AppendVarint
  rw [Nat.mod_eq_of_lt hv]
  exact consumeVarintAux_append 9 v rest (by norm_num; omega)

theorem appendVarintAux_ne_nil (n v : Nat) : appendVarintAux n v ≠ [] := by
  cases n with
  | zero => simp [appendVarintAux]
  | succ n => by_cases h : v < 128 <;> simp [appendVarintAux, h]

theorem AppendVarint_length_pos (v : Nat) : 1 ≤ (AppendVarint v).length := by
  have := appendVarintAux_ne_nil 9 (v % 2 ^ 64)
  unfold AppendVarint
  exact List.length_pos.mpr this

theorem appendVarintAux_length_le (n : Nat) : ∀ v, (appendVarintAux n v).length ≤ n + 1 := by
  induction n with
  | zero => intro v; simp [appendVarintAux]
  | succ n ih =>
    intro v
    by_cases h : v < 128
    · simp [appendVarintAux, h]
    · simp [appendVarintAux, h]; exact ih _

theorem AppendVarint_length_le (v : Nat) : (AppendVarint v).length ≤ 10 :=
  appendVarintAux_length_le 9 _

theorem ConsumeVarint_small (b : Nat) (rest : List Nat) (hb : b < 128) :
    ConsumeVarint (b :: rest) = some (b, rest) := by
  simp [ConsumeVarint, consumeVarintAux, hb]

theorem unmarshalFields_seq (fuel v : Nat) (rest : List Nat) (e : WAL_Entry) (hv : v < 2 ^ 64) :
    unmarshalFields (fuel + 1) (0x08 :: (AppendVarint v ++ rest)) e
      = unmarshalFields fuel rest { e with LogSeqNumber := v } := by
  rw [unmarshalFields, ConsumeVarint_small 8 _ (by norm_num)]
  simp [MaxValidNumber, ConsumeVarint_AppendVarint v rest hv]

theorem unmarshalFields_data (fuel : Nat) (d rest : List Nat) (e : WAL_Entry)
    (hd : d.length < 2 ^ 64) :
    unmarshalFields (fuel + 1) (0x12 :: (AppendVarint d.length ++ d ++ rest)) e
      = unmarshalFields fuel rest { e with Data := d } := by
  rw [unmarshalFields, ConsumeVarint_small 18 _ (by norm_num)]
  simp [MaxValidNumber, List.append_assoc, ConsumeVarint_AppendVarint d.length (d ++ rest) hd]

theorem unmarshalFields_crc (fuel v : Nat) (rest : List Nat) (e : WAL_Entry) (hv : v < 2 ^ 32) :
    unmarshalFields (fuel + 1) (0x18 :: (AppendVarint v ++ rest)) e
      = unmarshalFields fuel rest { e with CRC := v } := by
  rw [unmarshalFields, ConsumeVarint_small 24 _ (by norm_num)]
  have hv64 : v < 2 ^ 64 := lt_trans hv (by norm_num)
  have hm : v % 4294967296 = v := Nat.mod_eq_of_lt (by simpa using hv)
  simp [MaxValidNumber, ConsumeVarint_AppendVarint v rest hv64, hm]

theorem unmarshalFields_flag (fuel : Nat) (c : Bool) (rest : List Nat) (e : WAL_Entry) :
    unmarshalFields (fuel + 1) (0x20 :: (if c then 1 else 0) :: rest) e
      = unmarshalFields fuel rest { e with IsCheckpoint := some c } := by
  rw [unmarshalFields, ConsumeVarint_small 32 _ (by norm_num)]
  cases c <;> simp [MaxValidNumber, ConsumeVarint_small]

theorem unmarshalFields_nil (fuel : Nat) (x : WAL_Entry) : unmarshalFields fuel [] x = some x := by
  cases fuel <;> simp [unmarshalFields]

theorem unmarshalFields_marshalFlag (e x : WAL_Entry) (fuel : Nat)
    (hf : (marshalFlag e).length ≤ fuel) :
    unmarshalFields fuel (marshalFlag e) x
      = some { x with IsCheckpoint := match e.IsCheckpoint with
                                      | none => x.IsCheckpoint
                                      | some c => some c } := by
  unfold marshalFlag at hf ⊢
  cases h : e.IsCheckpoint with
  | none => simp [unmarshalFields_nil]
  | some c =>
    rw [h] at hf
    obtain ⟨f, rfl⟩ : ∃ f, fuel = f + 1 := ⟨fuel - 1, by simp at hf; omega⟩
    simp only []
    rw [unmarshalFields_flag, unmarshalFields_nil]

theorem unmarshalFields_marshalCRC (e x : WAL_Entry) (fuel : Nat) (hcrc : e.CRC < 2 ^ 32)
    (hf : (marshalCRC e ++ marshalFlag e).length ≤ fuel) :
    unmarshalFields fuel (marshalCRC e ++ marshalFlag e) x
      = some { x with CRC := if e.CRC = 0 then x.CRC else e.CRC
                      IsCheckpoint := match e.IsCheckpoint with
                                      | none => x.IsCheckpoint
                                      | some c => some c } := by
  have hm : e.CRC % 2 ^ 32 = e.CRC := Nat.mod_eq_of_lt hcrc
  unfold marshalCRC at hf ⊢
  rw [hm] at hf ⊢
  by_cases h0 : e.CRC = 0
  · simp only [h0, if_true, List.nil_append] at hf ⊢
    rw [unmarshalFields_marshalFlag e x fuel hf]
  · simp only [h0, if_false, List.cons_append, List.length_cons] at hf ⊢
    obtain ⟨f, rfl⟩ : ∃ f, fuel = f + 1 := ⟨fuel - 1, by omega⟩
    rw [unmarshalFields_crc _ _ _ _ hcrc, unmarshalFields_marshalFlag]
    simp at hf ⊢
    omega

theorem unmarshalFields_marshalData (e x : WAL_Entry) (fuel : Nat) (hcrc : e.CRC < 2 ^ 32)
    (hlen : e.Data.length < 2 ^ 64)
    (hf : (marshalData e ++ marshalCRC e ++ marshalFlag e).length ≤ fuel) :
    unmarshalFields fuel (marshalData e ++ marshalCRC e ++ marshalFlag e) x
      = some { x with Data := if e.Data = [] then x.Data else e.Data
                      CRC := if e.CRC = 0 then x.CRC else e.CRC
                      IsCheckpoint := match e.IsCheckpoint with
                                      | none => x.IsCheckpoint
                                      | some c => some c } := by
  rw [List.append_assoc] at hf ⊢
  by_cases h0 : e.Data = []
  · simp only [marshalData, h0, if_true, List.nil_append] at hf ⊢
    rw [unmarshalFields_marshalCRC e x fuel hcrc hf]
  · simp only [marshalData, h0, if_false, List.cons_append, List.length_cons] at hf ⊢
    obtain ⟨f, rfl⟩ : ∃ f, fuel = f + 1 := ⟨fuel - 1, by omega⟩
    rw [unmarshalFields_data _ _ _ _ hlen, unmarshalFields_marshalCRC _ _ _ hcrc]
    simp at hf ⊢
    omega

theorem unmarshalFields_Marshal (e x : WAL_Entry) (fuel : Nat) (hseq : e.LogSeqNumber < 2 ^ 64)
    (hcrc : e.CRC < 2 ^ 32) (hlen : e.Data.length < 2 ^ 64) (hf : (Marshal e).length ≤ fuel) :
    unmarshalFields fuel (Marshal e) x
      = some { LogSeqNumber := if e.LogSeqNumber = 0 then x.LogSeqNumber else e.LogSeqNumber
               Data := if e.Data = [] then x.Data else e.Data
               CRC := if e.CRC = 0 then x.CRC else e.CRC
               IsCheckpoint := match e.IsCheckpoint with
                               | none => x.IsCheckpoint
                               | some c => some c } := by
  have hm : e.LogSeqNumber % 2 ^ 64 = e.LogSeqNumber := Nat.mod_eq_of_lt hseq
  unfold Marshal at hf ⊢
  rw [List.append_assoc, List.append_assoc] at hf ⊢
  rw [← List.append_assoc (marshalData e)] at hf ⊢
  by_cases h0 : e.LogSeqNumber = 0
  · simp only [marshalSeq, h0, Nat.zero_mod, if_true, List.nil_append] at hf ⊢
    rw [unmarshalFields_marshalData e x fuel hcrc hlen hf]
  · simp only [marshalSeq, hm, h0, if_false, List.cons_append, List.length_cons] at hf ⊢
    obtain ⟨f, rfl⟩ : ∃ f, fuel = f + 1 := ⟨fuel - 1, by omega⟩
    rw [unmarshalFields_seq _ _ _ _ hseq, unmarshalFields_marshalData _ _ _ hcrc hlen]
    simp at hf ⊢
    omega

/-- Decoding a marshalled entry gives the entry back. -/
theorem Unmarshal_Marshal (e : WAL_Entry) (hseq : e.LogSeqNumber < 2 ^ 64)
    (hcrc : e.CRC < 2 ^ 32) (hlen : e.Data.length < 2 ^ 64) :
    Unmarshal (Marshal e) = some e := by
  unfold Unmarshal
  rw [unmarshalFields_Marshal e _ _ hseq hcrc hlen (le_refl _)]
  cases e with
  | mk s d c f =>
    simp only [Option.some.injEq, WAL_Entry.mk.injEq]
    refine ⟨?_, ?_, ?_, ?_⟩
    · by_cases h : s = 0 <;> simp [h]
    · by_cases h : d = [] <;> simp [h]
    · by_cases h : c = 0 <;> simp [h]
    · cases f <;> rfl

theorem crcShift_lt (c : Nat) (hc : c < 2 ^ 32) : crcShift c < 2 ^ 32 := by
  unfold crcShift
  split
  · exact Nat.xor_lt_two_pow (by omega) (by norm_num [crcPoly])
  · omega

theorem crcUpdateByte_lt (c v : Nat) (hc : c < 2 ^ 32) : crcUpdateByte c v < 2 ^ 32 := by
  unfold crcUpdateByte
  have h0 : c ^^^ (v % 256) < 2 ^ 32 :=
    Nat.xor_lt_two_pow hc (lt_of_lt_of_le (Nat.mod_lt _ (by norm_num)) (by norm_num))
  iterate 8 apply crcShift_lt
  exact h0

theorem crcFold_lt (data : List Nat) : ∀ c, c < 2 ^ 32 → data.foldl crcUpdateByte c < 2 ^ 32 := by
  induction data with
  | nil => intro c hc; simpa using hc
  | cons v vs ih => intro c hc; exact ih _ (crcUpdateByte_lt c v hc)

theorem ChecksumIEEE_lt (data : List Nat) : ChecksumIEEE data < 2 ^ 32 := by
  unfold ChecksumIEEE
  exact Nat.xor_lt_two_pow (crcFold_lt data _ (by norm_num)) (by norm_num)

theorem toInt32_small (n : Nat) (h : n < 2 ^ 31) : toInt32 n = (n : Int) := by
  unfold toInt32
  have : n % 2 ^ 32 = n := Nat.mod_eq_of_lt (by omega)
  rw [this]
  have h2 : n < 2147483648 := by simpa using h
  simp [h2]

theorem putInt32LE_small (n : Nat) (h : n < 2 ^ 31) :
    putInt32LE (n : Int) = [n % 256, n / 256 % 256, n / 65536 % 256, n / 16777216 % 256] := by
  unfold putInt32LE
  have : ((n : Int) % 2 ^ 32).toNat = n := by
    have h2 : (n : Int) % 2 ^ 32 = (n : Int) := Int.emod_eq_of_lt (by omega) (by omega)
    rw [h2]; simp
  simp only [this]

theorem getInt32LE_bytes (n : Nat) (h : n < 2 ^ 31) :
    getInt32LE (n % 256) (n / 256 % 256) (n / 65536 % 256) (n / 16777216 % 256) = (n : Int) := by
  unfold getInt32LE
  have : n % 256 + 256 * (n / 256 % 256) + 65536 * (n / 65536 % 256)
      + 16777216 * (n / 16777216 % 256) = n := by omega
  rw [this, toInt32_small n h]

theorem frameBytes_eq (body : List Nat) (h : body.length < 2 ^ 31) :
    frameBytes body = body.length % 256 :: (body.length / 256 % 256) ::
      (body.length / 65536 % 256) :: (body.length / 16777216 % 256) :: body := by
  unfold frameBytes
  rw [toInt32_small _ h, putInt32LE_small _ h]
  rfl

theorem frameBytes_length (body : List Nat) : (frameBytes body).length = body.length + 4 := by
  simp [frameBytes, putInt32LE]

theorem readAllLoop_fuel (f1 : Nat) : ∀ (f2 : Nat) (file : List Nat) (acc : List WAL_Entry),
    file.length < f1 → file.length < f2 → readAllLoop f1 file acc = readAllLoop f2 file acc := by
  induction f1 with
  | zero => intro f2 file acc h1; omega
  | succ f1 ih =>
    intro f2 file acc h1 h2
    obtain ⟨g, rfl⟩ : ∃ g, f2 = g + 1 := ⟨f2 - 1, by omega⟩
    match file with
    | [] => simp [readAllLoop]
    | [_] => simp [readAllLoop]
    | [_, _] => simp [readAllLoop]
    | [_, _, _] => simp [readAllLoop]
    | b0 :: b1 :: b2 :: b3 :: rest =>
      simp only [readAllLoop]
      split
      · rfl
      · split
        · rfl
        · split
          · rfl
          · split
            · rfl
            · apply ih
              · simp at h1 ⊢; omega
              · simp at h2 ⊢; omega

theorem getLastEntryLoop_fuel (f1 : Nat) : ∀ (f2 : Nat) (file : List Nat) (acc : Option WAL_Entry),
    file.length < f1 → file.length < f2 →
    getLastEntryLoop f1 file acc = getLastEntryLoop f2 file acc := by
  induction f1 with
  | zero => intro f2 file acc h1; omega
  | succ f1 ih =>
    intro f2 file acc h1 h2
    obtain ⟨g, rfl⟩ : ∃ g, f2 = g + 1 := ⟨f2 - 1, by omega⟩
    match file with
    | [] => simp [getLastEntryLoop]
    | [_] => simp [getLastEntryLoop]
    | [_, _] => simp [getLastEntryLoop]
    | [_, _, _] => simp [getLastEntryLoop]
    | b0 :: b1 :: b2 :: b3 :: rest =>
      simp only [getLastEntryLoop]
      split
      · rfl
      · split
        · rfl
        · split
          · apply ih
            · simp at h1 ⊢; omega
            · simp at h2 ⊢; omega
          · rfl

theorem unmarshalAndVerifyEntry_ok (data : List Nat) (e : WAL_Entry) :
    unmarshalAndVerifyEntry data = Res.ok e ↔
      Unmarshal data = some e ∧ e.CRC = ChecksumIEEE e.Data := by
  unfold unmarshalAndVerifyEntry verifyCRC
  cases h : Unmarshal data with
  | none => simp
  | some x =>
    by_cases hc : x.CRC = ChecksumIEEE x.Data
    · simp [hc]
      intro hx; subst hx; exact hc
    · simp [hc]
      intro hx; subst hx; exact hc

theorem readAllLoop_frame (fuel : Nat) (body rest : List Nat) (acc : List WAL_Entry)
    (e : WAL_Entry) (hlen : body.length < 2 ^ 31) (hu : unmarshalAndVerifyEntry body = Res.ok e)
    (hf : (frameBytes body ++ rest).length < fuel) :
    readAllLoop fuel (frameBytes body ++ rest) acc
      = readAllLoop (rest.length + 1) rest (acc ++ [e]) := by
  obtain ⟨g, rfl⟩ : ∃ g, fuel = g + 1 := ⟨fuel - 1, by omega⟩
  rw [unmarshalAndVerifyEntry_ok] at hu
  rw [List.length_append, frameBytes_length] at hf
  rw [readAllLoop_fuel (rest.length + 1) g rest (acc ++ [e]) (by omega) (by omega)]
  rw [frameBytes_eq body hlen]
  simp only [List.cons_append]
  rw [readAllLoop]
  have h1 : ¬ ((body.length : Int) < 0) := by omega
  have h2 : ¬ ((body ++ rest).length < body.length) := by simp
  simp only [getInt32LE_bytes _ hlen, h1, h2, if_false, Int.toNat_ofNat, List.take_left,
    List.drop_left, hu.1]
  simp only [hu.2, ne_eq, not_true_eq_false, if_false]

theorem getLastEntryLoop_frame (fuel : Nat) (body rest : List Nat) (acc : Option WAL_Entry)
    (e : WAL_Entry) (hlen : body.length < 2 ^ 31) (hu : unmarshalAndVerifyEntry body = Res.ok e)
    (hf : (frameBytes body ++ rest).length < fuel) :
    getLastEntryLoop fuel (frameBytes body ++ rest) acc
      = getLastEntryLoop (rest.length + 1) rest (some e) := by
  obtain ⟨g, rfl⟩ : ∃ g, fuel = g + 1 := ⟨fuel - 1, by omega⟩
  rw [List.length_append, frameBytes_length] at hf
  rw [getLastEntryLoop_fuel (rest.length + 1) g rest (some e) (by omega) (by omega)]
  rw [frameBytes_eq body hlen]
  simp only [List.cons_append]
  rw [getLastEntryLoop]
  have h1 : ¬ ((body.length : Int) < 0) := by omega
  have h2 : ¬ ((body ++ rest).length < body.length) := by simp
  simp only [getInt32LE_bytes _ hlen, h1, h2, if_false, Int.toNat_ofNat, List.take_left,
    List.drop_left, hu]

theorem readAllLoop_frames (records : List (List Nat × WAL_Entry)) :
    ∀ (fuel : Nat) (tail : List Nat) (acc : List WAL_Entry),
    (∀ r ∈ records, r.1.length < 2 ^ 31 ∧ unmarshalAndVerifyEntry r.1 = Res.ok r.2) →
    (framesBytes (records.map Prod.fst) ++ tail).length < fuel →
    readAllLoop fuel (framesBytes (records.map Prod.fst) ++ tail) acc
      = readAllLoop (tail.length + 1) tail (acc ++ records.map Prod.snd) := by
  induction records with
  | nil =>
    intro fuel tail acc _ hf
    simp only [List.map_nil, framesBytes, List.nil_append, List.append_nil] at hf ⊢
    exact readAllLoop_fuel _ _ _ _ hf (by omega)
  | cons r rs ih =>
    intro fuel tail acc hv hf
    have hr := hv r (List.mem_cons_self _ _)
    simp only [List.map_cons, framesBytes, List.append_assoc] at hf ⊢
    rw [readAllLoop_frame fuel _ _ acc r.2 hr.1 hr.2 hf]
    rw [ih _ tail (acc ++ [r.2]) (fun x hx => hv x (List.mem_cons_of_mem _ hx)) (by omega)]
    simp

theorem getLastEntryLoop_frames (records : List (List Nat × WAL_Entry)) :
    ∀ (fuel : Nat) (tail : List Nat) (acc : Option WAL_Entry),
    (∀ r ∈ records, r.1.length < 2 ^ 31 ∧ unmarshalAndVerifyEntry r.1 = Res.ok r.2) →
    (framesBytes (records.map Prod.fst) ++ tail).length < fuel →
    getLastEntryLoop fuel (framesBytes (records.map Prod.fst) ++ tail) acc
      = getLastEntryLoop (tail.length + 1) tail
          (records.foldl (fun _ r => some r.2) acc) := by
  induction records with
  | nil =>
    intro fuel tail acc _ hf
    simp only [List.map_nil, framesBytes, List.nil_append, List.foldl_nil] at hf ⊢
    exact getLastEntryLoop_fuel _ _ _ _ hf (by omega)
  | cons r rs ih =>
    intro fuel tail acc hv hf
    have hr := hv r (List.mem_cons_self _ _)
    simp only [List.map_cons, framesBytes, List.append_assoc, List.foldl_cons] at hf ⊢
    rw [getLastEntryLoop_frame fuel _ _ acc r.2 hr.1 hr.2 hf]
    rw [ih _ tail (some r.2) (fun x hx => hv x (List.mem_cons_of_mem _ hx)) (by omega)]

theorem readFile_appendFile (d : Dir) (name : List Char) (p : List Nat) :
    readFile (appendFile d name p) name = (readFile d name).map (· ++ p) := by
  induction d with
  | nil => simp [appendFile, readFile]
  | cons f rest ih =>
    obtain ⟨n, c⟩ := f
    by_cases h : n = name
    · simp [appendFile, readFile, h]
    · simp [appendFile, readFile, h, ih]

theorem appendFile_nil (d : Dir) (name : List Char) : appendFile d name [] = d := by
  induction d with
  | nil => simp [appendFile]
  | cons f rest ih =>
    obtain ⟨n, c⟩ := f
    by_cases h : n = name
    · simp [appendFile, h]
    · simp [appendFile, h, ih]

/-- Flushing a working engine moves the buffered bytes to the file. -/
theorem bufFlush_healthy (w : WAL) (h : healthy w) :
    bufFlush w = ({ w with disk := appendFile w.disk w.currSegment w.bufWriter, bufWriter := [] }, true) := by
  obtain ⟨hbe, hio, hcl, _⟩ := h
  unfold bufFlush fileWrite
  by_cases hb : w.bufWriter.length = 0
  · have hb2 : w.bufWriter = [] := List.length_eq_zero.mp hb
    cases w
    simp_all [appendFile_nil]
  · simp [hbe, hio, hcl, hb]

theorem bufWriteLoop_fits (fuel : Nat) (w : WAL) (p : List Nat)
    (h : ¬ (p.length > bufAvailable w ∧ w.bufErr = false)) :
    bufWriteLoop fuel w p = (w, p) := by
  cases fuel with
  | zero => rfl
  | succ f => rw [bufWriteLoop, if_neg h]

theorem bufWriteLoop_direct (fuel : Nat) (w : WAL) (p : List Nat)
    (h1 : p.length > bufAvailable w) (hbe : w.bufErr = false) (hb : w.bufWriter.length = 0)
    (hio : w.ioFault = false) (hcl : w.closed = false) :
    bufWriteLoop (fuel + 1) w p
      = ({ w with disk := appendFile w.disk w.currSegment p }, []) := by
  rw [bufWriteLoop, if_pos ⟨h1, hbe⟩, if_pos hb]
  have hw : fileWrite w p = some { w with disk := appendFile w.disk w.currSegment p } := by
    simp [fileWrite, hio, hcl]
  rw [hw]
  exact bufWriteLoop_fits _ _ _ (by simp)

theorem bufWriteLoop_fill (fuel : Nat) (w : WAL) (p : List Nat)
    (h1 : p.length > bufAvailable w) (hbe : w.bufErr = false) (hb : ¬ w.bufWriter.length = 0)
    (hio : w.ioFault = false) (hcl : w.closed = false) :
    bufWriteLoop (fuel + 1) w p
      = bufWriteLoop fuel
          { w with disk := appendFile w.disk w.currSegment
                     (w.bufWriter ++ p.take (min (bufAvailable w) p.length)),
                   bufWriter := [] }
          (p.drop (min (bufAvailable w) p.length)) := by
  rw [bufWriteLoop, if_pos ⟨h1, hbe⟩, if_neg hb]
  have hf : bufFlush { w with bufWriter := w.bufWriter ++ p.take (min (bufAvailable w) p.length) }
      = ({ w with disk := appendFile w.disk w.currSegment
                     (w.bufWriter ++ p.take (min (bufAvailable w) p.length)),
                   bufWriter := [] }, true) := by
    have hne : ¬ (w.bufWriter ++ p.take (min (bufAvailable w) p.length)).length = 0 := by
      simp only [List.length_append]; omega
    simp only [bufFlush, hbe, hne, fileWrite, hio, hcl]
    simp
  simp only [hf]

/-- Writing through the buffered writer of a working engine succeeds and
changes nothing but the file and the buffer, which together grow by the
bytes written. -/
theorem bufWrite_healthy (w : WAL) (p : List Nat) (h : healthy w) :
    ∃ d b, bufWrite w p = ({ w with disk := d, bufWriter := b }, true) ∧
      ∃ c, readFile d w.currSegment = some c ∧ c ++ b = logBytes w ++ p := by
  obtain ⟨hbe, hio, hcl, hrf⟩ := h
  obtain ⟨c, hc⟩ := Option.isSome_iff_exists.mp hrf
  unfold bufWrite
  by_cases hfit : p.length > bufAvailable w
  · by_cases hb : w.bufWriter.length = 0
    · have hb2 : w.bufWriter = [] := List.length_eq_zero.mp hb
      refine ⟨appendFile w.disk w.currSegment p, [], ?_, c ++ p, ?_, ?_⟩
      · rw [bufWriteLoop_direct 1 w p hfit hbe hb hio hcl]
        simp [hbe, hb2]
      · simp [readFile_appendFile, hc]
      · simp [logBytes, hc, hb2]
    · rw [bufWriteLoop_fill 1 w p hfit hbe hb hio hcl]
      generalize hn : min (bufAvailable w) p.length = n
      have hav : bufAvailable { w with disk := appendFile w.disk w.currSegment (w.bufWriter ++ p.take n), bufWriter := [] } = defaultBufSize := by
        simp [bufAvailable]
      by_cases hbig : (p.drop n).length > defaultBufSize
      · refine ⟨appendFile (appendFile w.disk w.currSegment (w.bufWriter ++ p.take n))
            w.currSegment (p.drop n), [], ?_, c ++ (w.bufWriter ++ p.take n) ++ p.drop n, ?_, ?_⟩
        · rw [bufWriteLoop_direct 0 { w with disk := appendFile w.disk w.currSegment (w.bufWriter ++ p.take n), bufWriter := [] } (p.drop n)
              (by rw [hav]; exact hbig) hbe rfl hio hcl]
          simp [hbe]
        · simp [readFile_appendFile, hc]
        · simp [logBytes, hc]
      · refine ⟨appendFile w.disk w.currSegment (w.bufWriter ++ p.take n), p.drop n, ?_,
            c ++ (w.bufWriter ++ p.take n), ?_, ?_⟩
        · rw [bufWriteLoop_fits 1 { w with disk := appendFile w.disk w.currSegment (w.bufWriter ++ p.take n), bufWriter := [] } (p.drop n)
              (by rw [hav]; intro hx; exact hbig hx.1)]
          simp [hbe]
        · simp [readFile_appendFile, hc]
        · simp [logBytes, hc]
  · refine ⟨w.disk, w.bufWriter ++ p, ?_, c, hc, ?_⟩
    · rw [bufWriteLoop_fits 2 w p (by simp [hfit])]
      simp [hbe]
    · simp [logBytes, hc]

theorem healthy_update (w : WAL) (d : Dir) (b c : List Nat) (h : healthy w)
    (hc : readFile d w.currSegment = some c) :
    healthy { w with disk := d, bufWriter := b } ∧
      logBytes { w with disk := d, bufWriter := b } = c ++ b := by
  obtain ⟨hbe, hio, hcl, _⟩ := h
  refine ⟨⟨hbe, hio, hcl, ?_⟩, ?_⟩
  · simp [hc]
  · simp [logBytes, hc]

/-- On a working engine `writeEntryToBuffer` succeeds; it touches the file
and the buffer only, and the accepted bytes grow by the frame of the entry. -/
theorem writeEntryToBuffer_healthy (w : WAL) (e : WAL_Entry) (h : healthy w) :
    ∃ d b, writeEntryToBuffer w e = ({ w with disk := d, bufWriter := b }, none) ∧
      ∃ c, readFile d w.currSegment = some c ∧
        c ++ b = logBytes w ++ frameBytes (Marshal e) := by
  obtain ⟨d1, b1, h1, c1, hc1, hl1⟩ := bufWrite_healthy w (putInt32LE (toInt32 (Marshal e).length)) h
  obtain ⟨hh1, hlog1⟩ := healthy_update w d1 b1 c1 h hc1
  obtain ⟨d2, b2, h2, c2, hc2, hl2⟩ :=
    bufWrite_healthy { w with disk := d1, bufWriter := b1 } (Marshal e) hh1
  refine ⟨d2, b2, ?_, c2, hc2, ?_⟩
  · unfold writeEntryToBuffer
    simp only [h1, h2]
    simp
  · rw [hl2, hlog1, hl1, frameBytes, List.append_assoc]

theorem WriteEntry_healthy (w : WAL) (data : List Nat) (h : healthy w) :
    (WriteEntry w data).2 = none ∧ healthy (WriteEntry w data).1 ∧
      (WriteEntry w data).1.currSegment = w.currSegment ∧
      (WriteEntry w data).1.lastSeqNo = (w.lastSeqNo + 1) % 2 ^ 64 ∧
      logBytes (WriteEntry w data).1 = logBytes w ++ frameBytes (Marshal
        { LogSeqNumber := (w.lastSeqNo + 1) % 2 ^ 64, Data := data, CRC := ChecksumIEEE data,
          IsCheckpoint := none }) := by
  have hw : healthy { w with lastSeqNo := (w.lastSeqNo + 1) % 2 ^ 64 } := h
  obtain ⟨d, b, he, c, hc, hl⟩ := writeEntryToBuffer_healthy _
    { LogSeqNumber := (w.lastSeqNo + 1) % 2 ^ 64, Data := data, CRC := ChecksumIEEE data,
      IsCheckpoint := none } hw
  obtain ⟨hh, hlog⟩ := healthy_update _ d b c hw hc
  unfold WriteEntry
  simp only [he]
  refine ⟨trivial, hh, trivial, trivial, ?_⟩
  rw [hlog, hl]
  rfl

theorem Sync_healthy (w : WAL) (h : healthy w) :
    (Sync w).2 = none ∧ healthy (Sync w).1 ∧ (Sync w).1.currSegment = w.currSegment ∧
      (Sync w).1.lastSeqNo = w.lastSeqNo ∧ (Sync w).1.bufWriter = [] ∧
      readFile (Sync w).1.disk w.currSegment = some (logBytes w) := by
  obtain ⟨hbe, hio, hcl, hrf⟩ := h
  obtain ⟨c, hc⟩ := Option.isSome_iff_exists.mp hrf
  unfold Sync
  rw [bufFlush_healthy w ⟨hbe, hio, hcl, hrf⟩]
  simp only [hio, hcl]
  simp [healthy, hbe, hio, hcl, readFile_appendFile, hc, logBytes]

theorem logBytes_Sync (w : WAL) (h : healthy w) : logBytes (Sync w).1 = logBytes w := by
  obtain ⟨_, _, hs, _, hb, hr⟩ := Sync_healthy w h
  unfold logBytes
  rw [hs, hr, hb]
  simp [logBytes]

theorem WriteEntryWithCheckpoint_healthy (w : WAL) (data : List Nat) (h : healthy w) :
    (WriteEntryWithCheckpoint w data).2 = none ∧ healthy (WriteEntryWithCheckpoint w data).1 ∧
      (WriteEntryWithCheckpoint w data).1.currSegment = w.currSegment ∧
      (WriteEntryWithCheckpoint w data).1.lastSeqNo = (w.lastSeqNo + 1) % 2 ^ 64 ∧
      logBytes (WriteEntryWithCheckpoint w data).1 = logBytes w ++ frameBytes (Marshal
        { LogSeqNumber := (w.lastSeqNo + 1) % 2 ^ 64, Data := data, CRC := ChecksumIEEE data,
          IsCheckpoint := some true }) := by
  obtain ⟨hs2, hsh, hsseg, hsseq, _, _⟩ := Sync_healthy w h
  have hslog := logBytes_Sync w h
  have hw : healthy { (Sync w).1 with lastSeqNo := ((Sync w).1.lastSeqNo + 1) % 2 ^ 64 } := hsh
  obtain ⟨d, b, he, c, hc, hl⟩ := writeEntryToBuffer_healthy _
    { LogSeqNumber := ((Sync w).1.lastSeqNo + 1) % 2 ^ 64, Data := data,
      CRC := ChecksumIEEE data, IsCheckpoint := some true } hw
  obtain ⟨hh, hlog⟩ := healthy_update _ d b c hw hc
  unfold WriteEntryWithCheckpoint
  simp only [hs2, he]
  refine ⟨trivial, hh, hsseg, ?_, ?_⟩
  · simp [hsseq]
  · rw [hlog, hl]
    simp only [hsseq]
    rw [← hslog]
    rfl

theorem appendVarintAux_length_pow (n : Nat) : ∀ (k v : Nat), v < 128 ^ k → 1 ≤ k →
    (appendVarintAux n v).length ≤ k := by
  induction n with
  | zero => intro k v _ hk; simpa [appendVarintAux] using hk
  | succ n ih =>
    intro k v hv hk
    by_cases h : v < 128
    · simpa [appendVarintAux, h] using hk
    · obtain ⟨j, rfl⟩ : ∃ j, k = j + 1 := ⟨k - 1, by omega⟩
      have hj : 1 ≤ j := by
        rcases Nat.eq_zero_or_pos j with h0 | h0
        · subst h0; simp at hv; omega
        · exact h0
      have hdiv : v / 128 < 128 ^ j := by
        rw [Nat.div_lt_iff_lt_mul (by norm_num)]
        calc v < 128 ^ (j + 1) := hv
          _ = 128 ^ j * 128 := by ring
      have := ih j (v / 128) hdiv hj
      simp [appendVarintAux, h]
      exact this

theorem AppendVarint_length_le5 (v : Nat) (hv : v < 2 ^ 35) : (AppendVarint v).length ≤ 5 := by
  unfold AppendVarint
  have h64 : v % 2 ^ 64 = v := Nat.mod_eq_of_lt (lt_trans hv (by norm_num))
  rw [h64]
  exact appendVarintAux_length_pow 9 5 v (by norm_num at hv ⊢; exact hv) (by norm_num)

theorem Marshal_length_le (e : WAL_Entry) (hd : e.Data.length < 2 ^ 35) :
    (Marshal e).length ≤ e.Data.length + 25 := by
  have h1 : (marshalSeq e).length ≤ 11 := by
    unfold marshalSeq
    split
    · simp
    · have := AppendVarint_length_le e.LogSeqNumber
      simp; omega
  have h2 : (marshalData e).length ≤ e.Data.length + 6 := by
    unfold marshalData
    split
    · simp
    · have := AppendVarint_length_le5 e.Data.length hd
      simp; omega
  have h3 : (marshalCRC e).length ≤ 6 := by
    unfold marshalCRC
    split
    · simp
    · have := AppendVarint_length_le5 (e.CRC % 2 ^ 32)
        (lt_trans (Nat.mod_lt _ (by norm_num)) (by norm_num))
      simp only [List.length_cons]; omega
  have h4 : (marshalFlag e).length ≤ 2 := by
    unfold marshalFlag
    cases e.IsCheckpoint <;> simp
  unfold Marshal
  simp only [List.length_append]
  omega

theorem framesBytes_append (a b : List (List Nat)) :
    framesBytes (a ++ b) = framesBytes a ++ framesBytes b := by
  induction a with
  | nil => simp [framesBytes]
  | cons x xs ih => simp [framesBytes, ih]

/-- A run of calls on a working engine: every call returns nil, the engine
stays in working order on the same segment, and the accepted bytes grow by
the frames of the entries built, in call order. -/
theorem applyCalls_healthy (calls : List Call) : ∀ (w : WAL), healthy w →
    w.lastSeqNo < 2 ^ 64 →
    (∀ r ∈ (applyCalls w calls).2, r = none) ∧ healthy (applyCalls w calls).1 ∧
      (applyCalls w calls).1.currSegment = w.currSegment ∧
      (applyCalls w calls).1.lastSeqNo
        = (w.lastSeqNo + (builtEntries w.lastSeqNo calls).length) % 2 ^ 64 ∧
      logBytes (applyCalls w calls).1
        = logBytes w ++ framesBytes ((builtEntries w.lastSeqNo calls).map Marshal) := by
  induction calls with
  | nil =>
    intro w h hs
    refine ⟨by simp [applyCalls], h, rfl, ?_, by simp [applyCalls, builtEntries, framesBytes]⟩
    simp only [applyCalls, builtEntries, List.length_nil, Nat.add_zero]
    omega
  | cons c cs ih =>
    intro w h hs
    have hm : (w.lastSeqNo + 1) % 2 ^ 64 < 2 ^ 64 := Nat.mod_lt _ (by norm_num)
    cases c with
    | write data =>
      obtain ⟨e1, e2, e3, e4, e5⟩ := WriteEntry_healthy w data h
      obtain ⟨i1, i2, i3, i4, i5⟩ := ih (WriteEntry w data).1 e2 (by rw [e4]; exact hm)
      simp only [applyCalls, applyCall]
      refine ⟨?_, i2, by rw [i3, e3], ?_, ?_⟩
      · intro r hr
        simp only [List.mem_cons] at hr
        rcases hr with hr | hr
        · rw [hr, e1]
        · exact i1 r hr
      · rw [i4, e4]
        simp only [builtEntries, List.length_cons]
        omega
      · rw [i5, e5, e4]
        simp [builtEntries, framesBytes, List.append_assoc]
    | checkpoint data =>
      obtain ⟨e1, e2, e3, e4, e5⟩ := WriteEntryWithCheckpoint_healthy w data h
      obtain ⟨i1, i2, i3, i4, i5⟩ := ih (WriteEntryWithCheckpoint w data).1 e2 (by rw [e4]; exact hm)
      simp only [applyCalls, applyCall]
      refine ⟨?_, i2, by rw [i3, e3], ?_, ?_⟩
      · intro r hr
        simp only [List.mem_cons] at hr
        rcases hr with hr | hr
        · rw [hr, e1]
        · exact i1 r hr
      · rw [i4, e4]
        simp only [builtEntries, List.length_cons]
        omega
      · rw [i5, e5, e4]
        simp [builtEntries, framesBytes, List.append_assoc]
    | sync =>
      obtain ⟨e1, e2, e3, e4, _, _⟩ := Sync_healthy w h
      have e5 := logBytes_Sync w h
      obtain ⟨i1, i2, i3, i4, i5⟩ := ih (Sync w).1 e2 (by rw [e4]; exact hs)
      simp only [applyCalls, applyCall]
      refine ⟨?_, i2, by rw [i3, e3], ?_, ?_⟩
      · intro r hr
        simp only [List.mem_cons] at hr
        rcases hr with hr | hr
        · rw [hr, e1]
        · exact i1 r hr
      · rw [i4, e4]
        simp only [builtEntries]
      · rw [i5, e5, e4]
        simp [builtEntries]

theorem readFile_openCreate (d : Dir) (name : List Char) :
    readFile (openCreate d name) name = some ((readFile d name).getD []) := by
  induction d with
  | nil => simp [openCreate, readFile]
  | cons f rest ih =>
    obtain ⟨n, c⟩ := f
    by_cases h : n = name
    · simp [openCreate, readFile, h]
    · simp [openCreate, readFile, h, ih]

theorem getLastSeqNo_empty (w : WAL) (h : readFile w.disk w.currSegment = some []) :
    getLastSeqNo w = Res.ok 0 := by
  simp [getLastSeqNo, getLastEntryInLog, h, getLastEntryLoop]

theorem builtEntries_mod (calls : List Call) : ∀ s : Nat,
    builtEntries (s % 2 ^ 64) calls = builtEntries s calls := by
  induction calls with
  | nil => intro s; rfl
  | cons c cs ih =>
    intro s
    have hm : (s % 2 ^ 64 + 1) % 2 ^ 64 = (s + 1) % 2 ^ 64 := by omega
    cases c with
    | write d => simp only [builtEntries, hm]
    | checkpoint d => simp only [builtEntries, hm]
    | sync => simp only [builtEntries]; exact ih s

theorem builtEntries_append (a b : List Call) : ∀ s : Nat,
    builtEntries s (a ++ b)
      = builtEntries s a ++ builtEntries (s + (builtEntries s a).length) b := by
  induction a with
  | nil => intro s; simp [builtEntries]
  | cons c cs ih =>
    intro s
    have key : ∀ n : Nat, builtEntries ((s + 1) % 2 ^ 64 + n) b = builtEntries (s + (n + 1)) b := by
      intro n
      rw [← builtEntries_mod b ((s + 1) % 2 ^ 64 + n), ← builtEntries_mod b (s + (n + 1))]
      congr 1
      omega
    rw [List.cons_append]
    cases c with
    | write d =>
      simp only [builtEntries, List.length_cons]
      rw [ih, key, List.cons_append]
    | checkpoint d =>
      simp only [builtEntries, List.length_cons]
      rw [ih, key, List.cons_append]
    | sync =>
      simp only [builtEntries]
      rw [ih]

/-- The entries built by append calls only, written out with their indices. -/
theorem builtEntries_appendCalls (ws : List (Bool × List Nat)) : ∀ s : Nat,
    builtEntries s (ws.map appendCall)
      = (ws.enumFrom s).map (fun ix =>
          ({ LogSeqNumber := (ix.1 + 1) % 2 ^ 64, Data := ix.2.2, CRC := ChecksumIEEE ix.2.2,
             IsCheckpoint := if ix.2.1 then some true else none } : WAL_Entry)) := by
  induction ws with
  | nil => intro s; rfl
  | cons x xs ih =>
    intro s
    obtain ⟨c, p⟩ := x
    cases c
    · simp only [List.map_cons, appendCall, builtEntries, List.enumFrom_cons, Bool.false_eq_true,
        if_false]
      rw [builtEntries_mod, ih (s + 1)]
    · simp only [List.map_cons, appendCall, builtEntries, List.enumFrom_cons, if_true]
      rw [builtEntries_mod, ih (s + 1)]

theorem builtEntries_valid (calls : List Call) : ∀ (s : Nat) (e : WAL_Entry),
    e ∈ builtEntries s calls →
      e.LogSeqNumber < 2 ^ 64 ∧ e.CRC = ChecksumIEEE e.Data ∧ ∃ c ∈ calls, e.Data = c.payload := by
  induction calls with
  | nil => intro s e h; simp [builtEntries] at h
  | cons c cs ih =>
    intro s e h
    have hm : (s + 1) % 2 ^ 64 < 2 ^ 64 := Nat.mod_lt _ (by norm_num)
    cases c with
    | write d =>
      simp only [builtEntries, List.mem_cons] at h
      rcases h with h | h
      · subst h
        exact ⟨hm, rfl, Call.write d, List.mem_cons_self _ _, rfl⟩
      · obtain ⟨h1, h2, c, hc, h3⟩ := ih _ e h
        exact ⟨h1, h2, c, List.mem_cons_of_mem _ hc, h3⟩
    | checkpoint d =>
      simp only [builtEntries, List.mem_cons] at h
      rcases h with h | h
      · subst h
        exact ⟨hm, rfl, Call.checkpoint d, List.mem_cons_self _ _, rfl⟩
      · obtain ⟨h1, h2, c, hc, h3⟩ := ih _ e h
        exact ⟨h1, h2, c, List.mem_cons_of_mem _ hc, h3⟩
    | sync =>
      simp only [builtEntries] at h
      obtain ⟨h1, h2, c, hc, h3⟩ := ih _ e h
      exact ⟨h1, h2, c, List.mem_cons_of_mem _ hc, h3⟩

/-- An entry with a correct checksum and a body that fits the length word
decodes from its marshalled form. -/
theorem unmarshalAndVerifyEntry_Marshal (e : WAL_Entry) (hseq : e.LogSeqNumber < 2 ^ 64)
    (hcrc : e.CRC = ChecksumIEEE e.Data) (hlen : e.Data.length < 2 ^ 64) :
    unmarshalAndVerifyEntry (Marshal e) = Res.ok e := by
  rw [unmarshalAndVerifyEntry_ok]
  exact ⟨Unmarshal_Marshal e hseq (by rw [hcrc]; exact ChecksumIEEE_lt _) hlen, hcrc⟩

theorem applyCalls_append (a b : List Call) : ∀ w : WAL,
    applyCalls w (a ++ b)
      = ((applyCalls (applyCalls w a).1 b).1, (applyCalls w a).2 ++ (applyCalls (applyCalls w a).1 b).2) := by
  induction a with
  | nil => intro w; simp [applyCalls]
  | cons c cs ih =>
    intro w
    rw [List.cons_append]
    simp only [applyCalls]
    rw [ih]
    simp

theorem readAllLoop_nil (fuel : Nat) (acc : List WAL_Entry) :
    readAllLoop (fuel + 1) [] acc = Res.ok acc := by
  simp [readAllLoop]

/-- Reading a segment whose content is the frames of entries that decode:
the entries come back in order. -/
theorem ReadAll_frames (w : WAL) (es : List WAL_Entry)
    (hfile : readFile w.disk w.currSegment = some (framesBytes (es.map Marshal)))
    (hvalid : ∀ e ∈ es, (Marshal e).length < 2 ^ 31 ∧ unmarshalAndVerifyEntry (Marshal e) = Res.ok e) :
    ReadAll w = Res.ok es := by
  unfold ReadAll
  rw [hfile]
  have hm1 : (es.map (fun e => (Marshal e, e))).map Prod.fst = es.map Marshal := by
    simp [List.map_map, Function.comp_def]
  have hm2 : (es.map (fun e => (Marshal e, e))).map Prod.snd = es := by
    simp [List.map_map, Function.comp_def]
  have h := readAllLoop_frames (es.map (fun e => (Marshal e, e)))
    ((framesBytes (es.map Marshal)).length + 1) [] []
    (by
      intro r hr
      simp only [List.mem_map] at hr
      obtain ⟨e, he, rfl⟩ := hr
      exact hvalid e he)
    (by rw [hm1]; simp)
  rw [hm1, hm2, List.append_nil, List.nil_append] at h
  show readAllLoop ((framesBytes (es.map Marshal)).length + 1) (framesBytes (es.map Marshal)) []
    = Res.ok es
  rw [h]
  exact readAllLoop_nil _ _

/-- Entries built by calls with payloads below the frame limit decode from
their frames. -/
theorem builtEntries_decodable (calls : List Call) (s : Nat)
    (hsize : ∀ c ∈ calls, c.payload.length + 25 < 2 ^ 31) :
    ∀ e ∈ builtEntries s calls,
      (Marshal e).length < 2 ^ 31 ∧ unmarshalAndVerifyEntry (Marshal e) = Res.ok e := by
  intro e he
  obtain ⟨h1, h2, c, hc, h3⟩ := builtEntries_valid calls s e he
  have hl := hsize c hc
  rw [← h3] at hl
  refine ⟨?_, unmarshalAndVerifyEntry_Marshal e h1 h2 (by omega)⟩
  have := Marshal_length_le e (by omega)
  omega

/-- After calls on a working engine with an empty log, ended by `Sync`, the
strict read returns the entries built, in call order. -/
theorem ReadAll_applyCalls_sync (w : WAL) (calls : List Call) (h : healthy w)
    (hs : w.lastSeqNo < 2 ^ 64) (hlog : logBytes w = [])
    (hsize : ∀ c ∈ calls, c.payload.length + 25 < 2 ^ 31) :
    (∀ r ∈ (applyCalls w (calls ++ [Call.sync])).2, r = none) ∧
      healthy (applyCalls w (calls ++ [Call.sync])).1 ∧
      (applyCalls w (calls ++ [Call.sync])).1.currSegment = w.currSegment ∧
      readFile (applyCalls w (calls ++ [Call.sync])).1.disk w.currSegment
        = some (framesBytes ((builtEntries w.lastSeqNo calls).map Marshal)) ∧
      ReadAll (applyCalls w (calls ++ [Call.sync])).1 = Res.ok (builtEntries w.lastSeqNo calls) := by
  obtain ⟨a1, a2, a3, a4, a5⟩ := applyCalls_healthy calls w h hs
  obtain ⟨s1, s2, s3, s4, s5, s6⟩ := Sync_healthy (applyCalls w calls).1 a2
  rw [hlog, List.nil_append] at a5
  rw [a5, a3] at s6
  have hfin : (applyCalls w (calls ++ [Call.sync])).1 = (Sync (applyCalls w calls).1).1 := by
    rw [applyCalls_append]; rfl
  have herr : (applyCalls w (calls ++ [Call.sync])).2
      = (applyCalls w calls).2 ++ [(Sync (applyCalls w calls).1).2] := by
    rw [applyCalls_append]; rfl
  rw [hfin, herr]
  refine ⟨?_, s2, by rw [s3, a3], s6, ?_⟩
  · intro r hr
    simp only [List.mem_append, List.mem_singleton] at hr
    rcases hr with hr | hr
    · exact a1 r hr
    · rw [hr, s1]
  · apply ReadAll_frames
    · rw [s3, a3]; exact s6
    · exact builtEntries_decodable calls _ hsize

theorem readAllLoop_crc (fuel : Nat) : ∀ (file : List Nat) (acc es : List WAL_Entry),
    (∀ e ∈ acc, e.CRC = ChecksumIEEE e.Data) → readAllLoop fuel file acc = Res.ok es →
    ∀ e ∈ es, e.CRC = ChecksumIEEE e.Data := by
  induction fuel with
  | zero => intro file acc es _ h; simp [readAllLoop] at h
  | succ fuel ih =>
    intro file acc es hacc h
    match file with
    | [] =>
      simp only [readAllLoop] at h
      injection h with h
      subst h
      exact hacc
    | [_] => simp [readAllLoop] at h
    | [_, _] => simp [readAllLoop] at h
    | [_, _, _] => simp [readAllLoop] at h
    | b0 :: b1 :: b2 :: b3 :: rest =>
      simp only [readAllLoop] at h
      split at h
      · cases h
      · split at h
        · cases h
        · split at h
          · cases h
          · rename_i entry _
            split at h
            · cases h
            · rename_i hcrc
              apply ih _ _ es _ h
              intro e he
              simp only [List.mem_append, List.mem_singleton] at he
              rcases he with he | he
              · exact hacc e he
              · subst he
                simp only [ne_eq, not_not] at hcrc
                exact hcrc.symm

theorem getLastEntryLoop_crc (fuel : Nat) : ∀ (file : List Nat) (acc : Option WAL_Entry)
    (e : WAL_Entry), (∀ x, acc = some x → x.CRC = ChecksumIEEE x.Data) →
    getLastEntryLoop fuel file acc = Res.ok (some e) → e.CRC = ChecksumIEEE e.Data := by
  induction fuel with
  | zero =>
    intro file acc e hacc h
    simp only [getLastEntryLoop] at h
    injection h with h
    exact hacc e h
  | succ fuel ih =>
    intro file acc e hacc h
    have hdone : Res.ok acc = Res.ok (some e) → e.CRC = ChecksumIEEE e.Data := by
      intro hx; injection hx with hx; exact hacc e hx
    match file with
    | [] => simp only [getLastEntryLoop] at h; exact hdone h
    | [_] => simp only [getLastEntryLoop] at h; exact hdone h
    | [_, _] => simp only [getLastEntryLoop] at h; exact hdone h
    | [_, _, _] => simp only [getLastEntryLoop] at h; exact hdone h
    | b0 :: b1 :: b2 :: b3 :: rest =>
      simp only [getLastEntryLoop] at h
      split at h
      · cases h
      · split at h
        · exact hdone h
        · split at h
          · rename_i entry hu
            apply ih _ _ e _ h
            intro x hx
            injection hx with hx
            subst hx
            exact ((unmarshalAndVerifyEntry_ok _ _).mp hu).2
          · exact hdone h

/-- A damaged end stops the strict scan with an error. -/
theorem readAllLoop_truncated (fuel : Nat) (tail : List Nat) (acc : List WAL_Entry)
    (ht : isTruncatedTail tail = true) :
    ∃ e, readAllLoop (fuel + 1) tail acc = Res.error e := by
  match tail with
  | [] => simp [isTruncatedTail] at ht
  | [_] => exact ⟨WalError.readSize, by simp [readAllLoop]⟩
  | [_, _] => exact ⟨WalError.readSize, by simp [readAllLoop]⟩
  | [_, _, _] => exact ⟨WalError.readSize, by simp [readAllLoop]⟩
  | b0 :: b1 :: b2 :: b3 :: rest =>
    simp only [isTruncatedTail, decide_eq_true_eq] at ht
    refine ⟨WalError.readData, ?_⟩
    simp only [readAllLoop]
    have h1 : ¬ (getInt32LE b0 b1 b2 b3 < 0) := by omega
    have h2 : rest.length < (getInt32LE b0 b1 b2 b3).toNat := by omega
    simp [h1, h2]

/-- A non-empty proper initial part of a frame is a damaged end. -/
theorem isTruncatedTail_take (body : List Nat) (n : Nat) (hlen : body.length < 2 ^ 31)
    (h0 : 0 < n) (hn : n < (frameBytes body).length) :
    isTruncatedTail ((frameBytes body).take n) = true := by
  rw [frameBytes_length] at hn
  rw [frameBytes_eq body hlen]
  match n, h0, hn with
  | 1, _, _ => rfl
  | 2, _, _ => rfl
  | 3, _, _ => rfl
  | m + 4, _, hm =>
    simp only [List.take_succ_cons, isTruncatedTail, decide_eq_true_eq, getInt32LE_bytes _ hlen,
      List.length_take]
    omega

theorem appendFile_appendFile (d : Dir) (name : List Char) (a b : List Nat) :
    appendFile (appendFile d name a) name b = appendFile d name (a ++ b) := by
  induction d with
  | nil => simp [appendFile]
  | cons f rest ih =>
    obtain ⟨n, c⟩ := f
    by_cases h : n = name
    · simp [appendFile, h]
    · simp [appendFile, h, ih]

theorem appendFile_names (d : Dir) (name : List Char) (p : List Nat) :
    (appendFile d name p).map Prod.fst = d.map Prod.fst := by
  induction d with
  | nil => simp [appendFile]
  | cons f rest ih =>
    obtain ⟨n, c⟩ := f
    by_cases h : n = name
    · simp [appendFile, h]
    · simp [appendFile, h, ih]

theorem fileWrite_cases (w : WAL) (p : List Nat) :
    fileWrite w p = none ∨
      fileWrite w p = some { w with disk := appendFile w.disk w.currSegment p } := by
  unfold fileWrite
  split
  · exact Or.inl rfl
  · exact Or.inr rfl

/-- The flush only appends to the segment file and keeps the segment. -/
theorem bufFlush_disk (w : WAL) :
    (bufFlush w).1.currSegment = w.currSegment ∧
      ∃ extra, (bufFlush w).1.disk = appendFile w.disk w.currSegment extra := by
  unfold bufFlush
  split
  · exact ⟨rfl, [], (appendFile_nil _ _).symm⟩
  · split
    · exact ⟨rfl, [], (appendFile_nil _ _).symm⟩
    · rcases fileWrite_cases w w.bufWriter with h | h
      · rw [h]; exact ⟨rfl, [], (appendFile_nil _ _).symm⟩
      · rw [h]; exact ⟨rfl, w.bufWriter, rfl⟩

theorem bufWriteLoop_disk (fuel : Nat) : ∀ (w : WAL) (p : List Nat),
    (bufWriteLoop fuel w p).1.currSegment = w.currSegment ∧
      ∃ extra, (bufWriteLoop fuel w p).1.disk = appendFile w.disk w.currSegment extra := by
  induction fuel with
  | zero => intro w p; exact ⟨rfl, [], (appendFile_nil _ _).symm⟩
  | succ fuel ih =>
    intro w p
    rw [bufWriteLoop]
    split
    · split
      · rcases fileWrite_cases w p with h | h
        · rw [h]
          obtain ⟨h1, x, h2⟩ := ih { w with bufErr := true } p
          exact ⟨h1, x, h2⟩
        · rw [h]
          obtain ⟨h1, x, h2⟩ := ih { w with disk := appendFile w.disk w.currSegment p } []
          refine ⟨h1, p ++ x, ?_⟩
          rw [h2]
          exact appendFile_appendFile _ _ _ _
      · obtain ⟨f1, y, f2⟩ := bufFlush_disk
          { w with bufWriter := w.bufWriter ++ p.take (min (bufAvailable w) p.length) }
        obtain ⟨h1, x, h2⟩ := ih (bufFlush
          { w with bufWriter := w.bufWriter ++ p.take (min (bufAvailable w) p.length) }).1
          (p.drop (min (bufAvailable w) p.length))
        refine ⟨by rw [h1, f1], y ++ x, ?_⟩
        rw [h2, f1, f2]
        exact appendFile_appendFile _ _ _ _
    · exact ⟨rfl, [], (appendFile_nil _ _).symm⟩

theorem bufWrite_disk (w : WAL) (p : List Nat) :
    (bufWrite w p).1.currSegment = w.currSegment ∧
      ∃ extra, (bufWrite w p).1.disk = appendFile w.disk w.currSegment extra := by
  obtain ⟨h1, x, h2⟩ := bufWriteLoop_disk 2 w p
  unfold bufWrite
  simp only
  split
  · exact ⟨h1, x, h2⟩
  · exact ⟨h1, x, h2⟩

theorem writeEntryToBuffer_disk (w : WAL) (e : WAL_Entry) :
    (writeEntryToBuffer w e).1.currSegment = w.currSegment ∧
      ∃ extra, (writeEntryToBuffer w e).1.disk = appendFile w.disk w.currSegment extra := by
  obtain ⟨a1, x, a2⟩ := bufWrite_disk w (putInt32LE (toInt32 (Marshal e).length))
  obtain ⟨b1, y, b2⟩ := bufWrite_disk (bufWrite w (putInt32LE (toInt32 (Marshal e).length))).1
    (Marshal e)
  unfold writeEntryToBuffer
  simp only
  split
  · exact ⟨a1, x, a2⟩
  · split
    · refine ⟨by rw [b1, a1], x ++ y, ?_⟩
      rw [b2, a1, a2]; exact appendFile_appendFile _ _ _ _
    · refine ⟨by rw [b1, a1], x ++ y, ?_⟩
      rw [b2, a1, a2]; exact appendFile_appendFile _ _ _ _

theorem Sync_disk (w : WAL) :
    (Sync w).1.currSegment = w.currSegment ∧
      ∃ extra, (Sync w).1.disk = appendFile w.disk w.currSegment extra := by
  obtain ⟨a1, x, a2⟩ := bufFlush_disk w
  unfold Sync
  simp only
  split
  · exact ⟨a1, x, a2⟩
  · split
    · exact ⟨a1, x, a2⟩
    · exact ⟨a1, x, a2⟩

theorem WriteEntry_disk (w : WAL) (data : List Nat) :
    (WriteEntry w data).1.currSegment = w.currSegment ∧
      ∃ extra, (WriteEntry w data).1.disk = appendFile w.disk w.currSegment extra :=
  writeEntryToBuffer_disk { w with lastSeqNo := (w.lastSeqNo + 1) % 2 ^ 64 } _

theorem WriteEntryWithCheckpoint_disk (w : WAL) (data : List Nat) :
    (WriteEntryWithCheckpoint w data).1.currSegment = w.currSegment ∧
      ∃ extra, (WriteEntryWithCheckpoint w data).1.disk
        = appendFile w.disk w.currSegment extra := by
  obtain ⟨a1, x, a2⟩ := Sync_disk w
  unfold WriteEntryWithCheckpoint
  simp only
  split
  · exact ⟨a1, x, a2⟩
  · obtain ⟨b1, y, b2⟩ := writeEntryToBuffer_disk
      { (Sync w).1 with lastSeqNo := ((Sync w).1.lastSeqNo + 1) % 2 ^ 64 }
      { LogSeqNumber := ((Sync w).1.lastSeqNo + 1) % 2 ^ 64, Data := data,
        CRC := ChecksumIEEE data, IsCheckpoint := some true }
    refine ⟨by rw [b1]; exact a1, x ++ y, ?_⟩
    rw [b2]
    show appendFile (Sync w).1.disk (Sync w).1.currSegment y = _
    rw [a1, a2]; exact appendFile_appendFile _ _ _ _

/-- Every call sequence only appends to the segment file: the directory
afterwards is the directory before with bytes added behind the segment. -/
theorem applyCalls_disk (calls : List Call) : ∀ w : WAL,
    (applyCalls w calls).1.currSegment = w.currSegment ∧
      ∃ extra, (applyCalls w calls).1.disk = appendFile w.disk w.currSegment extra := by
  induction calls with
  | nil => intro w; exact ⟨rfl, [], (appendFile_nil _ _).symm⟩
  | cons c cs ih =>
    intro w
    have hstep : (applyCall w c).1.currSegment = w.currSegment ∧
        ∃ extra, (applyCall w c).1.disk = appendFile w.disk w.currSegment extra := by
      cases c with
      | write d => exact WriteEntry_disk w d
      | checkpoint d => exact WriteEntryWithCheckpoint_disk w d
      | sync => exact Sync_disk w
    obtain ⟨a1, x, a2⟩ := hstep
    obtain ⟨b1, y, b2⟩ := ih (applyCall w c).1
    simp only [applyCalls]
    refine ⟨by rw [b1, a1], x ++ y, ?_⟩
    rw [b2, a1, a2]; exact appendFile_appendFile _ _ _ _

theorem readFile_createFile (d : Dir) (name : List Char) :
    readFile (createFile d name) name = some [] := by
  induction d with
  | nil => simp [createFile, readFile]
  | cons f rest ih =>
    obtain ⟨n, c⟩ := f
    by_cases h : n = name
    · simp [createFile, readFile, h]
    · simp [createFile, readFile, h, ih]

theorem createFile_names (d : Dir) (name : List Char) (h : name ∉ d.map Prod.fst) :
    (createFile d name).map Prod.fst = d.map Prod.fst ++ [name] := by
  induction d with
  | nil => simp [createFile]
  | cons f rest ih =>
    obtain ⟨n, c⟩ := f
    simp only [List.map_cons, List.mem_cons, not_or] at h
    have hn : ¬ n = name := fun hx => h.1 hx.symm
    simp [createFile, hn, ih h.2]

theorem openCreate_of_present (d : Dir) (name : List Char)
    (h : (readFile d name).isSome = true) : openCreate d name = d := by
  induction d with
  | nil => simp [readFile] at h
  | cons f rest ih =>
    obtain ⟨n, c⟩ := f
    by_cases hn : n = name
    · simp [openCreate, hn]
    · simp only [readFile, hn, if_false] at h
      simp [openCreate, hn, ih h]

theorem globSegments_appendFile (d : Dir) (name : List Char) (p : List Nat) :
    globSegments (appendFile d name p) = globSegments d := by
  unfold globSegments
  rw [appendFile_names]

theorem appendCall_payload (ws : List (Bool × List Nat)) (n : Nat)
    (hsize : ∀ x ∈ ws, x.2.length + 25 < n) :
    ∀ c ∈ ws.map appendCall, c.payload.length + 25 < n := by
  intro c hc
  simp only [List.mem_map] at hc
  obtain ⟨x, hx, rfl⟩ := hc
  have := hsize x hx
  unfold appendCall
  split <;> simpa [Call.payload] using this

/-- The entries built by appends from counter 0, with their numbers written
out, as long as the counter does not wrap. -/
theorem builtEntries_enum (ws : List (Bool × List Nat)) (hcount : ws.length < 2 ^ 64) :
    builtEntries 0 (ws.map appendCall)
      = ws.enum.map (fun ix =>
          ({ LogSeqNumber := ix.1 + 1, Data := ix.2.2, CRC := ChecksumIEEE ix.2.2,
             IsCheckpoint := if ix.2.1 then some true else none } : WAL_Entry)) := by
  rw [builtEntries_appendCalls ws 0]
  apply List.map_congr_left
  intro ix hix
  have hlt : ix.1 < ws.length := List.fst_lt_of_mem_enum hix
  have hm : (ix.1 + 1) % 2 ^ 64 = ix.1 + 1 := Nat.mod_eq_of_lt (by omega)
  rw [hm]

/-- An append on a working engine: the call returns nil, the counter goes up
by one, and the entry framed into the log carries the new counter value. -/
theorem appendCall_healthy (w : WAL) (x : Bool × List Nat) (h : healthy w) :
    (applyCall w (appendCall x)).2 = none ∧
      (applyCall w (appendCall x)).1.lastSeqNo = (w.lastSeqNo + 1) % 2 ^ 64 ∧
      logBytes (applyCall w (appendCall x)).1 = logBytes w ++ frameBytes (Marshal
        { LogSeqNumber := (w.lastSeqNo + 1) % 2 ^ 64, Data := x.2, CRC := ChecksumIEEE x.2,
          IsCheckpoint := if x.1 then some true else none }) := by
  obtain ⟨c, p⟩ := x
  cases c
  · obtain ⟨h1, _, _, h4, h5⟩ := WriteEntry_healthy w p h
    exact ⟨h1, h4, h5⟩
  · obtain ⟨h1, _, _, h4, h5⟩ := WriteEntryWithCheckpoint_healthy w p h
    exact ⟨h1, h4, h5⟩

theorem builtEntries_length_le (calls : List Call) : ∀ s : Nat,
    (builtEntries s calls).length ≤ calls.length := by
  induction calls with
  | nil => intro s; simp [builtEntries]
  | cons c cs ih =>
    intro s
    cases c with
    | write d => simp only [builtEntries, List.length_cons]; exact Nat.succ_le_succ (ih _)
    | checkpoint d => simp only [builtEntries, List.length_cons]; exact Nat.succ_le_succ (ih _)
    | sync => simp only [builtEntries, List.length_cons]; exact Nat.le_succ_of_le (ih _)

/-- The entries built from counter value `s` carry numbers above `s`, in
strictly increasing order, as long as the counter does not wrap. -/
theorem builtEntries_increasing (calls : List Call) : ∀ s : Nat,
    s + (builtEntries s calls).length < 2 ^ 64 →
    (∀ e ∈ builtEntries s calls, s < e.LogSeqNumber) ∧
      List.Pairwise (fun a b : WAL_Entry => a.LogSeqNumber < b.LogSeqNumber)
        (builtEntries s calls) := by
  induction calls with
  | nil => intro s _; simp [builtEntries]
  | cons c cs ih =>
    intro s hs
    cases c with
    | write d =>
      simp only [builtEntries, List.length_cons] at hs ⊢
      have hm : (s + 1) % 2 ^ 64 = s + 1 := Nat.mod_eq_of_lt (by omega)
      rw [hm] at hs ⊢
      obtain ⟨i1, i2⟩ := ih (s + 1) (by omega)
      refine ⟨?_, List.pairwise_cons.mpr ⟨fun e he => i1 e he, i2⟩⟩
      intro e he
      simp only [List.mem_cons] at he
      rcases he with rfl | he
      · exact Nat.lt_succ_self s
      · exact Nat.lt_trans (Nat.lt_succ_self s) (i1 e he)
    | checkpoint d =>
      simp only [builtEntries, List.length_cons] at hs ⊢
      have hm : (s + 1) % 2 ^ 64 = s + 1 := Nat.mod_eq_of_lt (by omega)
      rw [hm] at hs ⊢
      obtain ⟨i1, i2⟩ := ih (s + 1) (by omega)
      refine ⟨?_, List.pairwise_cons.mpr ⟨fun e he => i1 e he, i2⟩⟩
      intro e he
      simp only [List.mem_cons] at he
      rcases he with rfl | he
      · exact Nat.lt_succ_self s
      · exact Nat.lt_trans (Nat.lt_succ_self s) (i1 e he)
    | sync =>
      simp only [builtEntries] at hs ⊢
      exact ih s hs

/-- Two rounds end the loop of `(*bufio.Writer).Write`: afterwards the bytes
left fit the buffer or an error is recorded. -/
theorem bufWriteLoop_exit (w : WAL) (p : List Nat) :
    ¬ ((bufWriteLoop 2 w p).2.length > bufAvailable (bufWriteLoop 2 w p).1
        ∧ (bufWriteLoop 2 w p).1.bufErr = false) := by
  have hfit : ∀ (f : Nat) (w1 : WAL) (q : List Nat),
      ¬ (q.length > bufAvailable w1 ∧ w1.bufErr = false) →
      ¬ ((bufWriteLoop f w1 q).2.length > bufAvailable (bufWriteLoop f w1 q).1
          ∧ (bufWriteLoop f w1 q).1.bufErr = false) := by
    intro f w1 q h
    rw [bufWriteLoop_fits f w1 q h]
    exact h
  -- one round on an empty buffer ends the loop
  have hempty : ∀ (f : Nat) (w1 : WAL) (q : List Nat), w1.bufWriter.length = 0 →
      ¬ ((bufWriteLoop (f + 1) w1 q).2.length > bufAvailable (bufWriteLoop (f + 1) w1 q).1
          ∧ (bufWriteLoop (f + 1) w1 q).1.bufErr = false) := by
    intro f w1 q hb
    by_cases hc : q.length > bufAvailable w1 ∧ w1.bufErr = false
    · rw [bufWriteLoop, if_pos hc, if_pos hb]
      rcases fileWrite_cases w1 q with h | h
      · rw [h]; exact hfit _ _ _ (by simp)
      · rw [h]; exact hfit _ _ _ (by simp)
    · exact hfit _ _ _ hc
  by_cases hc : p.length > bufAvailable w ∧ w.bufErr = false
  · by_cases hb : w.bufWriter.length = 0
    · exact hempty 1 w p hb
    · rw [bufWriteLoop, if_pos hc, if_neg hb]
      simp only
      generalize hw1 : ({ w with bufWriter := w.bufWriter ++ p.take (min (bufAvailable w) p.length) } : WAL) = w1
      -- the flush either records an error or empties the buffer
      have hflush : (bufFlush w1).1.bufErr = true ∨ (bufFlush w1).1.bufWriter.length = 0 := by
        unfold bufFlush
        split
        · rename_i he; exact Or.inl he
        · split
          · rename_i hz; exact Or.inr hz
          · rcases fileWrite_cases w1 w1.bufWriter with h | h
            · rw [h]; exact Or.inl rfl
            · rw [h]; exact Or.inr rfl
      rcases hflush with he | hz
      · exact hfit _ _ _ (by simp [he])
      · exact hempty 0 _ _ hz
  · exact hfit _ _ _ hc

theorem toInt32_large (n : Nat) (h1 : 2 ^ 31 ≤ n) (h2 : n < 2 ^ 32) :
    toInt32 n = (n : Int) - 2 ^ 32 := by
  unfold toInt32
  have hm : n % 2 ^ 32 = n := Nat.mod_eq_of_lt h2
  rw [hm]
  have h3 : ¬ n < 2 ^ 31 := by omega
  rw [if_neg h3]

theorem putInt32LE_large (n : Nat) (h1 : 2 ^ 31 ≤ n) (h2 : n < 2 ^ 32) :
    putInt32LE ((n : Int) - 2 ^ 32)
      = [n % 256, n / 256 % 256, n / 65536 % 256, n / 16777216 % 256] := by
  unfold putInt32LE
  have : (((n : Int) - 2 ^ 32) % 2 ^ 32).toNat = n := by
    have h3 : ((n : Int) - 2 ^ 32) % 2 ^ 32 = (n : Int) := by
      rw [Int.sub_emod, Int.emod_self, sub_zero, Int.emod_emod_of_dvd _ (dvd_refl _)]
      exact Int.emod_eq_of_lt (by omega) (by omega)
    rw [h3]; simp
  simp only [this]

theorem getInt32LE_bytes_large (n : Nat) (h1 : 2 ^ 31 ≤ n) (h2 : n < 2 ^ 32) :
    getInt32LE (n % 256) (n / 256 % 256) (n / 65536 % 256) (n / 16777216 % 256)
      = (n : Int) - 2 ^ 32 := by
  unfold getInt32LE
  have : n % 256 + 256 * (n / 256 % 256) + 65536 * (n / 65536 % 256)
      + 16777216 * (n / 16777216 % 256) = n := by omega
  rw [this, toInt32_large n h1 h2]

/-- The frame of a body of 2 GiB or more, below 4 GiB: the length word holds
a negative `int32`. -/
theorem frameBytes_large (body : List Nat) (h1 : 2 ^ 31 ≤ body.length)
    (h2 : body.length < 2 ^ 32) :
    frameBytes body = body.length % 256 :: (body.length / 256 % 256) ::
      (body.length / 65536 % 256) :: (body.length / 16777216 % 256) :: body := by
  unfold frameBytes
  rw [toInt32_large _ h1 h2, putInt32LE_large _ h1 h2]
  rfl

/-- The strict scan panics at the frame of a body of 2 GiB or more. -/
theorem readAllLoop_frame_large (fuel : Nat) (body rest : List Nat) (acc : List WAL_Entry)
    (h1 : 2 ^ 31 ≤ body.length) (h2 : body.length < 2 ^ 32) :
    readAllLoop (fuel + 1) (frameBytes body ++ rest) acc = Res.panic := by
  rw [frameBytes_large body h1 h2]
  simp only [List.cons_append]
  rw [readAllLoop]
  have hneg : (body.length : Int) - 2 ^ 32 < 0 := by omega
  simp only [getInt32LE_bytes_large _ h1 h2, hneg, if_true]

/-- The recovery scan panics at the frame of a body of 2 GiB or more. -/
theorem getLastEntryLoop_frame_large (fuel : Nat) (body rest : List Nat)
    (acc : Option WAL_Entry) (h1 : 2 ^ 31 ≤ body.length) (h2 : body.length < 2 ^ 32) :
    getLastEntryLoop (fuel + 1) (frameBytes body ++ rest) acc = Res.panic := by
  rw [frameBytes_large body h1 h2]
  simp only [List.cons_append]
  rw [getLastEntryLoop]
  have hneg : (body.length : Int) - 2 ^ 32 < 0 := by omega
  simp only [getInt32LE_bytes_large _ h1 h2, hneg, if_true]

theorem Marshal_length_ge (e : WAL_Entry) : e.Data.length ≤ (Marshal e).length := by
  have h2 : e.Data.length ≤ (marshalData e).length := by
    unfold marshalData
    split
    · rename_i h; simp [h]
    · simp; omega
  unfold Marshal
  simp only [List.length_append]
  omega

/-- After calls on a working engine with an empty log, ended by `Sync`: every
call returned nil and the segment file holds the frames of the entries
built, in call order. -/
theorem file_after_sync (w : WAL) (calls : List Call) (h : healthy w)
    (hs : w.lastSeqNo < 2 ^ 64) (hlog : logBytes w = []) :
    (∀ r ∈ (applyCalls w (calls ++ [Call.sync])).2, r = none) ∧
      (applyCalls w (calls ++ [Call.sync])).1.currSegment = w.currSegment ∧
      readFile (applyCalls w (calls ++ [Call.sync])).1.disk w.currSegment
        = some (framesBytes ((builtEntries w.lastSeqNo calls).map Marshal)) := by
  obtain ⟨a1, a2, a3, a4, a5⟩ := applyCalls_healthy calls w h hs
  obtain ⟨s1, s2, s3, s4, s5, s6⟩ := Sync_healthy (applyCalls w calls).1 a2
  rw [hlog, List.nil_append] at a5
  rw [a5, a3] at s6
  have hfin : (applyCalls w (calls ++ [Call.sync])).1 = (Sync (applyCalls w calls).1).1 := by
    rw [applyCalls_append]; rfl
  have herr : (applyCalls w (calls ++ [Call.sync])).2
      = (applyCalls w calls).2 ++ [(Sync (applyCalls w calls).1).2] := by
    rw [applyCalls_append]; rfl
  rw [hfin, herr]
  refine ⟨?_, by rw [s3, a3], s6⟩
  intro r hr
  simp only [List.mem_append, List.mem_singleton] at hr
  rcases hr with hr | hr
  · exact a1 r hr
  · rw [hr, s1]

theorem healthy_exampleEngine : healthy exampleEngine :=
  ⟨rfl, rfl, rfl, by decide⟩

theorem hugePayload_length : hugePayload.length = 2 ^ 31 := by
  unfold hugePayload
  exact List.length_replicate _ _

/-- The marshalled entry of the 2 GiB payload is too long for the length
word of a frame. -/
theorem Marshal_hugePayload_length (seq : Nat) (flag : Option Bool) :
    2 ^ 31 ≤ (Marshal ⟨seq, hugePayload, ChecksumIEEE hugePayload, flag⟩).length ∧
      (Marshal ⟨seq, hugePayload, ChecksumIEEE hugePayload, flag⟩).length < 2 ^ 32 := by
  have h1 := Marshal_length_ge ⟨seq, hugePayload, ChecksumIEEE hugePayload, flag⟩
  have h2 := Marshal_length_le ⟨seq, hugePayload, ChecksumIEEE hugePayload, flag⟩
    (by show hugePayload.length < 2 ^ 35; rw [hugePayload_length]; norm_num)
  have h3 : (⟨seq, hugePayload, ChecksumIEEE hugePayload, flag⟩ : WAL_Entry).Data.length
      = 2 ^ 31 := hugePayload_length
  rw [h3] at h1 h2
  exact ⟨h1, by omega⟩

theorem ReadAll_of_file (w : WAL) (file : List Nat)
    (h : readFile w.disk w.currSegment = some file) :
    ReadAll w = readAllLoop (file.length + 1) file [] := by
  unfold ReadAll
  rw [h]

/-- A non-empty initial part of a segment that starts with the frame of a body
of 2 GiB or more: the strict scan does not succeed on it. -/
theorem readAllLoop_large_not_ok (fuel : Nat) (body G file rest : List Nat)
    (acc es : List WAL_Entry) (h1 : 2 ^ 31 ≤ body.length) (h2 : body.length < 2 ^ 32)
    (hne : file ≠ []) (hfile : file ++ rest = frameBytes body ++ G) :
    readAllLoop (fuel + 1) file acc ≠ Res.ok es := by
  rw [frameBytes_large body h1 h2] at hfile
  match file, hne with
  | [_], _ => simp [readAllLoop]
  | [_, _], _ => simp [readAllLoop]
  | [_, _, _], _ => simp [readAllLoop]
  | x :: y :: z :: u :: t, _ =>
    simp only [List.cons_append, List.cons.injEq] at hfile
    obtain ⟨rfl, rfl, rfl, rfl, _⟩ := hfile
    rw [readAllLoop]
    have hneg : (body.length : Int) - 2 ^ 32 < 0 := by omega
    simp only [getInt32LE_bytes_large _ h1 h2, hneg, if_true]
    simp

/-- The strict scan over an initial part of a run of frames whose bodies are
below 4 GiB and decode when they are below 2 GiB: when the scan succeeds, it
returns the entries of the first `k` frames for some `k`. -/
theorem readAllLoop_initial_part_wide (records : List (List Nat × WAL_Entry)) :
    ∀ (file rest : List Nat) (acc es : List WAL_Entry),
    (∀ r ∈ records, r.1.length < 2 ^ 32 ∧ unmarshalAndVerifyEntry r.1 = Res.ok r.2) →
    file ++ rest = framesBytes (records.map Prod.fst) →
    readAllLoop (file.length + 1) file acc = Res.ok es →
    ∃ k, es = acc ++ (records.take k).map Prod.snd := by
  induction records with
  | nil =>
    intro file rest acc es _ hfile hread
    simp only [List.map_nil, framesBytes, List.append_eq_nil] at hfile
    rw [hfile.1, readAllLoop_nil] at hread
    injection hread with hread
    exact ⟨0, by simp [hread]⟩
  | cons r rs ih =>
    intro file rest acc es hv hfile hread
    have hr := hv r (List.mem_cons_self _ _)
    simp only [List.map_cons, framesBytes] at hfile
    by_cases hnil : file = []
    · rw [hnil, readAllLoop_nil] at hread
      injection hread with hread
      exact ⟨0, by simp [hread]⟩
    · by_cases hsmall : r.1.length < 2 ^ 31
      · rcases List.append_eq_append_iff.mp hfile with ⟨a, ha, _⟩ | ⟨c, hc, hrest⟩
        · by_cases ha0 : a = []
          · rw [ha0, List.append_nil] at ha
            rw [← ha] at hread
            have := readAllLoop_frame ((frameBytes r.1).length + 1) r.1 [] acc r.2 hsmall hr.2
              (by simp)
            rw [List.append_nil] at this
            rw [this, readAllLoop_nil] at hread
            injection hread with hread
            exact ⟨1, by simp [hread]⟩
          · have hlen : file.length < (frameBytes r.1).length := by
              have := congrArg List.length ha
              rw [List.length_append] at this
              have : 0 < a.length := List.length_pos.mpr ha0
              omega
            have htake : file = (frameBytes r.1).take file.length := by
              rw [ha, List.take_left]
            have htr : isTruncatedTail file = true := by
              rw [htake]
              exact isTruncatedTail_take r.1 _ hsmall (List.length_pos.mpr hnil) hlen
            obtain ⟨e, he⟩ := readAllLoop_truncated file.length file acc htr
            rw [he] at hread
            cases hread
        · rw [hc] at hread
          rw [readAllLoop_frame _ r.1 c acc r.2 hsmall hr.2 (by omega)] at hread
          obtain ⟨k, hk⟩ := ih c rest (acc ++ [r.2]) es
            (fun x hx => hv x (List.mem_cons_of_mem _ hx)) hrest.symm hread
          exact ⟨k + 1, by simp [hk]⟩
      · exact absurd hread (readAllLoop_large_not_ok _ r.1 _ file rest acc es
          (by omega) hr.1 hnil hfile)

/-- Entries built by calls with payloads below 4 GiB: the marshalled entry
is below 4 GiB and decodes. -/
theorem builtEntries_decodable_wide (calls : List Call) (s : Nat)
    (hsize : ∀ c ∈ calls, c.payload.length + 25 < 2 ^ 32) :
    ∀ e ∈ builtEntries s calls,
      (Marshal e).length < 2 ^ 32 ∧ unmarshalAndVerifyEntry (Marshal e) = Res.ok e := by
  intro e he
  obtain ⟨h1, h2, c, hc, h3⟩ := builtEntries_valid calls s e he
  have hl := hsize c hc
  rw [← h3] at hl
  refine ⟨?_, unmarshalAndVerifyEntry_Marshal e h1 h2 (by omega)⟩
  have := Marshal_length_le e (by omega)
  omega

theorem putInt32LE_length (i : Int) : (putInt32LE i).length = 4 := by
  simp [putInt32LE]

/-- A write that fits the free space of the buffer goes to the buffer only. -/
theorem bufWrite_fits (w : WAL) (p : List Nat) (h : p.length ≤ bufAvailable w) :
    bufWrite w p
      = if w.bufErr then (w, false) else ({ w with bufWriter := w.bufWriter ++ p }, true) := by
  unfold bufWrite
  rw [bufWriteLoop_fits 2 w p (by intro hx; omega)]

/-- A frame that fits the free space of the buffer leaves the directory as it
is; when the call returns nil, the frame stands at the end of the buffer. -/
theorem writeEntryToBuffer_fits (w : WAL) (e : WAL_Entry)
    (hfit : w.bufWriter.length + (frameBytes (Marshal e)).length ≤ defaultBufSize) :
    (writeEntryToBuffer w e).1.disk = w.disk ∧
      (writeEntryToBuffer w e).1.currSegment = w.currSegment ∧
      ((writeEntryToBuffer w e).2 = none →
        writeEntryToBuffer w e
          = ({ w with bufWriter := w.bufWriter ++ frameBytes (Marshal e) }, none)) := by
  rw [frameBytes_length] at hfit
  have h1 : (putInt32LE (toInt32 (Marshal e).length)).length ≤ bufAvailable w := by
    rw [putInt32LE_length]; unfold bufAvailable; omega
  have h2 : (Marshal e).length ≤ bufAvailable
      { w with bufWriter := w.bufWriter ++ putInt32LE (toInt32 (Marshal e).length) } := by
    unfold bufAvailable
    simp only [List.length_append, putInt32LE_length]
    omega
  have hb2 := bufWrite_fits _ _ h2
  unfold writeEntryToBuffer
  simp only [bufWrite_fits w _ h1]
  by_cases hbe : w.bufErr = true
  · simp [hbe]
  · have hbe2 : w.bufErr = false := by simpa using hbe
    simp only [hbe2, Bool.false_eq_true, if_false] at hb2 ⊢
    rw [hb2]
    simp [frameBytes]

/-- A flush that returns nil has put the whole buffer behind the segment file
and left the buffer empty. -/
theorem bufFlush_ok (w : WAL) (h : (bufFlush w).2 = true) :
    (bufFlush w).1
      = { w with disk := appendFile w.disk w.currSegment w.bufWriter, bufWriter := [] } := by
  unfold bufFlush at h ⊢
  by_cases hbe : w.bufErr = true
  · simp [hbe] at h
  · have hbe2 : w.bufErr = false := by simpa using hbe
    by_cases hb : w.bufWriter.length = 0
    · have hb2 : w.bufWriter = [] := List.length_eq_zero.mp hb
      cases w
      simp_all [appendFile_nil]
    · rcases fileWrite_cases w w.bufWriter with hw | hw
      · simp [hbe2, hb, hw] at h
      · simp only [hbe2, hb, hw, Bool.false_eq_true, if_false]

/-- A `Sync` that returns nil has put the whole buffer behind the segment
file, left the buffer empty and armed the timer with the constant
`SyncInterval`; nothing else has changed. -/
theorem Sync_ok (w : WAL) (h : (Sync w).2 = none) :
    (Sync w).1 = { w with disk := appendFile w.disk w.currSegment w.bufWriter, bufWriter := [],
                          syncTimer := SyncInterval } := by
  unfold Sync at h ⊢
  by_cases hf : (bufFlush w).2 = false
  · simp [hf] at h
  · have hf2 : (bufFlush w).2 = true := by simpa using hf
    have hfl := bufFlush_ok w hf2
    rw [if_neg hf] at h ⊢
    by_cases hs : (bufFlush w).1.shouldFsync ∧ ((bufFlush w).1.ioFault ∨ (bufFlush w).1.closed)
    · rw [if_pos hs] at h; cases h
    · rw [if_neg hs, hfl]

/-- A frame longer than the buffer, and at most twice as long, written by a
working engine whose buffer is empty: the call returns nil, the first 4096
bytes of the frame are in the file and the rest is in the buffer. -/
theorem writeEntryToBuffer_spill (w : WAL) (e : WAL_Entry) (h : healthy w)
    (hb : w.bufWriter = [])
    (h1 : defaultBufSize < (frameBytes (Marshal e)).length)
    (h2 : (frameBytes (Marshal e)).length ≤ 2 * defaultBufSize) :
    writeEntryToBuffer w e
      = ({ w with disk := appendFile w.disk w.currSegment
                    ((frameBytes (Marshal e)).take defaultBufSize),
                  bufWriter := (frameBytes (Marshal e)).drop defaultBufSize }, none) := by
  obtain ⟨hbe, hio, hcl, _⟩ := h
  rw [frameBytes_length] at h1 h2
  have hD : defaultBufSize = 4096 := rfl
  have hs4 : (putInt32LE (toInt32 (Marshal e).length)).length = 4 := putInt32LE_length _
  generalize hsz : putInt32LE (toInt32 (Marshal e).length) = sz at hs4
  have hw1 : bufWrite w sz = ({ w with bufWriter := sz }, true) := by
    rw [bufWrite_fits w sz (by unfold bufAvailable; rw [hb, hs4, hD]; simp)]
    simp [hbe, hb]
  have hav : bufAvailable { w with bufWriter := sz } = 4092 := by
    unfold bufAvailable; simp only [hs4, hD]
  have hmin : min (bufAvailable { w with bufWriter := sz }) (Marshal e).length = 4092 := by
    rw [hav]; omega
  have hw2 : bufWrite { w with bufWriter := sz } (Marshal e)
      = ({ w with disk := appendFile w.disk w.currSegment (sz ++ (Marshal e).take 4092),
                  bufWriter := (Marshal e).drop 4092 }, true) := by
    unfold bufWrite
    rw [bufWriteLoop_fill 1 { w with bufWriter := sz } (Marshal e) (by rw [hav]; omega) hbe
      (by simp only [hs4]; omega) hio hcl]
    simp only [hmin]
    rw [bufWriteLoop_fits 1 _ _ (by
      intro hx
      have := hx.1
      simp only [bufAvailable, List.length_drop, List.length_nil, hD] at this
      omega)]
    simp [hbe]
  unfold writeEntryToBuffer
  simp only [hsz, hw1, hw2]
  have ht : (frameBytes (Marshal e)).take defaultBufSize = sz ++ (Marshal e).take 4092 := by
    unfold frameBytes
    rw [hsz, List.take_append_eq_append_take, hs4, hD, List.take_of_length_le (by omega)]
  have hd : (frameBytes (Marshal e)).drop defaultBufSize = (Marshal e).drop 4092 := by
    unfold frameBytes
    rw [hsz, List.drop_append_eq_append_drop, hs4, hD, List.drop_of_length_le (by omega)]
    rfl
  rw [ht, hd]
  simp

/-- A strict scan that succeeds has used up the whole file in frames: with
more bytes behind the file, the scan goes on there with the entries read so
far. -/
theorem readAllLoop_append (fuel : Nat) : ∀ (file tail : List Nat) (acc es : List WAL_Entry),
    file.length < fuel → readAllLoop fuel file acc = Res.ok es →
    readAllLoop ((file ++ tail).length + 1) (file ++ tail) acc
      = readAllLoop (tail.length + 1) tail es := by
  induction fuel with
  | zero => intro file tail acc es hf; omega
  | succ fuel ih =>
    intro file tail acc es hf hread
    match file with
    | [] =>
      rw [readAllLoop] at hread
      injection hread with hread
      rw [hread]; rfl
    | [_] => simp [readAllLoop] at hread
    | [_, _] => simp [readAllLoop] at hread
    | [_, _, _] => simp [readAllLoop] at hread
    | b0 :: b1 :: b2 :: b3 :: rest =>
      rw [readAllLoop] at hread
      simp only [List.cons_append]
      rw [readAllLoop]
      by_cases hneg : getInt32LE b0 b1 b2 b3 < 0
      · rw [if_pos hneg] at hread; cases hread
      · rw [if_neg hneg] at hread ⊢
        by_cases hshort : rest.length < (getInt32LE b0 b1 b2 b3).toNat
        · rw [if_pos hshort] at hread; cases hread
        · rw [if_neg hshort] at hread
          have hlong : ¬ (rest ++ tail).length < (getInt32LE b0 b1 b2 b3).toNat := by
            rw [List.length_append]; omega
          rw [if_neg hlong]
          have htake : (rest ++ tail).take (getInt32LE b0 b1 b2 b3).toNat
              = rest.take (getInt32LE b0 b1 b2 b3).toNat :=
            List.take_append_of_le_length (by omega)
          have hdrop : (rest ++ tail).drop (getInt32LE b0 b1 b2 b3).toNat
              = rest.drop (getInt32LE b0 b1 b2 b3).toNat ++ tail :=
            List.drop_append_of_le_length (by omega)
          rw [htake, hdrop]
          cases hu : Unmarshal (rest.take (getInt32LE b0 b1 b2 b3).toNat) with
          | none => rw [hu] at hread; cases hread
          | some entry =>
            rw [hu] at hread
            dsimp only at hread
            by_cases hcrc : ChecksumIEEE entry.Data ≠ entry.CRC
            · rw [if_pos hcrc] at hread; cases hread
            · rw [if_neg hcrc] at hread
              dsimp only
              rw [if_neg hcrc]
              have hlen : (rest.drop (getInt32LE b0 b1 b2 b3).toNat).length < fuel := by
                simp only [List.length_cons] at hf
                rw [List.length_drop]; omega
              rw [← ih _ tail _ es hlen hread]
              apply readAllLoop_fuel
              · simp only [List.length_append, List.length_drop, List.length_cons]; omega
              · simp only [List.length_append, List.length_drop, List.length_cons]; omega

theorem extAux_no_dot (l : List Char) : ∀ acc : List Char, '.' ∉ l → extAux l acc = [] := by
  induction l with
  | nil => intro acc _; rfl
  | cons c cs ih =>
    intro acc h
    simp only [List.mem_cons, not_or] at h
    have hc : ¬ c = '.' := fun hx => h.1 hx.symm
    unfold extAux
    by_cases hs : c = '/'
    · rw [if_pos hs]
    · rw [if_neg hs, if_neg hc]
      exact ih _ h.2

theorem Ext_no_dot (name : List Char) (h : '.' ∉ name) : Ext name = [] := by
  unfold Ext
  exact extAux_no_dot _ _ (by simpa using h)

theorem TrimSuffix_nil (s : List Char) : TrimSuffix s [] = s := by
  simp [TrimSuffix]

theorem parseDigits_no_dot (s : List Char) : ∀ (acc n : Nat),
    parseDigits s acc = some n → '.' ∉ s := by
  induction s with
  | nil => intro acc n _; simp
  | cons c cs ih =>
    intro acc n h
    unfold parseDigits at h
    by_cases hd : '0' ≤ c ∧ c ≤ '9'
    · rw [if_pos hd] at h
      simp only [List.mem_cons, not_or]
      refine ⟨?_, ih _ _ h⟩
      intro hc
      rw [← hc] at hd
      exact absurd hd.1 (by decide)
    · rw [if_neg hd] at h; cases h

/-- A string `strconv.Atoi` accepts holds no dot. -/
theorem Atoi_no_dot (s : List Char) (id : Int) (h : Atoi s = some id) : '.' ∉ s := by
  match s with
  | [] => simp
  | c :: cs =>
    unfold Atoi at h
    simp only at h
    by_cases hsign : c = '-' ∨ c = '+'
    · simp only [hsign, if_true] at h
      by_cases hnil : cs = []
      · simp [hnil] at h
      · rw [if_neg hnil] at h
        cases hp : parseDigits cs 0 with
        | none => rw [hp] at h; cases h
        | some n =>
          have := parseDigits_no_dot cs 0 n hp
          simp only [List.mem_cons, not_or]
          refine ⟨?_, this⟩
          intro hc
          rcases hsign with hx | hx <;> · rw [hx] at hc; exact absurd hc (by decide)
    · simp only [hsign, if_false] at h
      rw [if_neg (List.cons_ne_nil _ _)] at h
      cases hp : parseDigits (c :: cs) 0 with
      | none => rw [hp] at h; cases h
      | some n => exact parseDigits_no_dot (c :: cs) 0 n hp

/-- A name that starts with the segment stem and whose remainder
`strconv.Atoi` accepts has no extension. -/
theorem Ext_of_parsed (name : List Char) (id : Int)
    (hp : HasPrefix name SegmentPrefix = true)
    (ha : Atoi (TrimPrefix name SegmentPrefix) = some id) : Ext name = [] := by
  apply Ext_no_dot
  have hdrop : TrimPrefix name SegmentPrefix = name.drop SegmentPrefix.length := by
    unfold TrimPrefix; rw [if_pos hp]
  rw [hdrop] at ha
  have hnd := Atoi_no_dot _ id ha
  unfold HasPrefix at hp
  obtain ⟨t, ht⟩ := List.isPrefixOf_iff_prefix.mp hp
  rw [← ht] at hnd ⊢
  rw [List.drop_left] at hnd
  simp only [List.mem_append, not_or]
  exact ⟨by decide, hnd⟩

/-- One round of the loop of `prepareCurrentSegment` on a name whose
remainder parses: the ID enters the running maximum. -/
theorem maxSegmentLoop_parsed (name : List Char) (files : List (List Char)) (acc id : Int)
    (hp : HasPrefix name SegmentPrefix = true)
    (ha : Atoi (TrimPrefix name SegmentPrefix) = some id) :
    maxSegmentLoop (name :: files) acc = maxSegmentLoop files (max acc id) := by
  have hne : ¬ TrimPrefix name SegmentPrefix = [] := by
    intro h; rw [h] at ha; simp [Atoi] at ha
  rw [maxSegmentLoop]
  simp only [Ext_of_parsed name id hp ha, TrimSuffix_nil, hp, Bool.true_eq_false, if_false, hne, ha]

/-- The loop of `prepareCurrentSegment` over names whose remainders all
parse: it ends without error, with the greatest of the start value and the
IDs parsed. -/
theorem maxSegmentLoop_all_parsed (files : List (List Char)) : ∀ acc : Int,
    (∀ name ∈ files, HasPrefix name SegmentPrefix = true ∧
      ∃ id, Atoi (TrimPrefix name SegmentPrefix) = some id) →
    ∃ m, maxSegmentLoop files acc = Res.ok m ∧ acc ≤ m ∧
      (∀ name ∈ files, ∀ j, Atoi (TrimPrefix name SegmentPrefix) = some j → j ≤ m) ∧
      (m = acc ∨ ∃ name ∈ files, Atoi (TrimPrefix name SegmentPrefix) = some m) := by
  induction files with
  | nil => intro acc _; exact ⟨acc, rfl, le_refl _, by simp, Or.inl rfl⟩
  | cons name files ih =>
    intro acc h
    obtain ⟨hp, id, ha⟩ := h name (List.mem_cons_self _ _)
    obtain ⟨m, h1, h2, h3, h4⟩ := ih (max acc id) (fun x hx => h x (List.mem_cons_of_mem _ hx))
    refine ⟨m, by rw [maxSegmentLoop_parsed name files acc id hp ha]; exact h1,
      le_trans (le_max_left _ _) h2, ?_, ?_⟩
    · intro x hx j hj
      simp only [List.mem_cons] at hx
      rcases hx with hx | hx
      · rw [hx, ha] at hj
        injection hj with hj
        rw [← hj]
        exact le_trans (le_max_right _ _) h2
      · exact h3 x hx j hj
    · rcases h4 with h4 | ⟨x, hx, hxm⟩
      · rcases max_cases acc id with ⟨hm, _⟩ | ⟨hm, _⟩
        · exact Or.inl (by rw [h4, hm])
        · exact Or.inr ⟨name, List.mem_cons_self _ _, by rw [h4, hm]; exact ha⟩
      · exact Or.inr ⟨x, List.mem_cons_of_mem _ hx, hxm⟩

theorem globSegments_HasPrefix (disk : Dir) (name : List Char) (h : name ∈ globSegments disk) :
    HasPrefix name SegmentPrefix = true := by
  unfold globSegments at h
  exact (List.mem_filter.mp h).2

/-- The loop of `prepareCurrentSegment` returns its error exactly when one of
the names, with its extension taken off, starts with the segment stem and
has a non-empty remainder that `strconv.Atoi` rejects. -/
theorem maxSegmentLoop_error_iff (files : List (List Char)) : ∀ acc : Int,
    maxSegmentLoop files acc = Res.error WalError.invalidSegmentName ↔
      ∃ name ∈ files,
        HasPrefix (TrimSuffix name (Ext name)) SegmentPrefix = true ∧
        TrimPrefix (TrimSuffix name (Ext name)) SegmentPrefix ≠ [] ∧
        Atoi (TrimPrefix (TrimSuffix name (Ext name)) SegmentPrefix) = none := by
  induction files with
  | nil => intro acc; simp [maxSegmentLoop]
  | cons name files ih =>
    intro acc
    rw [maxSegmentLoop]
    simp only [List.mem_cons, exists_eq_or_imp]
    by_cases hp : HasPrefix (TrimSuffix name (Ext name)) SegmentPrefix = false
    · rw [if_pos hp, ih]
      simp [hp]
    · have hp2 : HasPrefix (TrimSuffix name (Ext name)) SegmentPrefix = true := by simpa using hp
      rw [if_neg hp]
      by_cases hnil : TrimPrefix (TrimSuffix name (Ext name)) SegmentPrefix = []
      · rw [if_pos hnil, ih]
        simp [hnil]
      · rw [if_neg hnil]
        cases ha : Atoi (TrimPrefix (TrimSuffix name (Ext name)) SegmentPrefix) with
        | none => simp [hp2, hnil]
        | some id =>
          dsimp only
          rw [ih]
          simp

theorem maxSegmentLoop_no_panic (files : List (List Char)) : ∀ acc : Int,
    maxSegmentLoop files acc ≠ Res.panic := by
  induction files with
  | nil => intro acc; simp [maxSegmentLoop]
  | cons name files ih =>
    intro acc
    rw [maxSegmentLoop]
    dsimp only
    split
    · exact ih _
    · split
      · exact ih _
      · split
        · simp
        · exact ih _

/-- The flush leaves the counter, the state of the file handle and the fsync
setting as they are. -/
theorem bufFlush_fields (w : WAL) :
    (bufFlush w).1.lastSeqNo = w.lastSeqNo ∧ (bufFlush w).1.closed = w.closed ∧
      (bufFlush w).1.ioFault = w.ioFault ∧ (bufFlush w).1.shouldFsync = w.shouldFsync := by
  unfold bufFlush
  split
  · exact ⟨rfl, rfl, rfl, rfl⟩
  · split
    · exact ⟨rfl, rfl, rfl, rfl⟩
    · rcases fileWrite_cases w w.bufWriter with h | h
      · rw [h]; exact ⟨rfl, rfl, rfl, rfl⟩
      · rw [h]; exact ⟨rfl, rfl, rfl, rfl⟩

theorem bufWriteLoop_fields (fuel : Nat) : ∀ (w : WAL) (p : List Nat),
    (bufWriteLoop fuel w p).1.lastSeqNo = w.lastSeqNo ∧
      (bufWriteLoop fuel w p).1.closed = w.closed ∧
      (bufWriteLoop fuel w p).1.ioFault = w.ioFault ∧
      (bufWriteLoop fuel w p).1.shouldFsync = w.shouldFsync := by
  induction fuel with
  | zero => intro w p; exact ⟨rfl, rfl, rfl, rfl⟩
  | succ fuel ih =>
    intro w p
    rw [bufWriteLoop]
    split
    · split
      · rcases fileWrite_cases w p with h | h
        · rw [h]; exact ih { w with bufErr := true } p
        · rw [h]; exact ih { w with disk := appendFile w.disk w.currSegment p } []
      · obtain ⟨f1, f2, f3, f4⟩ := bufFlush_fields
          { w with bufWriter := w.bufWriter ++ p.take (min (bufAvailable w) p.length) }
        obtain ⟨h1, h2, h3, h4⟩ := ih (bufFlush
          { w with bufWriter := w.bufWriter ++ p.take (min (bufAvailable w) p.length) }).1
          (p.drop (min (bufAvailable w) p.length))
        exact ⟨by rw [h1, f1], by rw [h2, f2], by rw [h3, f3], by rw [h4, f4]⟩
    · exact ⟨rfl, rfl, rfl, rfl⟩

/-- A write through the buffered writer leaves the counter, the state of the
file handle and the fsync setting as they are; it returns an error exactly
when the writer holds an error afterwards. -/
theorem bufWrite_fields (w : WAL) (p : List Nat) :
    (bufWrite w p).1.lastSeqNo = w.lastSeqNo ∧ (bufWrite w p).1.closed = w.closed ∧
      (bufWrite w p).1.ioFault = w.ioFault ∧ (bufWrite w p).1.shouldFsync = w.shouldFsync ∧
      ((bufWrite w p).2 = false ↔ (bufWrite w p).1.bufErr = true) := by
  obtain ⟨h1, h2, h3, h4⟩ := bufWriteLoop_fields 2 w p
  unfold bufWrite
  simp only
  split
  · rename_i he
    exact ⟨h1, h2, h3, h4, by simp [he]⟩
  · rename_i he
    exact ⟨h1, h2, h3, h4, by simp [he]⟩

theorem writeEntryToBuffer_fields (w : WAL) (e : WAL_Entry) :
    (writeEntryToBuffer w e).1.lastSeqNo = w.lastSeqNo ∧
      (writeEntryToBuffer w e).1.closed = w.closed ∧
      (writeEntryToBuffer w e).1.ioFault = w.ioFault ∧
      (writeEntryToBuffer w e).1.shouldFsync = w.shouldFsync ∧
      ((writeEntryToBuffer w e).2 ≠ none ↔ (writeEntryToBuffer w e).1.bufErr = true) := by
  obtain ⟨a1, a2, a3, a4, a5⟩ := bufWrite_fields w (putInt32LE (toInt32 (Marshal e).length))
  obtain ⟨b1, b2, b3, b4, b5⟩ := bufWrite_fields
    (bufWrite w (putInt32LE (toInt32 (Marshal e).length))).1 (Marshal e)
  unfold writeEntryToBuffer
  simp only
  split
  · rename_i hf
    exact ⟨a1, a2, a3, a4, by simp [a5.mp hf]⟩
  · split
    · rename_i hf
      exact ⟨by rw [b1, a1], by rw [b2, a2], by rw [b3, a3], by rw [b4, a4], by simp [b5.mp hf]⟩
    · rename_i hf
      refine ⟨by rw [b1, a1], by rw [b2, a2], by rw [b3, a3], by rw [b4, a4], ?_⟩
      have : ¬ (bufWrite (bufWrite w (putInt32LE (toInt32 (Marshal e).length))).1
          (Marshal e)).1.bufErr = true := fun hx => hf (b5.mpr hx)
      simp [this]

theorem Sync_fields (w : WAL) :
    (Sync w).1.lastSeqNo = w.lastSeqNo ∧ (Sync w).1.closed = w.closed ∧
      (Sync w).1.ioFault = w.ioFault ∧ (Sync w).1.shouldFsync = w.shouldFsync := by
  obtain ⟨h1, h2, h3, h4⟩ := bufFlush_fields w
  unfold Sync
  simp only
  split
  · exact ⟨h1, h2, h3, h4⟩
  · split
    · exact ⟨h1, h2, h3, h4⟩
    · exact ⟨h1, h2, h3, h4⟩

/-- A `Sync` that returns an error: either the flush failed, and the buffer
and the directory are as before, or the flush went through and the fsync
failed, and the buffer has been put behind the segment file. -/
theorem Sync_error (w : WAL) (err : WalError) (h : (Sync w).2 = some err) :
    (err = WalError.flush ∧ (Sync w).1.bufWriter = w.bufWriter ∧ (Sync w).1.disk = w.disk) ∨
      (err = WalError.fsync ∧ (Sync w).1.bufWriter = [] ∧
        (Sync w).1.disk = appendFile w.disk w.currSegment w.bufWriter) := by
  unfold Sync at h ⊢
  by_cases hf : (bufFlush w).2 = false
  · rw [if_pos hf] at h ⊢
    injection h with h
    refine Or.inl ⟨h.symm, ?_⟩
    show (bufFlush w).1.bufWriter = w.bufWriter ∧ (bufFlush w).1.disk = w.disk
    unfold bufFlush at hf ⊢
    by_cases hbe : w.bufErr = true
    · simp [hbe]
    · have hbe2 : w.bufErr = false := by simpa using hbe
      by_cases hb : w.bufWriter.length = 0
      · simp [hbe2, hb] at hf
      · rcases fileWrite_cases w w.bufWriter with hw | hw
        · simp [hbe2, hb, hw]
        · simp [hbe2, hb, hw] at hf
  · have hf2 : (bufFlush w).2 = true := by simpa using hf
    have hfl := bufFlush_ok w hf2
    rw [if_neg hf] at h ⊢
    by_cases hs : (bufFlush w).1.shouldFsync ∧ ((bufFlush w).1.ioFault ∨ (bufFlush w).1.closed)
    · rw [if_pos hs] at h ⊢
      injection h with h
      refine Or.inr ⟨h.symm, ?_⟩
      show (bufFlush w).1.bufWriter = [] ∧ (bufFlush w).1.disk = _
      rw [hfl]
      exact ⟨rfl, rfl⟩
    · rw [if_neg hs] at h; cases h

/-- With nothing buffered, no error held by the writer and an fsync that
does not fail, `Sync` returns nil and only re-arms the timer. -/
theorem Sync_empty (w : WAL) (hbuf : w.bufWriter = []) (herr : w.bufErr = false)
    (hfsync : w.shouldFsync = true → w.ioFault = false ∧ w.closed = false) :
    Sync w = ({ w with syncTimer := SyncInterval }, none) := by
  have hfl : bufFlush w = (w, true) := by
    unfold bufFlush
    simp [herr, hbuf]
  unfold Sync
  simp only [hfl]
  have hs : ¬ (w.shouldFsync = true ∧ (w.ioFault = true ∨ w.closed = true)) := by
    rintro ⟨h1, h2⟩
    obtain ⟨h3, h4⟩ := hfsync h1
    rcases h2 with h2 | h2
    · rw [h3] at h2; cases h2
    · rw [h4] at h2; cases h2
  simp [hs]

/-- The state a `Sync` that returns nil leaves: nothing buffered, no error
held by the writer, and an fsync that does not fail. -/
theorem Sync_ok_state (v : WAL) (h : (Sync v).2 = none) :
    (Sync v).1.bufWriter = [] ∧ (Sync v).1.bufErr = false ∧
      ((Sync v).1.shouldFsync = true → (Sync v).1.ioFault = false ∧ (Sync v).1.closed = false) := by
  have hso := Sync_ok v h
  obtain ⟨_, f2, f3, f4⟩ := bufFlush_fields v
  have hbe : v.bufErr = false := by
    by_cases hbe : v.bufErr = true
    · have : (Sync v).2 = some WalError.flush := by
        unfold Sync bufFlush
        simp [hbe]
      rw [this] at h; cases h
    · simpa using hbe
  have hcond : ¬ (v.shouldFsync = true ∧ (v.ioFault = true ∨ v.closed = true)) := by
    intro hc
    rw [← f2, ← f3, ← f4] at hc
    unfold Sync at h
    by_cases hf : (bufFlush v).2 = false
    · rw [if_pos hf] at h; cases h
    · rw [if_neg hf, if_pos hc] at h; cases h
  rw [hso]
  refine ⟨rfl, hbe, ?_⟩
  intro hs
  have hs2 : v.shouldFsync = true := hs
  show v.ioFault = false ∧ v.closed = false
  constructor
  · by_cases hx : v.ioFault = true
    · exact absurd ⟨hs2, Or.inl hx⟩ hcond
    · simpa using hx
  · by_cases hx : v.closed = true
    · exact absurd ⟨hs2, Or.inr hx⟩ hcond
    · simpa using hx

theorem createFile_absent (d : Dir) (name : List Char) (h : name ∉ d.map Prod.fst) :
    createFile d name = d ++ [(name, [])] := by
  induction d with
  | nil => rfl
  | cons f rest ih =>
    obtain ⟨n, c⟩ := f
    simp only [List.map_cons, List.mem_cons, not_or] at h
    have hn : ¬ n = name := fun hx => h.1 hx.symm
    simp [createFile, hn, ih h.2]

theorem segmentName_absent (disk : Dir) (hfresh : globSegments disk = []) (id : Int) :
    segmentName id ∉ disk.map Prod.fst := by
  intro hmem
  have : segmentName id ∈ globSegments disk := by
    unfold globSegments
    rw [List.mem_filter]
    refine ⟨hmem, ?_⟩
    unfold HasPrefix segmentName
    exact List.isPrefixOf_iff_prefix.mpr (List.prefix_append _ _)
  rw [hfresh] at this
  cases this

/-- The recovery scan follows the strict scan: on a file the strict scan
reads without error, the recovery scan ends with the last entry the strict
scan has in its list. -/
theorem getLastEntryLoop_of_readAllLoop (fuel : Nat) :
    ∀ (file : List Nat) (acc es : List WAL_Entry) (last : Option WAL_Entry),
    file.length < fuel → readAllLoop fuel file acc = Res.ok es → last = acc.getLast? →
    getLastEntryLoop fuel file last = Res.ok es.getLast? := by
  induction fuel with
  | zero => intro file acc es last hf; omega
  | succ fuel ih =>
    intro file acc es last hf hread hlast
    match file with
    | [] =>
      rw [readAllLoop] at hread
      injection hread with hread
      rw [getLastEntryLoop, hlast, hread]
    | [_] => simp [readAllLoop] at hread
    | [_, _] => simp [readAllLoop] at hread
    | [_, _, _] => simp [readAllLoop] at hread
    | b0 :: b1 :: b2 :: b3 :: rest =>
      rw [readAllLoop] at hread
      rw [getLastEntryLoop]
      by_cases hneg : getInt32LE b0 b1 b2 b3 < 0
      · rw [if_pos hneg] at hread; cases hread
      · rw [if_neg hneg] at hread ⊢
        by_cases hshort : rest.length < (getInt32LE b0 b1 b2 b3).toNat
        · rw [if_pos hshort] at hread; cases hread
        · rw [if_neg hshort] at hread ⊢
          cases hu : Unmarshal (rest.take (getInt32LE b0 b1 b2 b3).toNat) with
          | none => rw [hu] at hread; cases hread
          | some entry =>
            rw [hu] at hread
            dsimp only at hread
            by_cases hcrc : ChecksumIEEE entry.Data ≠ entry.CRC
            · rw [if_pos hcrc] at hread; cases hread
            · rw [if_neg hcrc] at hread
              have hv : unmarshalAndVerifyEntry (rest.take (getInt32LE b0 b1 b2 b3).toNat)
                  = Res.ok entry :=
                (unmarshalAndVerifyEntry_ok _ _).mpr ⟨hu, (not_not.mp hcrc).symm⟩
              rw [hv]
              dsimp only
              have hlen : (rest.drop (getInt32LE b0 b1 b2 b3).toNat).length < fuel := by
                simp only [List.length_cons] at hf
                rw [List.length_drop]; omega
              exact ih _ _ es (some entry) hlen hread (by simp)

/-- The method `Close` only appends to the segment file and keeps the
segment. -/
theorem Close_disk (w : WAL) :
    (Close w).1.currSegment = w.currSegment ∧
      ∃ extra, (Close w).1.disk = appendFile w.disk w.currSegment extra := by
  obtain ⟨a1, x, a2⟩ := Sync_disk { w with cancelled := true }
  unfold Close
  simp only
  split
  · exact ⟨a1, x, a2⟩
  · split
    · exact ⟨a1, x, a2⟩
    · exact ⟨a1, x, a2⟩

/-- Every operation, in every engine state, only appends to the segment file
and keeps the segment. -/
theorem applyOp_disk (w : WAL) (o : Op) :
    (applyOp w o).1.currSegment = w.currSegment ∧
      ∃ extra, (applyOp w o).1.disk = appendFile w.disk w.currSegment extra := by
  cases o with
  | call c =>
    cases c with
    | write d => exact WriteEntry_disk w d
    | checkpoint d => exact WriteEntryWithCheckpoint_disk w d
    | sync => exact Sync_disk w
  | close => exact Close_disk w

theorem applyOps_disk (ops : List Op) : ∀ w : WAL,
    (applyOps w ops).currSegment = w.currSegment ∧
      ∃ extra, (applyOps w ops).disk = appendFile w.disk w.currSegment extra := by
  induction ops with
  | nil => intro w; exact ⟨rfl, [], (appendFile_nil _ _).symm⟩
  | cons o os ih =>
    intro w
    obtain ⟨a1, x, a2⟩ := applyOp_disk w o
    obtain ⟨b1, y, b2⟩ := ih (applyOp w o).1
    simp only [applyOps]
    refine ⟨by rw [b1, a1], x ++ y, ?_⟩
    rw [b2, a1, a2]; exact appendFile_appendFile _ _ _ _

/-- A run of calls on a working engine: every call returns nil, the engine
stays in working order on the same segment, and the accepted bytes grow by
the frames of the entries built, in call order.  Nothing is asked of the
counter. -/
theorem applyCalls_logBytes (calls : List Call) : ∀ (w : WAL), healthy w →
    (∀ r ∈ (applyCalls w calls).2, r = none) ∧ healthy (applyCalls w calls).1 ∧
      (applyCalls w calls).1.currSegment = w.currSegment ∧
      logBytes (applyCalls w calls).1
        = logBytes w ++ framesBytes ((builtEntries w.lastSeqNo calls).map Marshal) := by
  induction calls with
  | nil =>
    intro w h
    exact ⟨by simp [applyCalls], h, rfl, by simp [applyCalls, builtEntries, framesBytes]⟩
  | cons c cs ih =>
    intro w h
    cases c with
    | write data =>
      obtain ⟨e1, e2, e3, e4, e5⟩ := WriteEntry_healthy w data h
      obtain ⟨i1, i2, i3, i5⟩ := ih (WriteEntry w data).1 e2
      simp only [applyCalls, applyCall]
      refine ⟨?_, i2, by rw [i3, e3], ?_⟩
      · intro r hr
        simp only [List.mem_cons] at hr
        rcases hr with hr | hr
        · rw [hr, e1]
        · exact i1 r hr
      · rw [i5, e5, e4]
        simp [builtEntries, framesBytes, List.append_assoc]
    | checkpoint data =>
      obtain ⟨e1, e2, e3, e4, e5⟩ := WriteEntryWithCheckpoint_healthy w data h
      obtain ⟨i1, i2, i3, i5⟩ := ih (WriteEntryWithCheckpoint w data).1 e2
      simp only [applyCalls, applyCall]
      refine ⟨?_, i2, by rw [i3, e3], ?_⟩
      · intro r hr
        simp only [List.mem_cons] at hr
        rcases hr with hr | hr
        · rw [hr, e1]
        · exact i1 r hr
      · rw [i5, e5, e4]
        simp [builtEntries, framesBytes, List.append_assoc]
    | sync =>
      obtain ⟨e1, e2, e3, e4, _, _⟩ := Sync_healthy w h
      have e5 := logBytes_Sync w h
      obtain ⟨i1, i2, i3, i5⟩ := ih (Sync w).1 e2
      simp only [applyCalls, applyCall]
      refine ⟨?_, i2, by rw [i3, e3], ?_⟩
      · intro r hr
        simp only [List.mem_cons] at hr
        rcases hr with hr | hr
        · rw [hr, e1]
        · exact i1 r hr
      · rw [i5, e5, e4]
        simp [builtEntries]

theorem mem_names_of_readFile (d : Dir) (name : List Char) (c : List Nat)
    (h : readFile d name = some c) : name ∈ d.map Prod.fst := by
  induction d with
  | nil => simp [readFile] at h
  | cons f rest ih =>
    obtain ⟨n, x⟩ := f
    by_cases hn : n = name
    · simp [hn]
    · simp only [readFile, hn, if_false] at h
      simp [ih h]

/-! ### Paths, patterns and the file system -/

theorem splitPath_ne_nil (s : List Char) : splitPath s ≠ [] := by
  cases s with
  | nil => simp [splitPath]
  | cons c cs =>
    unfold splitPath
    split
    · simp
    · split <;> simp

theorem splitPath_of_no_separator (c : List Char) (h : '/' ∉ c) : splitPath c = [c] := by
  induction c with
  | nil => rfl
  | cons a as ih =>
    simp only [List.mem_cons, not_or] at h
    have ha : ¬ a = '/' := fun hx => h.1 hx.symm
    unfold splitPath
    rw [if_neg ha, ih h.2]

theorem splitPath_cons (a : Char) (s e : List Char) (es : List (List Char)) (ha : ¬ a = '/')
    (hs : splitPath s = e :: es) : splitPath (a :: s) = (a :: e) :: es := by
  rw [splitPath, if_neg ha, hs]

theorem splitPath_append (d c : List Char) (h : '/' ∉ c) :
    splitPath (d ++ '/' :: c) = splitPath d ++ [c] := by
  induction d with
  | nil =>
    show splitPath ('/' :: c) = splitPath [] ++ [c]
    simp [splitPath, splitPath_of_no_separator c h]
  | cons a ds ih =>
    rw [List.cons_append]
    by_cases ha : a = '/'
    · simp only [splitPath, ha, if_true, ih, List.cons_append]
    · cases hs : splitPath ds with
      | nil => exact absurd hs (splitPath_ne_nil ds)
      | cons e es =>
        rw [splitPath_cons a ds e es ha hs,
          splitPath_cons a (ds ++ '/' :: c) e (es ++ [c]) ha (by rw [ih, hs]; rfl)]
        rfl

theorem joinPath_append_singleton (xs : List (List Char)) (c : List Char) (h : xs ≠ []) :
    joinPath (xs ++ [c]) = joinPath xs ++ '/' :: c := by
  induction xs with
  | nil => exact absurd rfl h
  | cons e es ih =>
    cases es with
    | nil => simp [joinPath]
    | cons e2 es2 =>
      have := ih (List.cons_ne_nil _ _)
      simp only [List.cons_append] at this ⊢
      simp only [joinPath, this]
      simp

theorem joinPath_ne_nil (xs : List (List Char)) (h : xs ≠ []) (hne : ∀ e ∈ xs, e ≠ []) :
    joinPath xs ≠ [] := by
  cases xs with
  | nil => exact absurd rfl h
  | cons e es =>
    have he := hne e (List.mem_cons_self _ _)
    cases es with
    | nil => simpa [joinPath] using he
    | cons e2 es2 => simp [joinPath, he]

theorem cleanStep_nonempty (rooted : Bool) (out : List (List Char)) (e : List Char)
    (h : ∀ x ∈ out, x ≠ []) : ∀ x ∈ cleanStep rooted out e, x ≠ [] := by
  unfold cleanStep
  split
  · exact h
  · rename_i he
    split
    · rename_i hdd
      split
      · split
        · simp
        · intro x hx
          simp only [List.mem_singleton] at hx
          rw [hx, hdd]; simp
      · split
        · intro x hx
          simp only [List.mem_cons] at hx
          rcases hx with hx | hx
          · rw [hx, hdd]; simp
          · exact h x (by simpa using hx)
        · intro x hx
          exact h x (List.mem_cons_of_mem _ hx)
    · intro x hx
      simp only [List.mem_cons] at hx
      rcases hx with hx | hx
      · rw [hx]; intro h0; exact he (Or.inl h0)
      · exact h x hx

theorem cleanFold_nonempty (rooted : Bool) (es : List (List Char)) :
    ∀ out : List (List Char), (∀ x ∈ out, x ≠ []) →
      ∀ x ∈ es.foldl (cleanStep rooted) out, x ≠ [] := by
  induction es with
  | nil => intro out h; simpa using h
  | cons e es ih =>
    intro out h
    rw [List.foldl_cons]
    exact ih _ (cleanStep_nonempty rooted out e h)

theorem cleanStep_name (rooted : Bool) (out : List (List Char)) (c : List Char)
    (h1 : c ≠ []) (h2 : c ≠ ['.']) (h3 : c ≠ ['.', '.']) :
    cleanStep rooted out c = c :: out := by
  unfold cleanStep
  rw [if_neg (by rintro (h | h); exact h1 h; exact h2 h), if_neg h3]

theorem Clean_name (c : List Char) (h1 : c ≠ []) (h2 : c ≠ ['.']) (h3 : c ≠ ['.', '.'])
    (h4 : '/' ∉ c) : Clean c = c := by
  have hhead : ¬ c.head? = some '/' := by
    cases c with
    | nil => simp
    | cons a as =>
      simp only [List.mem_cons, not_or] at h4
      simp only [List.head?_cons, Option.some.injEq]
      exact fun hx => h4.1 hx.symm
  unfold Clean
  rw [if_neg h1]
  simp only [splitPath_of_no_separator c h4, List.foldl_cons, List.foldl_nil,
    cleanStep_name _ [] c h1 h2 h3, List.reverse_singleton, hhead, decide_False,
    Bool.false_eq_true, if_false]
  simp [joinPath]

theorem hasMeta_append (a b : List Char) : hasMeta (a ++ b) = (hasMeta a || hasMeta b) := by
  simp [hasMeta, List.any_append]

/-- The path `filepath.Join` makes of a directory and a name: the name stands
at its end, and what stands in front is the cleaned directory with a
separator, or nothing when the cleaned directory is the working directory. -/
theorem Join_name (d c : List Char) (h1 : c ≠ []) (h2 : c ≠ ['.']) (h3 : c ≠ ['.', '.'])
    (h4 : '/' ∉ c) :
    ∃ pre, Join d c = pre ++ c ∧ cleanGlobPath pre = Clean d ∧
      (pre = [] ∨ pre.getLast? = some '/') ∧ hasMeta pre = hasMeta (Clean d) := by
  by_cases hd : d = []
  · refine ⟨[], ?_, ?_, Or.inl rfl, ?_⟩
    · simp [Join, hd, h1, Clean_name c h1 h2 h3 h4]
    · simp [cleanGlobPath, hd, Clean]
    · simp [hd, Clean, hasMeta]
  · have hne : ¬ d ++ '/' :: c = [] := by simp
    have hhead : (d ++ '/' :: c).head? = d.head? := by
      cases d with
      | nil => exact absurd rfl hd
      | cons a as => rfl
    have hfold : ((splitPath (d ++ '/' :: c)).foldl
        (cleanStep (decide (d.head? = some '/'))) []).reverse
        = ((splitPath d).foldl (cleanStep (decide (d.head? = some '/'))) []).reverse ++ [c] := by
      rw [splitPath_append d c h4, List.foldl_append, List.foldl_cons, List.foldl_nil,
        cleanStep_name _ _ c h1 h2 h3, List.reverse_cons]
    have hjoin : Join d c = Clean (d ++ '/' :: c) := by simp [Join, hd]
    rw [hjoin]
    unfold Clean
    rw [if_neg hne, if_neg hd]
    simp only [hhead, hfold]
    generalize hout : ((splitPath d).foldl (cleanStep (decide (d.head? = some '/'))) []).reverse
      = out
    have hnonempty : ∀ e ∈ out, e ≠ [] := by
      intro e he
      rw [← hout, List.mem_reverse] at he
      exact cleanFold_nonempty _ _ [] (by simp) e he
    by_cases hr : decide (d.head? = some '/') = true
    · simp only [hr, if_true]
      by_cases ho : out = []
      · refine ⟨['/'], ?_, ?_, Or.inr rfl, ?_⟩
        · simp [ho, joinPath]
        · simp [ho, joinPath, cleanGlobPath]
        · simp [ho, joinPath]
      · refine ⟨('/' :: joinPath out) ++ ['/'], ?_, ?_, Or.inr (List.getLast?_concat _), ?_⟩
        · rw [joinPath_append_singleton out c ho]; simp
        · have hj := joinPath_ne_nil out ho hnonempty
          have hlen : 0 < (joinPath out).length := List.length_pos.mpr hj
          unfold cleanGlobPath
          rw [if_neg (by simp), if_neg (by
            intro hx
            have := congrArg List.length hx
            simp only [List.length_append, List.length_cons, List.length_nil] at this
            omega)]
          simp
        · simp [hasMeta_append, hasMeta]
    · simp only [hr, Bool.false_eq_true, if_false]
      by_cases ho : out = []
      · refine ⟨[], ?_, ?_, Or.inl rfl, ?_⟩
        · simp [ho, joinPath]
        · simp [ho, cleanGlobPath]
        · simp [ho, hasMeta]
      · refine ⟨joinPath out ++ ['/'], ?_, ?_, Or.inr (List.getLast?_concat _), ?_⟩
        · rw [if_neg (by simp), joinPath_append_singleton out c ho]; simp
        · have hj := joinPath_ne_nil out ho hnonempty
          have hlen : 0 < (joinPath out).length := List.length_pos.mpr hj
          unfold cleanGlobPath
          rw [if_neg (by simp [hj]), if_neg (by
            intro hx
            have := congrArg List.length hx
            simp only [List.length_append, List.length_cons, List.length_nil] at this
            omega), if_neg ho]
          simp
        · simp [ho, hasMeta_append, hasMeta]

theorem takeWhile_reverse_name (pre c : List Char) (h4 : '/' ∉ c)
    (hpre : pre = [] ∨ pre.getLast? = some '/') :
    ((pre ++ c).reverse.takeWhile (fun x => x ≠ '/')).reverse = c := by
  rw [List.reverse_append, List.takeWhile_append_of_pos (by
    intro a ha
    rw [List.mem_reverse] at ha
    simp only [ne_eq, decide_not, Bool.not_eq_eq_eq_not, Bool.not_true, decide_eq_false_iff_not]
    intro hx; rw [hx] at ha; exact h4 ha)]
  have hnil : pre.reverse.takeWhile (fun x => x ≠ '/') = [] := by
    rcases hpre with hpre | hpre
    · rw [hpre]; rfl
    · have : pre.reverse.head? = some '/' := by rw [List.head?_reverse]; exact hpre
      cases hr : pre.reverse with
      | nil => rfl
      | cons a as =>
        rw [hr] at this
        simp only [List.head?_cons, Option.some.injEq] at this
        simp [List.takeWhile, this]
  rw [hnil, List.append_nil, List.reverse_reverse]

theorem Split_name (pre c : List Char) (h4 : '/' ∉ c)
    (hpre : pre = [] ∨ pre.getLast? = some '/') : Split (pre ++ c) = (pre, c) := by
  unfold Split
  simp only [takeWhile_reverse_name pre c h4 hpre, List.length_append, Nat.add_sub_cancel,
    List.take_left]

theorem Base_name (pre c : List Char) (h1 : c ≠ []) (h4 : '/' ∉ c)
    (hpre : pre = [] ∨ pre.getLast? = some '/') : Base (pre ++ c) = c := by
  have hne : ¬ pre ++ c = [] := by simp [h1]
  have hstrip : ((pre ++ c).reverse.dropWhile (fun x => x = '/')).reverse = pre ++ c := by
    rw [List.reverse_append]
    cases hr : c.reverse with
    | nil => exact absurd (List.reverse_eq_nil_iff.mp hr) h1
    | cons a as =>
      have ha : a ∈ c := by
        rw [← List.mem_reverse, hr]; exact List.mem_cons_self _ _
      have hna : ¬ a = '/' := fun hx => h4 (hx ▸ ha)
      have hdw : ((a :: as) ++ pre.reverse).dropWhile (fun x => x = '/')
          = (a :: as) ++ pre.reverse := by
        simp [List.dropWhile, hna]
      rw [hdw, ← hr, ← List.reverse_append, List.reverse_reverse]
  unfold Base
  rw [if_neg hne]
  simp only [hstrip, takeWhile_reverse_name pre c h4 hpre, if_neg h1]

theorem Base_Join (d c : List Char) (h1 : c ≠ []) (h2 : c ≠ ['.']) (h3 : c ≠ ['.', '.'])
    (h4 : '/' ∉ c) : Base (Join d c) = c := by
  obtain ⟨pre, hj, _, hpre, _⟩ := Join_name d c h1 h2 h3 h4
  rw [hj, Base_name pre c h1 h4 hpre]

theorem hasMeta_cons (c : Char) (s : List Char) :
    hasMeta (c :: s) = false ↔
      (¬ c = '*' ∧ ¬ c = '?' ∧ ¬ c = '[' ∧ ¬ c = '\\') ∧ hasMeta s = false := by
  simp [hasMeta, not_or]

/-- The scan of a chunk without special characters that a star follows: the
chunk ends in front of the star. -/
theorem scanChunkLoop_plain (s : List Char) (h : hasMeta s = false) :
    scanChunkLoop (s ++ ['*']) false = (s, ['*']) := by
  induction s with
  | nil => simp [scanChunkLoop]
  | cons c s ih =>
    obtain ⟨⟨h1, h2, h3, h4⟩, hs⟩ := (hasMeta_cons c s).mp h
    have ih2 := ih hs
    cases s with
    | nil =>
      show scanChunkLoop [c, '*'] false = _
      simp [scanChunkLoop, h1, h3, h4]
    | cons d ds =>
      show scanChunkLoop (c :: d :: (ds ++ ['*'])) false = _
      have ih3 : scanChunkLoop (d :: (ds ++ ['*'])) false = (d :: ds, ['*']) := ih2
      rw [scanChunkLoop]
      simp only [h4, h3, h1, if_false, false_and, ih3]
      split <;> rfl

/-- Once the match has failed, a chunk without special characters is run
through without an error. -/
theorem matchChunkLoop_failed (chunk : List Char) (h : hasMeta chunk = false) :
    ∀ (fuel : Nat) (s : List Char), chunk.length < fuel →
      matchChunkLoop fuel chunk s true = some none := by
  induction chunk with
  | nil =>
    intro fuel s hf
    obtain ⟨f, rfl⟩ : ∃ f, fuel = f + 1 := ⟨fuel - 1, by omega⟩
    simp [matchChunkLoop]
  | cons c cs ih =>
    intro fuel s hf
    obtain ⟨f, rfl⟩ : ∃ f, fuel = f + 1 := ⟨fuel - 1, by simp at hf; omega⟩
    obtain ⟨⟨h1, h2, h3, h4⟩, hs⟩ := (hasMeta_cons c cs).mp h
    simp only [matchChunkLoop, Bool.true_or, h3, h2, h4, if_false, if_true]
    exact ih hs f s (by simp at hf; omega)

/-- A chunk without special characters matches exactly when it stands at the
start of the name, and leaves what follows. -/
theorem matchChunkLoop_plain (chunk : List Char) (h : hasMeta chunk = false) :
    ∀ (fuel : Nat) (s : List Char), chunk.length < fuel →
      matchChunkLoop fuel chunk s false
        = some (if chunk.isPrefixOf s then some (s.drop chunk.length) else none) := by
  induction chunk with
  | nil =>
    intro fuel s hf
    obtain ⟨f, rfl⟩ : ∃ f, fuel = f + 1 := ⟨fuel - 1, by omega⟩
    simp [matchChunkLoop]
  | cons c cs ih =>
    intro fuel s hf
    obtain ⟨f, rfl⟩ : ∃ f, fuel = f + 1 := ⟨fuel - 1, by simp at hf; omega⟩
    obtain ⟨⟨h1, h2, h3, h4⟩, hs⟩ := (hasMeta_cons c cs).mp h
    have hf2 : cs.length < f := by simp at hf; omega
    simp only [matchChunkLoop]
    cases s with
    | nil =>
      simp only [Bool.false_or, List.isEmpty_nil, h3, h2, h4, if_false, if_true]
      rw [matchChunkLoop_failed cs hs f [] hf2]
      simp
    | cons a as =>
      simp only [Bool.false_or, List.isEmpty_cons, h3, h2, h4, if_false, Bool.false_eq_true,
        List.tail_cons, List.head?_cons]
      by_cases hac : a = c
      · subst hac
        simp only [ne_eq, not_true_eq_false, decide_False]
        rw [ih hs f as hf2]
        simp
      · have hne : ¬ some a = some c := by simpa using hac
        simp only [ne_eq, hne, not_false_eq_true, decide_True]
        rw [matchChunkLoop_failed cs hs f as hf2]
        have : ¬ c = a := fun hx => hac hx.symm
        simp [this]

/-- The first chunk of a pattern that is plain text with a star at its end. -/
theorem scanChunk_plain (s : List Char) (hs : s ≠ []) (h : hasMeta s = false) :
    scanChunk (s ++ ['*']) = (false, s, ['*']) := by
  cases s with
  | nil => exact absurd rfl hs
  | cons c cs =>
    obtain ⟨⟨h1, _, _, _⟩, _⟩ := (hasMeta_cons c cs).mp h
    have hd : (c :: cs ++ ['*']).dropWhile (fun c => decide (c = '*')) = c :: cs ++ ['*'] := by
      rw [List.cons_append, List.dropWhile_cons]
      simp [h1]
    have hh : decide ((c :: cs ++ ['*']).head? = some '*') = false := by
      simp [h1]
    unfold scanChunk
    simp only [hd, hh, scanChunkLoop_plain (c :: cs) h]

/-- A pattern that is plain text with a star at its end matches the names
that start with the text and hold no separator behind it; the pattern is
never malformed. -/
theorem Match_plain_star (s name : List Char) (hs : s ≠ []) (h : hasMeta s = false) :
    Match (s ++ ['*']) name
      = some (s.isPrefixOf name && !(name.drop s.length).contains '/') := by
  have hne : s ++ ['*'] ≠ [] := by simp
  have hstar : scanChunk ['*'] = (true, [], []) := by decide
  have hlast : ∀ (f : Nat) (t : List Char), matchLoop (f + 1) ['*'] t = some (!t.contains '/') := by
    intro f t
    simp [matchLoop, hstar]
  have hcheck : checkRest 2 ['*'] = true := by decide
  obtain ⟨f, hf⟩ : ∃ f, (s ++ ['*']).length + 1 = f + 1 + 1 := ⟨s.length, by simp⟩
  unfold Match
  rw [hf, matchLoop]
  simp only [hne, if_false, scanChunk_plain s hs h, Bool.false_eq_true, false_and]
  unfold matchChunk
  rw [matchChunkLoop_plain s h _ name (Nat.lt_succ_self _)]
  by_cases hp : s.isPrefixOf name = true
  · simp [hp, hlast]
  · simp [hp, hcheck]

/-- The loop of `glob` when the pattern is never malformed: the names the
pattern matches, joined with the directory, in the order of the listing. -/
theorem globNames_filter (dir pattern : List Char) (p : List Char → Bool) :
    ∀ (names : List (List Char)) (m : List (List Char)),
      (∀ n ∈ names, Match pattern n = some (p n)) →
      globNames dir pattern names m = some (m ++ (names.filter p).map (Join dir)) := by
  intro names
  induction names with
  | nil => intro m _; simp [globNames]
  | cons n ns ih =>
    intro m h
    have hn := h n (List.mem_cons_self _ _)
    have hns : ∀ x ∈ ns, Match pattern x = some (p x) :=
      fun x hx => h x (List.mem_cons_of_mem _ hx)
    rw [globNames, hn]
    cases hp : p n with
    | true =>
      simp only [List.filter_cons, hp, if_true, List.map_cons]
      rw [ih _ hns]
      simp
    | false =>
      simp only [List.filter_cons, hp, Bool.false_eq_true, if_false]
      rw [ih _ hns]

theorem segmentPattern_facts :
    SegmentPrefix ++ ['*'] ≠ [] ∧ SegmentPrefix ++ ['*'] ≠ ['.'] ∧
      SegmentPrefix ++ ['*'] ≠ ['.', '.'] ∧ '/' ∉ SegmentPrefix ++ ['*'] := by
  decide

/-- A name that starts with the segment stem is a plain path element. -/
theorem segment_name_facts (n : List Char) (h : HasPrefix n SegmentPrefix = true) :
    n ≠ [] ∧ n ≠ ['.'] ∧ n ≠ ['.', '.'] := by
  refine ⟨?_, ?_, ?_⟩ <;> (rintro rfl; revert h; decide)

/-- The glob of `prepareCurrentSegment` in a directory whose path holds no
special character, whose file names hold no separator and whose
subdirectories do not start with the segment stem: the files of the
directory that start with the segment stem, joined with the directory. -/
theorem Glob_plain (fs : FS) (dir : List Char) (h : plainDir fs dir) :
    Glob fs (Join dir (SegmentPrefix ++ ['*']))
      = some (if fsIsDir fs (Clean dir) = true
          then (globSegments (fsFiles fs (Clean dir))).map (Join (Clean dir)) else []) := by
  obtain ⟨hmeta, hfiles, hdirs⟩ := h
  obtain ⟨f1, f2, f3, f4⟩ := segmentPattern_facts
  obtain ⟨pre, hj, hcg, hpre, hm⟩ := Join_name dir (SegmentPrefix ++ ['*']) f1 f2 f3 f4
  have hpm : hasMeta pre = false := by rw [hm, hmeta]
  have hsm : hasMeta (pre ++ SegmentPrefix) = false := by
    rw [hasMeta_append, hpm]; decide
  have hsne : pre ++ SegmentPrefix ≠ [] := by
    intro hx
    have := congrArg List.length hx
    simp [SegmentPrefix] at this
  have hpat : pre ++ (SegmentPrefix ++ ['*']) = (pre ++ SegmentPrefix) ++ ['*'] := by simp
  have hmatch0 := Match_plain_star (pre ++ SegmentPrefix) [] hsne hsm
  have hhas : hasMeta (pre ++ (SegmentPrefix ++ ['*'])) = true := by
    rw [hasMeta_append, hpm]; decide
  have hsplit := Split_name pre (SegmentPrefix ++ ['*']) f4 hpre
  obtain ⟨f, hf⟩ : ∃ f, (Join dir (SegmentPrefix ++ ['*'])).length + 1 = f + 1 := ⟨_, rfl⟩
  unfold Glob
  rw [hf, hj, globWithLimit]
  rw [if_neg (by decide)]
  rw [hpat, hmatch0, ← hpat]
  simp only [hhas, hsplit, hcg, hmeta, Bool.true_eq_false, if_false, if_true]
  unfold globDir
  by_cases hd : fsIsDir fs (Clean dir) = true
  · rw [if_neg (by simp [hd]), if_pos hd]
    have hmatchN : ∀ n, Match (SegmentPrefix ++ ['*']) n
        = some (SegmentPrefix.isPrefixOf n && !(n.drop SegmentPrefix.length).contains '/') :=
      fun n => Match_plain_star SegmentPrefix n (by decide) (by decide)
    rw [globNames_filter (Clean dir) (SegmentPrefix ++ ['*']) _ _ _ (fun n _ => hmatchN n)]
    simp only [List.nil_append, fsNames, List.filter_append]
    have hA : ((fsFiles fs (Clean dir)).map Prod.fst).filter
        (fun n => SegmentPrefix.isPrefixOf n && !(n.drop SegmentPrefix.length).contains '/')
        = globSegments (fsFiles fs (Clean dir)) := by
      unfold globSegments
      apply List.filter_congr
      intro n hn
      have hno : '/' ∉ n := hfiles n hn
      have hno2 : (n.drop SegmentPrefix.length).contains '/' = false := by
        rw [List.contains_eq_any_beq, List.any_eq_false]
        intro x hx
        have hxn : x ∈ n := List.mem_of_mem_drop hx
        simp only [beq_iff_eq]
        rintro rfl
        exact hno hxn
      show (SegmentPrefix.isPrefixOf n && !(n.drop SegmentPrefix.length).contains '/')
        = HasPrefix n SegmentPrefix
      rw [hno2]
      simp [HasPrefix]
    have hB : (fsChildDirs fs (Clean dir)).filter
        (fun n => SegmentPrefix.isPrefixOf n && !(n.drop SegmentPrefix.length).contains '/')
        = [] := by
      rw [List.filter_eq_nil_iff]
      intro n hn
      have := hdirs n hn
      simp only [HasPrefix] at this
      simp [this]
    rw [hA, hB, List.append_nil]
  · have hd2 : fsIsDir fs (Clean dir) = false := by simpa using hd
    rw [if_pos hd2, if_neg hd]

theorem below_self (d : List Char) : below d d = none := by
  unfold below
  by_cases h1 : d = ['.']
  · subst h1; decide
  · by_cases h2 : d = ['/']
    · subst h2; decide
    · rw [if_neg h1, if_neg h2, if_neg]
      intro h
      have hp : (d ++ ['/']) <+: d := List.isPrefixOf_iff_prefix.mp h
      have := hp.length_le
      simp at this

theorem fsLookup_append (fs : FS) (k p : List Char) (d : Dir) :
    fsLookup (fs ++ [(k, d)]) p
      = match fsLookup fs p with
        | some x => some x
        | none => if k = p then some d else none := by
  induction fs with
  | nil => simp [fsLookup]
  | cons e rest ih =>
    obtain ⟨k1, d1⟩ := e
    by_cases h : k1 = p
    · simp [fsLookup, h]
    · simp [fsLookup, h, ih]

theorem fsFiles_fsSet (fs : FS) (p : List Char) (d : Dir) : fsFiles (fsSet fs p d) p = d := by
  unfold fsFiles
  induction fs with
  | nil => simp [fsSet, fsLookup]
  | cons e rest ih =>
    obtain ⟨k1, d1⟩ := e
    by_cases h : k1 = p
    · simp [fsSet, fsLookup, h]
    · simp [fsSet, fsLookup, h, ih]

/-- The paths listed after `fsSet`: those listed before, and the new one at
the end when it was not among them. -/
theorem fsSet_keys (fs : FS) (p : List Char) (d : Dir) :
    (fsSet fs p d).map Prod.fst = fs.map Prod.fst
      ∨ (fsSet fs p d).map Prod.fst = fs.map Prod.fst ++ [p] := by
  induction fs with
  | nil => right; simp [fsSet]
  | cons e rest ih =>
    obtain ⟨k1, d1⟩ := e
    by_cases h : k1 = p
    · left; simp [fsSet, h]
    · rcases ih with ih | ih
      · left; simp [fsSet, h, ih]
      · right; simp [fsSet, h, ih]

theorem fsChildDirs_keys (fs : FS) (d : List Char) :
    fsChildDirs fs d
      = ((((fs.map Prod.fst).filterMap
            (fun k => (below d k).map (fun r => (splitPath r).headD []))).filter
          (fun n => n ≠ [] ∧ n ≠ ['.'] ∧ n ≠ ['.', '.'])).eraseDups) := by
  unfold fsChildDirs
  rw [List.filterMap_map]
  rfl

theorem fsIsDir_keys (fs : FS) (p : List Char) :
    fsIsDir fs p = (decide (p = ['.']) || decide (p = ['/']) ||
      (fs.map Prod.fst).any (fun k => decide (k = p) || (below p k).isSome)) := by
  unfold fsIsDir
  congr 1
  induction fs with
  | nil => rfl
  | cons e rest ih => simp only [List.any_cons, List.map_cons, ih]

theorem fsChildDirs_keys_append (fs fs1 : FS) (d : List Char)
    (h : fs1.map Prod.fst = fs.map Prod.fst ∨ fs1.map Prod.fst = fs.map Prod.fst ++ [d]) :
    fsChildDirs fs1 d = fsChildDirs fs d := by
  rw [fsChildDirs_keys fs1, fsChildDirs_keys fs]
  rcases h with h | h
  · rw [h]
  · rw [h, List.filterMap_append]
    simp [below_self]

theorem fsIsDir_keys_append (fs fs1 : FS) (d : List Char)
    (h : fs1.map Prod.fst = fs.map Prod.fst ∨ fs1.map Prod.fst = fs.map Prod.fst ++ [d])
    (hd : fsIsDir fs d = true) : fsIsDir fs1 d = true := by
  rw [fsIsDir_keys] at hd ⊢
  rcases h with h | h
  · rw [h]; exact hd
  · rw [h, List.any_append, ← Bool.or_assoc, hd]; rfl

theorem fsChildDirs_fsSet (fs : FS) (d : List Char) (x : Dir) :
    fsChildDirs (fsSet fs d x) d = fsChildDirs fs d :=
  fsChildDirs_keys_append fs _ d (fsSet_keys fs d x)

theorem fsSet_mem_keys (fs : FS) (d : List Char) (x : Dir) :
    d ∈ (fsSet fs d x).map Prod.fst := by
  induction fs with
  | nil => simp [fsSet]
  | cons e rest ih =>
    obtain ⟨k1, d1⟩ := e
    by_cases h : k1 = d
    · simp [fsSet, h]
    · simp only [fsSet, h, if_false, List.map_cons, List.mem_cons]
      exact Or.inr ih

theorem fsIsDir_of_key (fs : FS) (d : List Char) (h : d ∈ fs.map Prod.fst) :
    fsIsDir fs d = true := by
  rw [fsIsDir_keys]
  have : (fs.map Prod.fst).any (fun k => decide (k = d) || (below d k).isSome) = true := by
    rw [List.any_eq_true]
    exact ⟨d, h, by simp⟩
  rw [this, Bool.or_true]

theorem fsIsDir_fsSet (fs : FS) (d : List Char) (x : Dir) : fsIsDir (fsSet fs d x) d = true :=
  fsIsDir_of_key _ d (fsSet_mem_keys fs d x)

theorem fsIsDir_MkdirAll (fs : FS) (dir : List Char) :
    fsIsDir (MkdirAll fs dir) (Clean dir) = true := by
  unfold MkdirAll
  by_cases h : fsIsDir fs (Clean dir) = true
  · rw [if_pos h]; exact h
  · rw [if_neg h]
    exact fsIsDir_of_key _ _ (by simp)

theorem fsFiles_MkdirAll (fs : FS) (dir : List Char) :
    fsFiles (MkdirAll fs dir) (Clean dir) = fsFiles fs (Clean dir) := by
  unfold MkdirAll
  by_cases h : fsIsDir fs (Clean dir) = true
  · rw [if_pos h]
  · rw [if_neg h]
    unfold fsFiles
    rw [fsLookup_append]
    cases fsLookup fs (Clean dir) <;> simp

theorem fsChildDirs_MkdirAll (fs : FS) (dir : List Char) :
    fsChildDirs (MkdirAll fs dir) (Clean dir) = fsChildDirs fs (Clean dir) := by
  unfold MkdirAll
  by_cases h : fsIsDir fs (Clean dir) = true
  · rw [if_pos h]
  · rw [if_neg h]
    exact fsChildDirs_keys_append fs _ _ (Or.inr (by simp))

/-- The call `os.MkdirAll` keeps a directory plain. -/
theorem plainDir_MkdirAll (fs : FS) (dir : List Char) (h : plainDir fs dir) :
    plainDir (MkdirAll fs dir) dir := by
  obtain ⟨h1, h2, h3⟩ := h
  refine ⟨h1, ?_, ?_⟩
  · rw [fsFiles_MkdirAll]; exact h2
  · rw [fsChildDirs_MkdirAll]; exact h3

theorem HasPrefix_segmentName (id : Int) : HasPrefix (segmentName id) SegmentPrefix = true := by
  unfold HasPrefix segmentName
  exact List.isPrefixOf_iff_prefix.mpr (List.prefix_append _ _)

theorem segmentName_mem_globSegments (disk : Dir) (k : Int) (c : List Nat)
    (hfile : readFile disk (segmentName k) = some c) : segmentName k ∈ globSegments disk := by
  unfold globSegments
  rw [List.mem_filter]
  exact ⟨mem_names_of_readFile disk _ c hfile, HasPrefix_segmentName k⟩

/-- The base names of the paths the glob returns in a plain directory are the
names of the segment files. -/
theorem globSegments_Base (d : List Char) (disk : Dir) (h : ∀ n ∈ disk.map Prod.fst, '/' ∉ n) :
    ((globSegments disk).map (Join d)).map Base = globSegments disk := by
  rw [List.map_map]
  conv_rhs => rw [← List.map_id (globSegments disk)]
  apply List.map_congr_left
  intro n hn
  obtain ⟨f1, f2, f3⟩ := segment_name_facts n (globSegments_HasPrefix disk n hn)
  have hmem : n ∈ disk.map Prod.fst := by
    unfold globSegments at hn
    exact (List.mem_filter.mp hn).1
  exact Base_Join d n f1 f2 f3 (h n hmem)

/-- In a plain directory that exists, `prepareCurrentSegment` works on the
files whose names start with the segment stem. -/
theorem prepareCurrentSegment_plain (env : Env) (fs : FS) (dir : List Char)
    (h : plainDir fs dir) (hd : fsIsDir fs (Clean dir) = true) :
    prepareCurrentSegment env dir fs
      = if (globSegments (fsFiles fs (Clean dir))).length = 0 then
          (match createSegmentFile env fs dir 0 with
           | Res.ok fs1 => Res.ok (0, fs1)
           | Res.error e => Res.error e
           | Res.panic => Res.panic)
        else
          (match maxSegmentLoop (globSegments (fsFiles fs (Clean dir))) 0 with
           | Res.ok maxSegmentID => Res.ok (maxSegmentID, fs)
           | Res.error e => Res.error e
           | Res.panic => Res.panic) := by
  unfold prepareCurrentSegment
  rw [Glob_plain fs dir h, if_pos hd]
  simp only [List.length_map, globSegments_Base (Clean dir) _ h.2.1]
  try rfl

theorem createSegmentFile_plain (fs : FS) (dir : List Char) (id : Int)
    (h : plainDir fs dir) (hd : fsIsDir fs (Clean dir) = true) :
    createSegmentFile noFaults fs dir id
      = Res.ok (fsSet fs (Clean dir) (createFile (fsFiles fs (Clean dir)) (segmentName id))) := by
  have hnot : segmentName id ∉ fsChildDirs fs (Clean dir) := by
    intro hmem
    have := h.2.2 _ hmem
    rw [HasPrefix_segmentName] at this
    cases this
  unfold createSegmentFile
  rw [if_neg (by simp [noFaults, hd, hnot]), if_neg (by simp [noFaults])]

theorem fsLookup_mem_keys (fs : FS) (p : List Char) (d : Dir) (h : fsLookup fs p = some d) :
    p ∈ fs.map Prod.fst := by
  induction fs with
  | nil => simp [fsLookup] at h
  | cons e rest ih =>
    obtain ⟨k1, d1⟩ := e
    by_cases hk : k1 = p
    · simp [hk]
    · simp only [fsLookup, hk, if_false] at h
      simp [ih h]

/-- A directory that holds a file exists. -/
theorem fsIsDir_of_file (fs : FS) (p : List Char) (name : List Char) (c : List Nat)
    (h : readFile (fsFiles fs p) name = some c) : fsIsDir fs p = true := by
  unfold fsFiles at h
  cases hl : fsLookup fs p with
  | none => rw [hl] at h; simp [readFile] at h
  | some d => exact fsIsDir_of_key fs p (fsLookup_mem_keys fs p d hl)

theorem MkdirAll_of_dir (fs : FS) (dir : List Char) (h : fsIsDir fs (Clean dir) = true) :
    MkdirAll fs dir = fs := by
  unfold MkdirAll
  rw [if_pos h]

/-- On a plain directory without segment files `prepareCurrentSegment` makes
the empty segment 0, and the glob then finds exactly that file. -/
theorem prepareCurrentSegment_fresh (fs : FS) (dir : List Char) (h : plainDir fs dir)
    (hd : fsIsDir fs (Clean dir) = true)
    (hfresh : globSegments (fsFiles fs (Clean dir)) = []) :
    prepareCurrentSegment noFaults dir fs
        = Res.ok (0, fsSet fs (Clean dir) (fsFiles fs (Clean dir) ++ [(segmentName 0, [])])) ∧
      globSegments (fsFiles fs (Clean dir) ++ [(segmentName 0, [])]) = [segmentName 0] := by
  constructor
  · rw [prepareCurrentSegment_plain noFaults fs dir h hd, hfresh, if_pos (by rfl),
      createSegmentFile_plain fs dir 0 h hd,
      createFile_absent _ _ (segmentName_absent _ hfresh 0)]
  · unfold globSegments at hfresh ⊢
    rw [List.map_append, List.filter_append, hfresh]
    decide

/-- When the plain directory holds a segment file, `prepareCurrentSegment`
leaves the file system as it is. -/
theorem prepareCurrentSegment_keeps_fs (env : Env) (fs fs1 : FS) (dir : List Char) (id k : Int)
    (c : List Nat) (h : plainDir fs dir)
    (hfile : readFile (fsFiles fs (Clean dir)) (segmentName k) = some c)
    (hseg : prepareCurrentSegment env dir fs = Res.ok (id, fs1)) : fs1 = fs := by
  have hmem := segmentName_mem_globSegments _ k c hfile
  have hlen : ¬ (globSegments (fsFiles fs (Clean dir))).length = 0 := by
    intro hx
    rw [List.length_eq_zero.mp hx] at hmem
    cases hmem
  rw [prepareCurrentSegment_plain env fs dir h (fsIsDir_of_file fs _ _ c hfile),
    if_neg hlen] at hseg
  split at hseg
  · injection hseg with hseg
    injection hseg with _ hd
    exact hd.symm
  · cases hseg
  · cases hseg

/-- An engine that `InitWAL` returns is in working order, has an empty buffer,
and its counter is what `getLastSeqNo` reads from its segment. -/
theorem InitWAL_ok (cfg : WALConfig) (env : Env) (fs : FS) (w : WAL)
    (h : InitWAL cfg env fs = Res.ok w) :
    healthy w ∧ w.bufWriter = [] ∧ getLastSeqNo w = Res.ok w.lastSeqNo ∧
      ∃ id fs1, prepareCurrentSegment env cfg.Directory.toList
            (MkdirAll fs cfg.Directory.toList) = Res.ok (id, fs1) ∧
        segmentName id ∉ fsChildDirs fs1 (Clean cfg.Directory.toList) ∧
        w.currSegment = segmentName id ∧
        w.disk = openCreate (fsFiles fs1 (Clean cfg.Directory.toList)) (segmentName id) := by
  unfold InitWAL at h
  split at h
  · cases h
  · split at h
    · cases h
    · split at h
      · cases h
      · cases h
      · rename_i id fs1 hp
        simp only at h
        split at h
        · cases h
        · rename_i hopen
          split at h
          · cases h
          · split at h
            · cases h
            · cases h
            · rename_i n hn
              injection h with h
              subst h
              refine ⟨⟨rfl, rfl, rfl, ?_⟩, rfl, hn, id, fs1, hp, ?_, rfl, rfl⟩
              · simp [readFile_openCreate]
              · intro hx; exact hopen (Or.inr hx)

/-- The engine `InitWAL` returns has its timer armed with the interval of the
configuration and takes its fsync setting from it. -/
theorem InitWAL_config (cfg : WALConfig) (env : Env) (fs : FS) (w : WAL)
    (h : InitWAL cfg env fs = Res.ok w) :
    w.syncTimer = cfg.SyncInterval ∧ w.shouldFsync = cfg.EnableFsync := by
  unfold InitWAL at h
  split at h
  · cases h
  · split at h
    · cases h
    · split at h
      · cases h
      · cases h
      · simp only at h
        split at h
        · cases h
        · split at h
          · cases h
          · split at h
            · cases h
            · cases h
            · injection h with h
              subst h
              exact ⟨rfl, rfl⟩

/-- A freshly opened engine over an empty segment: it is in working order,
its buffer and its log are empty and its counter is 0. -/
theorem InitWAL_empty (cfg : WALConfig) (env : Env) (fs : FS) (w0 : WAL)
    (hinit : InitWAL cfg env fs = Res.ok w0)
    (hempty : readFile w0.disk w0.currSegment = some []) :
    healthy w0 ∧ w0.lastSeqNo = 0 ∧ logBytes w0 = [] := by
  obtain ⟨hh, hb, hseq, _⟩ := InitWAL_ok cfg env fs w0 hinit
  rw [getLastSeqNo_empty w0 hempty] at hseq
  injection hseq with hseq
  refine ⟨hh, hseq.symm, ?_⟩
  simp [logBytes, hempty, hb]

/-- What `InitWAL` does once the current segment is known and is a regular
file: the counter is read off the segment (`getLastSeqNo`). -/
theorem InitWAL_of_prepared (cfg : WALConfig) (fs fs1 : FS) (id : Int) (file : List Nat)
    (last : Option WAL_Entry)
    (hdir : cfg.Directory ≠ "")
    (hseg : prepareCurrentSegment noFaults cfg.Directory.toList
      (MkdirAll fs cfg.Directory.toList) = Res.ok (id, fs1))
    (hnd : segmentName id ∉ fsChildDirs fs1 (Clean cfg.Directory.toList))
    (hfile : readFile (fsFiles fs1 (Clean cfg.Directory.toList)) (segmentName id) = some file)
    (hscan : getLastEntryLoop (file.length + 1) file none = Res.ok last) :
    ∃ w, InitWAL cfg noFaults fs = Res.ok w ∧ healthy w ∧ w.bufWriter = [] ∧
      w.currSegment = segmentName id ∧ w.disk = fsFiles fs1 (Clean cfg.Directory.toList) ∧
      readFile w.disk w.currSegment = some file ∧
      w.lastSeqNo = (match last with | none => 0 | some entry => entry.LogSeqNumber) := by
  have hopen : openCreate (fsFiles fs1 (Clean cfg.Directory.toList)) (segmentName id)
      = fsFiles fs1 (Clean cfg.Directory.toList) :=
    openCreate_of_present _ _ (by rw [hfile]; rfl)
  unfold InitWAL
  rw [if_neg hdir, if_neg (by decide), hseg]
  simp only
  rw [if_neg (fun hx => hx.elim (fun hy => absurd hy (by decide)) hnd),
    if_neg (by decide), hopen]
  simp only [getLastSeqNo, getLastEntryInLog, hfile, hscan]
  cases last with
  | none =>
    refine ⟨_, rfl, ⟨rfl, rfl, rfl, ?_⟩, rfl, rfl, rfl, hfile, rfl⟩
    show (readFile (fsFiles fs1 (Clean cfg.Directory.toList)) (segmentName id)).isSome = true
    rw [hfile]; rfl
  | some entry =>
    refine ⟨_, rfl, ⟨rfl, rfl, rfl, ?_⟩, rfl, rfl, rfl, hfile, rfl⟩
    show (readFile (fsFiles fs1 (Clean cfg.Directory.toList)) (segmentName id)).isSome = true
    rw [hfile]; rfl

/-- The call `InitWAL` panics when the recovery scan of the current segment
does. -/
theorem InitWAL_panics_of_prepared (cfg : WALConfig) (fs fs1 : FS) (id : Int) (file : List Nat)
    (hdir : cfg.Directory ≠ "")
    (hseg : prepareCurrentSegment noFaults cfg.Directory.toList
      (MkdirAll fs cfg.Directory.toList) = Res.ok (id, fs1))
    (hnd : segmentName id ∉ fsChildDirs fs1 (Clean cfg.Directory.toList))
    (hfile : readFile (fsFiles fs1 (Clean cfg.Directory.toList)) (segmentName id) = some file)
    (hscan : getLastEntryLoop (file.length + 1) file none = Res.panic) :
    InitWAL cfg noFaults fs = Res.panic := by
  have hopen : openCreate (fsFiles fs1 (Clean cfg.Directory.toList)) (segmentName id)
      = fsFiles fs1 (Clean cfg.Directory.toList) :=
    openCreate_of_present _ _ (by rw [hfile]; rfl)
  unfold InitWAL
  rw [if_neg hdir, if_neg (by decide), hseg]
  simp only
  rw [if_neg (fun hx => hx.elim (fun hy => absurd hy (by decide)) hnd),
    if_neg (by decide), hopen]
  simp only [getLastSeqNo, getLastEntryInLog, hfile, hscan]

/-- The file system a run leaves behind is plain for the directory when it
was before and the names of the files are path elements. -/
theorem plainDir_fsAfter (fs : FS) (dir : List Char) (disk : Dir) (h : plainDir fs dir)
    (hnames : ∀ n ∈ disk.map Prod.fst, '/' ∉ n) : plainDir (fsAfter fs dir disk) dir := by
  obtain ⟨h1, _, h3⟩ := h
  unfold fsAfter
  refine ⟨h1, ?_, ?_⟩
  · rw [fsFiles_fsSet]; exact hnames
  · rw [fsChildDirs_fsSet]; exact h3

theorem fsFiles_fsAfter (fs : FS) (dir : List Char) (disk : Dir) :
    fsFiles (fsAfter fs dir disk) (Clean dir) = disk :=
  fsFiles_fsSet fs (Clean dir) disk

theorem fsIsDir_fsAfter (fs : FS) (dir : List Char) (disk : Dir) :
    fsIsDir (fsAfter fs dir disk) (Clean dir) = true :=
  fsIsDir_fsSet fs (Clean dir) disk

theorem fsChildDirs_fsAfter (fs : FS) (dir : List Char) (disk : Dir) :
    fsChildDirs (fsAfter fs dir disk) (Clean dir) = fsChildDirs fs (Clean dir) :=
  fsChildDirs_fsSet fs (Clean dir) disk

theorem segmentName_not_dir (fs : FS) (dir : List Char) (id : Int) (h : plainDir fs dir) :
    segmentName id ∉ fsChildDirs fs (Clean dir) := by
  intro hmem
  have := h.2.2 _ hmem
  rw [HasPrefix_segmentName] at this
  cases this

/-- What `prepareCurrentSegment` returns on a plain directory without segment
files, whatever the environment, when it returns. -/
theorem prepareCurrentSegment_fresh_ok (env : Env) (fs fs1 : FS) (dir : List Char) (id : Int)
    (h : plainDir fs dir) (hd : fsIsDir fs (Clean dir) = true)
    (hfresh : globSegments (fsFiles fs (Clean dir)) = [])
    (hseg : prepareCurrentSegment env dir fs = Res.ok (id, fs1)) :
    id = 0 ∧ fs1 = fsSet fs (Clean dir) (fsFiles fs (Clean dir) ++ [(segmentName 0, [])]) := by
  rw [prepareCurrentSegment_plain env fs dir h hd, hfresh, if_pos (by rfl)] at hseg
  cases hc : createSegmentFile env fs dir 0 with
  | error e => rw [hc] at hseg; cases hseg
  | panic => rw [hc] at hseg; cases hseg
  | ok fs2 =>
    rw [hc] at hseg
    dsimp only at hseg
    injection hseg with hseg
    injection hseg with h1 h2
    unfold createSegmentFile at hc
    split at hc
    · cases hc
    · split at hc
      · cases hc
      · injection hc with hc
        rw [createFile_absent _ _ (segmentName_absent _ hfresh 0)] at hc
        exact ⟨h1.symm, by rw [← h2, ← hc]⟩

/-- The call `InitWAL` on a plain directory without segment files: the engine
works on the new empty segment 0. -/
theorem InitWAL_fresh (cfg : WALConfig) (env : Env) (fs : FS) (w0 : WAL)
    (hplain : plainDir fs cfg.Directory.toList)
    (hfresh : globSegments (fsFiles fs (Clean cfg.Directory.toList)) = [])
    (hinit : InitWAL cfg env fs = Res.ok w0) :
    w0.currSegment = segmentName 0 ∧
      w0.disk = fsFiles fs (Clean cfg.Directory.toList) ++ [(segmentName 0, [])] ∧
      readFile w0.disk w0.currSegment = some [] ∧ cfg.Directory ≠ "" := by
  obtain ⟨_, _, _, id, fs1, hp, _, hc, hd⟩ := InitWAL_ok cfg env fs w0 hinit
  have hfresh2 : globSegments (fsFiles (MkdirAll fs cfg.Directory.toList)
      (Clean cfg.Directory.toList)) = [] := by
    rw [fsFiles_MkdirAll]; exact hfresh
  obtain ⟨hid, hfs1⟩ := prepareCurrentSegment_fresh_ok env _ fs1 _ id
    (plainDir_MkdirAll fs _ hplain) (fsIsDir_MkdirAll fs _) hfresh2 hp
  subst hid
  rw [hfs1, fsFiles_fsSet, fsFiles_MkdirAll] at hd
  have hfile : readFile (fsFiles fs (Clean cfg.Directory.toList) ++ [(segmentName 0, [])])
      (segmentName 0) = some [] := by
    rw [← createFile_absent _ _ (segmentName_absent _ hfresh 0), readFile_createFile]
  have hopen := openCreate_of_present _ (segmentName 0) (by rw [hfile]; rfl)
  rw [hopen] at hd
  refine ⟨hc, hd, by rw [hd, hc, hfile], ?_⟩
  intro hdir
  unfold InitWAL at hinit
  rw [if_pos hdir] at hinit
  cases hinit

/-- The call `InitWAL` panics when the recovery scan of the current segment
does. -/
theorem InitWAL_panics_of_segment (cfg : WALConfig) (fs fs1 : FS) (id : Int) (file : List Nat)
    (hdir : cfg.Directory ≠ "") (hplain : plainDir fs cfg.Directory.toList)
    (hseg : prepareCurrentSegment noFaults cfg.Directory.toList fs = Res.ok (id, fs1))
    (hfile : readFile (fsFiles fs (Clean cfg.Directory.toList)) (segmentName id) = some file)
    (hscan : getLastEntryLoop (file.length + 1) file none = Res.panic) :
    InitWAL cfg noFaults fs = Res.panic := by
  have hkeep := prepareCurrentSegment_keeps_fs noFaults fs fs1 _ id id file hplain hfile hseg
  rw [hkeep] at hseg
  have hmk := MkdirAll_of_dir fs cfg.Directory.toList (fsIsDir_of_file fs _ _ file hfile)
  exact InitWAL_panics_of_prepared cfg fs fs id file hdir (by rw [hmk]; exact hseg)
    (segmentName_not_dir fs _ id hplain) hfile hscan

/-- A plain directory whose only segment file is segment 0: that is the
current segment. -/
theorem prepareCurrentSegment_single (env : Env) (fs : FS) (dir : List Char)
    (h : plainDir fs dir) (hd : fsIsDir fs (Clean dir) = true)
    (hglob : globSegments (fsFiles fs (Clean dir)) = [segmentName 0]) :
    prepareCurrentSegment env dir fs = Res.ok (0, fs) := by
  rw [prepareCurrentSegment_plain env fs dir h hd, hglob, if_neg (by decide)]
  have hloop : maxSegmentLoop [segmentName 0] 0 = Res.ok 0 := by decide
  rw [hloop]

/-- Reopening after a synced run: `InitWAL` on the file system the engine left
behind selects the segment again and the strict read returns the entries
written. -/
theorem reopen_after_sync (cfg : WALConfig) (fs : FS) (w : WAL) (calls : List Call) (id : Int)
    (hdir : cfg.Directory ≠ "") (hplain : plainDir fs cfg.Directory.toList)
    (h : healthy w) (hs : w.lastSeqNo < 2 ^ 64)
    (hlog : logBytes w = []) (hseg : w.currSegment = segmentName id)
    (hprep : prepareCurrentSegment noFaults cfg.Directory.toList
        (fsAfter fs cfg.Directory.toList (applyCalls w (calls ++ [Call.sync])).1.disk)
      = Res.ok (id, fsAfter fs cfg.Directory.toList (applyCalls w (calls ++ [Call.sync])).1.disk))
    (hsize : ∀ c ∈ calls, c.payload.length + 25 < 2 ^ 31) :
    ∃ w1, InitWAL cfg noFaults
        (fsAfter fs cfg.Directory.toList (applyCalls w (calls ++ [Call.sync])).1.disk)
        = Res.ok w1 ∧
      w1.currSegment = w.currSegment ∧
      ReadAll w1 = Res.ok (builtEntries w.lastSeqNo calls) := by
  obtain ⟨_, _, _, hfile, _⟩ := ReadAll_applyCalls_sync w calls h hs hlog hsize
  rw [hseg] at hfile
  have hdec := builtEntries_decodable calls w.lastSeqNo hsize
  have hvalid : ∀ r ∈ (builtEntries w.lastSeqNo calls).map (fun x => (Marshal x, x)),
      r.1.length < 2 ^ 31 ∧ unmarshalAndVerifyEntry r.1 = Res.ok r.2 := by
    intro r hr
    simp only [List.mem_map] at hr
    obtain ⟨x, hx, rfl⟩ := hr
    exact hdec x hx
  have hm1 : ((builtEntries w.lastSeqNo calls).map (fun x => (Marshal x, x))).map Prod.fst
      = (builtEntries w.lastSeqNo calls).map Marshal := by
    simp [List.map_map, Function.comp_def]
  have hscan := getLastEntryLoop_frames
    ((builtEntries w.lastSeqNo calls).map (fun x => (Marshal x, x)))
    ((framesBytes ((builtEntries w.lastSeqNo calls).map Marshal)).length + 1) [] none hvalid
    (by rw [hm1]; simp)
  rw [hm1, List.append_nil] at hscan
  have hnil : ∀ acc : Option WAL_Entry, getLastEntryLoop ([] : List Nat).length.succ [] acc
      = Res.ok acc := by
    intro acc; simp [getLastEntryLoop]
  rw [hnil] at hscan
  have hfile2 : readFile (fsFiles (fsAfter fs cfg.Directory.toList
      (applyCalls w (calls ++ [Call.sync])).1.disk) (Clean cfg.Directory.toList))
      (segmentName id) = some (framesBytes ((builtEntries w.lastSeqNo calls).map Marshal)) := by
    rw [fsFiles_fsAfter]; exact hfile
  have hmk := MkdirAll_of_dir _ cfg.Directory.toList
    (fsIsDir_fsAfter fs cfg.Directory.toList (applyCalls w (calls ++ [Call.sync])).1.disk)
  obtain ⟨w1, hw1, _, _, hc1, _, hr1, _⟩ :=
    InitWAL_of_prepared cfg _ _ id _ _ hdir (by rw [hmk]; exact hprep)
      (by rw [fsChildDirs_fsAfter]; exact segmentName_not_dir fs _ id hplain) hfile2 hscan
  refine ⟨w1, hw1, by rw [hc1, hseg], ?_⟩
  exact ReadAll_frames w1 _ hr1 hdec

/-- The file system a run of calls on the example engine leaves behind is
plain for the directory `wal`. -/
theorem plainDir_after_calls (calls : List Call) :
    plainDir (fsAfter [] "wal".toList (applyCalls exampleEngine calls).1.disk)
      "wal".toList := by
  obtain ⟨_, extra, hdisk⟩ := applyCalls_disk calls exampleEngine
  apply plainDir_fsAfter [] "wal".toList _ (by decide)
  rw [hdisk, appendFile_names]
  decide

/-- The directory a run of calls leaves behind on the example engine still
has segment 0 as its current segment. -/
theorem prepareCurrentSegment_after_calls (calls : List Call) :
    prepareCurrentSegment noFaults "wal".toList
        (fsAfter [] "wal".toList (applyCalls exampleEngine calls).1.disk)
      = Res.ok (0, fsAfter [] "wal".toList (applyCalls exampleEngine calls).1.disk) := by
  obtain ⟨_, extra, hdisk⟩ := applyCalls_disk calls exampleEngine
  apply prepareCurrentSegment_single noFaults _ _ (plainDir_after_calls calls)
    (fsIsDir_fsAfter _ _ _)
  rw [fsFiles_fsAfter, hdisk, globSegments_appendFile]
  decide

/-- The only error of the loop of `prepareCurrentSegment` is the one for a
name that does not parse. -/
theorem maxSegmentLoop_error (files : List (List Char)) : ∀ (acc : Int) (e : WalError),
    maxSegmentLoop files acc = Res.error e → e = WalError.invalidSegmentName := by
  induction files with
  | nil => intro acc e h; simp [maxSegmentLoop] at h
  | cons name files ih =>
    intro acc e h
    rw [maxSegmentLoop] at h
    dsimp only at h
    split at h
    · exact ih _ e h
    · split at h
      · exact ih _ e h
      · split at h
        · injection h with h; exact h.symm
        · exact ih _ e h

/-- A plain directory that exists, with at least one file that starts with
the segment stem, where the remainder of every such name parses as an
integer: `prepareCurrentSegment` returns without error, leaves the file
system as it is, and the ID returned is the greatest of 0 and the parsed IDs.
It is the maximum of the parsed IDs whenever one of them is not negative. -/
theorem prepareCurrentSegment_returns_max (env : Env) (fs : FS) (dir : List Char)
    (hplain : plainDir fs dir) (hd : fsIsDir fs (Clean dir) = true)
    (hne : globSegments (fsFiles fs (Clean dir)) ≠ [])
    (hparse : ∀ name ∈ globSegments (fsFiles fs (Clean dir)),
      (Atoi (TrimPrefix name SegmentPrefix)).isSome = true) :
    ∃ m, prepareCurrentSegment env dir fs = Res.ok (m, fs) ∧ 0 ≤ m ∧
      (∀ name ∈ globSegments (fsFiles fs (Clean dir)), ∀ j,
        Atoi (TrimPrefix name SegmentPrefix) = some j → j ≤ m) ∧
      (m = 0 ∨ ∃ name ∈ globSegments (fsFiles fs (Clean dir)),
        Atoi (TrimPrefix name SegmentPrefix) = some m) ∧
      ((∃ name ∈ globSegments (fsFiles fs (Clean dir)), ∃ j,
          Atoi (TrimPrefix name SegmentPrefix) = some j ∧ 0 ≤ j) →
        ∃ name ∈ globSegments (fsFiles fs (Clean dir)),
          Atoi (TrimPrefix name SegmentPrefix) = some m) := by
  obtain ⟨m, h1, h2, h3, h4⟩ := maxSegmentLoop_all_parsed (globSegments (fsFiles fs (Clean dir))) 0
    (fun name hn => ⟨globSegments_HasPrefix _ name hn,
      Option.isSome_iff_exists.mp (hparse name hn)⟩)
  refine ⟨m, ?_, h2, h3, h4, ?_⟩
  · rw [prepareCurrentSegment_plain env fs dir hplain hd]
    have hlen : ¬ (globSegments (fsFiles fs (Clean dir))).length = 0 :=
      fun h => hne (List.length_eq_zero.mp h)
    rw [if_neg hlen, h1]
  · rintro ⟨name, hn, j, hj, hj0⟩
    rcases h4 with h4 | h4
    · have hjm := h3 name hn j hj
      have : j = m := by omega
      exact ⟨name, hn, by rw [← this]; exact hj⟩
    · exact h4

/-- Fresh segment in a plain directory without segment files, when no system
call fails: `InitWAL` succeeds; it adds the file `wal-segment-0`, empty, to
the directory and changes nothing else, so that this file is the one segment
of the directory; `ReadAll` returns no entry, the counter is 0, and the first
append returns nil and frames an entry with sequence number 1. -/
theorem InitWAL_fresh_plain (cfg : WALConfig) (fs : FS) (x : Bool × List Nat)
    (hdir : cfg.Directory ≠ "") (hplain : plainDir fs cfg.Directory.toList)
    (hfresh : globSegments (fsFiles fs (Clean cfg.Directory.toList)) = []) :
    ∃ w, InitWAL cfg noFaults fs = Res.ok w ∧
      w.disk = fsFiles fs (Clean cfg.Directory.toList) ++ [("wal-segment-0".toList, [])] ∧
      globSegments w.disk = ["wal-segment-0".toList] ∧
      w.currSegment = "wal-segment-0".toList ∧
      readFile w.disk w.currSegment = some [] ∧
      ReadAll w = Res.ok [] ∧
      w.bufWriter = [] ∧
      w.lastSeqNo = 0 ∧
      (applyCall w (appendCall x)).2 = none ∧
      (applyCall w (appendCall x)).1.lastSeqNo = 1 ∧
      logBytes (applyCall w (appendCall x)).1 = frameBytes (Marshal
        { LogSeqNumber := 1, Data := x.2, CRC := ChecksumIEEE x.2,
          IsCheckpoint := if x.1 then some true else none }) := by
  have hfresh2 : globSegments (fsFiles (MkdirAll fs cfg.Directory.toList)
      (Clean cfg.Directory.toList)) = [] := by
    rw [fsFiles_MkdirAll]; exact hfresh
  obtain ⟨hprep, hglob⟩ := prepareCurrentSegment_fresh (MkdirAll fs cfg.Directory.toList)
    cfg.Directory.toList (plainDir_MkdirAll fs _ hplain) (fsIsDir_MkdirAll fs _) hfresh2
  rw [fsFiles_MkdirAll] at hprep hglob
  have hfile0 : readFile (fsFiles fs (Clean cfg.Directory.toList) ++ [(segmentName 0, [])])
      (segmentName 0) = some [] := by
    rw [← createFile_absent _ _ (segmentName_absent _ hfresh 0), readFile_createFile]
  obtain ⟨w, hw, hh, hb, hseg, hdisk, hfile, hlast⟩ :=
    InitWAL_of_prepared cfg fs _ 0 [] none hdir hprep
      (by rw [fsChildDirs_fsSet, fsChildDirs_MkdirAll]; exact segmentName_not_dir fs _ 0 hplain)
      (by rw [fsFiles_fsSet]; exact hfile0) rfl
  rw [fsFiles_fsSet] at hdisk
  have hlog : logBytes w = [] := by simp [logBytes, hfile, hb]
  obtain ⟨a1, a2, a3⟩ := appendCall_healthy w x hh
  have hseq : w.lastSeqNo = 0 := hlast
  rw [hseq] at a2 a3
  rw [hlog] at a3
  refine ⟨w, hw, hdisk, ?_, hseg, hfile, ?_, hb, hseq, a1, a2, a3⟩
  · rw [hdisk]; exact hglob
  · rw [ReadAll_of_file w [] hfile]; rfl

/-- Append-only segment in a plain directory that holds the segment file
whose ID `prepareCurrentSegment` returns, with any content: every engine
`InitWAL` returns has left the directory as it was.  In every state reached
from there by `WriteEntry`, `WriteEntryWithCheckpoint`, `Sync` and `Close`
in any order, whatever the calls return, the next operation changes the
directory only by putting bytes behind the segment file, so the content
found by `InitWAL` stays in front.  After calls that end with `Sync` the
file holds that content and behind it the frames of the entries written. -/
theorem segment_append_only_plain (cfg : WALConfig) (env : Env) (fs fs1 : FS) (id : Int)
    (file : List Nat) (w : WAL)
    (hplain : plainDir fs cfg.Directory.toList)
    (hseg : prepareCurrentSegment env cfg.Directory.toList fs = Res.ok (id, fs1))
    (hfile : readFile (fsFiles fs (Clean cfg.Directory.toList)) (segmentName id) = some file)
    (hinit : InitWAL cfg env fs = Res.ok w) :
    w.disk = fsFiles fs (Clean cfg.Directory.toList) ∧ w.currSegment = segmentName id ∧
      (∀ (ops : List Op) (o : Op), ∃ before extra,
        (applyOps w ops).disk
          = appendFile (fsFiles fs (Clean cfg.Directory.toList)) (segmentName id) before ∧
        (applyOp (applyOps w ops) o).1.disk
          = appendFile (applyOps w ops).disk (segmentName id) extra ∧
        readFile (applyOps w ops).disk (segmentName id) = some (file ++ before) ∧
        readFile (applyOp (applyOps w ops) o).1.disk (segmentName id)
          = some (file ++ before ++ extra)) ∧
      (∀ calls : List Call,
        readFile (applyCalls w (calls ++ [Call.sync])).1.disk (segmentName id)
          = some (file ++ framesBytes ((builtEntries w.lastSeqNo calls).map Marshal))) := by
  obtain ⟨hh, hb, _, id2, fs2, hp, _, hcs, hd⟩ := InitWAL_ok cfg env fs w hinit
  rw [MkdirAll_of_dir fs _ (fsIsDir_of_file fs _ _ file hfile), hseg] at hp
  injection hp with hp
  injection hp with hid hfs
  subst hid
  subst hfs
  have hkeep := prepareCurrentSegment_keeps_fs env fs fs1 _ id id file hplain hfile hseg
  subst hkeep
  have hdisk : w.disk = fsFiles fs1 (Clean cfg.Directory.toList) := by
    rw [hd]
    exact openCreate_of_present _ _ (by rw [hfile]; rfl)
  refine ⟨hdisk, hcs, ?_, ?_⟩
  · intro ops o
    obtain ⟨a1, before, a2⟩ := applyOps_disk ops w
    obtain ⟨_, extra, b2⟩ := applyOp_disk (applyOps w ops) o
    rw [a1, hcs] at b2
    rw [hcs, hdisk] at a2
    refine ⟨before, extra, a2, b2, ?_, ?_⟩
    · rw [a2, readFile_appendFile, hfile]; rfl
    · rw [b2, a2, appendFile_appendFile, readFile_appendFile, hfile]
      simp
  · intro calls
    obtain ⟨_, c2, c3, c4⟩ := applyCalls_logBytes calls w hh
    obtain ⟨_, _, _, _, _, s6⟩ := Sync_healthy (applyCalls w calls).1 c2
    have hfin : (applyCalls w (calls ++ [Call.sync])).1 = (Sync (applyCalls w calls).1).1 := by
      rw [applyCalls_append]; rfl
    have hlog : logBytes w = file := by
      unfold logBytes
      rw [hdisk, hcs, hfile, hb]
      simp
    rw [hfin, ← hcs, ← c3, s6, c4, hlog]

/-! ### A marshalled entry of exactly `2 ^ 32` bytes -/

theorem crcShift_even (c : Nat) (h : c % 2 = 0) : crcShift c = c / 2 := by
  unfold crcShift
  rw [if_neg (by omega)]

/-- A register whose low byte is zero is shifted down by a byte in the eight
rounds of `crcUpdateByte`: the polynomial is never folded in. -/
theorem crcShift8_low_zero (y : Nat) (h : y % 256 = 0) :
    crcShift (crcShift (crcShift (crcShift (crcShift (crcShift (crcShift (crcShift y)))))))
      = y / 256 := by
  rw [crcShift_even y (by omega), crcShift_even (y / 2) (by omega),
    crcShift_even (y / 2 / 2) (by omega), crcShift_even (y / 2 / 2 / 2) (by omega),
    crcShift_even (y / 2 / 2 / 2 / 2) (by omega),
    crcShift_even (y / 2 / 2 / 2 / 2 / 2) (by omega),
    crcShift_even (y / 2 / 2 / 2 / 2 / 2 / 2) (by omega),
    crcShift_even (y / 2 / 2 / 2 / 2 / 2 / 2 / 2) (by omega)]
  omega

theorem xor_low_byte (s : Nat) : (s ^^^ (s % 256)) % 256 = 0 := by
  have h : (256 : Nat) = 2 ^ 8 := by norm_num
  rw [h]
  apply Nat.eq_of_testBit_eq
  intro i
  rw [Nat.testBit_mod_two_pow, Nat.testBit_xor, Nat.testBit_mod_two_pow, Nat.zero_testBit]
  by_cases hi : i < 8
  · simp [hi]
  · simp [hi]

/-- The checksum of data that ends with the low byte of the register: the
last byte clears the low byte of the register, and the complement of what is
left has its top byte set. -/
theorem ChecksumIEEE_low_byte (start : List Nat) :
    2 ^ 28 ≤ ChecksumIEEE (start ++ [start.foldl crcUpdateByte 0xFFFFFFFF % 256]) := by
  have hs : start.foldl crcUpdateByte 0xFFFFFFFF < 2 ^ 32 := crcFold_lt start _ (by norm_num)
  unfold ChecksumIEEE
  rw [List.foldl_append]
  generalize start.foldl crcUpdateByte 0xFFFFFFFF = s at hs ⊢
  show 2 ^ 28 ≤ crcUpdateByte s (s % 256) ^^^ 0xFFFFFFFF
  have hx : crcUpdateByte s (s % 256) = (s ^^^ (s % 256)) / 256 := by
    unfold crcUpdateByte
    rw [Nat.mod_mod]
    exact crcShift8_low_zero _ (xor_low_byte s)
  have hy : s ^^^ (s % 256) < 2 ^ 32 :=
    Nat.xor_lt_two_pow hs (lt_of_lt_of_le (Nat.mod_lt _ (by norm_num)) (by norm_num))
  rw [hx]
  have hz : (s ^^^ (s % 256)) / 256 < 2 ^ 24 := by omega
  generalize (s ^^^ (s % 256)) / 256 = z at hz
  have hbit : (z ^^^ 0xFFFFFFFF).testBit 31 = true := by
    rw [Nat.testBit_xor, Nat.testBit_lt_two_pow (lt_of_lt_of_le hz (by norm_num))]
    decide
  have := Nat.testBit_implies_ge hbit
  omega
/-- A length-delimited field with a number the message does not declare is
skipped by `proto.Unmarshal`. -/
theorem unmarshalFields_unknown_bytes (fuel m : Nat) (X rest : List Nat) (e : WAL_Entry)
    (hm : m < 2 ^ 64) (hX : X.length = m) :
    unmarshalFields (fuel + 1) (0x2A :: (AppendVarint m ++ (X ++ rest))) e
      = unmarshalFields fuel rest e := by
  rw [unmarshalFields, ConsumeVarint_small 0x2A _ (by norm_num)]
  have hdrop : (X ++ rest).drop m = rest := by rw [← hX]; exact List.drop_left _ _
  have hle : ¬ X.length + rest.length < m := by omega
  simp [MaxValidNumber, ConsumeFieldValue, consumeFieldValueD,
    ConsumeVarint_AppendVarint m (X ++ rest) hm, hdrop, hle]

/-- A 64-bit field with a number the message does not declare is skipped by
`proto.Unmarshal`.  The tag is the varint of `2 ^ 32 - 15`: field number
`2 ^ 29 - 2`, wire type 1. -/
theorem unmarshalFields_unknown_fixed64 (fuel : Nat) (Z rest : List Nat) (e : WAL_Entry)
    (hZ : Z.length = 8) :
    unmarshalFields (fuel + 1) (AppendVarint 4294967281 ++ (Z ++ rest)) e
      = unmarshalFields fuel rest e := by
  have hv : AppendVarint 4294967281 = 241 :: [255, 255, 255, 15] := by decide
  have hc := ConsumeVarint_AppendVarint 4294967281 (Z ++ rest) (by norm_num)
  rw [hv] at hc ⊢
  rw [List.cons_append, unmarshalFields, ← List.cons_append, hc]
  have hdrop : (Z ++ rest).drop 8 = rest := by rw [← hZ]; exact List.drop_left _ _
  have hlen : ¬ Z.length + rest.length < 8 := by omega
  simp [MaxValidNumber, ConsumeFieldValue, consumeFieldValueD, hdrop, hlen]
theorem AppendVarint_length_five (c : Nat) (h1 : 2 ^ 28 ≤ c) (h2 : c < 2 ^ 35) :
    (AppendVarint c).length = 5 := by
  unfold AppendVarint
  rw [Nat.mod_eq_of_lt (lt_trans h2 (by norm_num))]
  have a1 : ¬ c < 128 := by omega
  have a2 : ¬ c / 128 < 128 := by omega
  have a3 : ¬ c / 128 / 128 < 128 := by omega
  have a4 : ¬ c / 128 / 128 / 128 < 128 := by omega
  have a5 : c / 128 / 128 / 128 / 128 < 128 := by omega
  simp [appendVarintAux, a1, a2, a3, a4, a5]

/-- The marshalled entry number 128 with a payload of `2 ^ 32 - 15` bytes and
a checksum of five varint bytes. -/
theorem Marshal_wrap (P : List Nat) (c : Nat) (hP : P.length = 4294967281)
    (hc1 : 2 ^ 28 ≤ c) (hc2 : c < 2 ^ 32) :
    Marshal ⟨128, P, c, none⟩
      = [8, 128, 1, 18] ++ (AppendVarint 4294967281 ++ (P ++ 24 :: AppendVarint c)) := by
  have hne : P ≠ [] := by
    intro h; rw [h] at hP; simp at hP
  have hseq : AppendVarint 128 = [128, 1] := by decide
  unfold Marshal marshalSeq marshalData marshalCRC marshalFlag
  simp only [hP]
  rw [if_neg (by norm_num), if_neg hne, Nat.mod_eq_of_lt hc2, if_neg (by omega), hseq]
  simp
/-- The frame of the marshalled entry number 128 with a payload laid out as
`wrapPayload`, read as a segment: an empty frame, and three frames that each
hold fields the message does not declare. -/
theorem frameBytes_wrap (Z0 Z1 Z2 Z3 : List Nat) (v c : Nat)
    (h0 : Z0.length = 8) (h1 : Z1.length = 302088181) (h2 : Z2.length = 1999999994)
    (h3 : Z3.length = 1992879071) (hc1 : 2 ^ 28 ≤ c) (hc2 : c < 2 ^ 32) :
    frameBytes (Marshal ⟨128,
        Z0 ++ (0x2A :: (AppendVarint 302088181 ++ Z1)) ++ putInt32LE 2000000000
          ++ (0x2A :: (AppendVarint 1999999994 ++ Z2)) ++ putInt32LE 1992879084
          ++ (0x2A :: (AppendVarint 1992879078 ++ Z3)) ++ [v], c, none⟩)
      = framesBytes [[],
          AppendVarint 4294967281 ++ (Z0 ++ 0x2A :: (AppendVarint 302088181 ++ (Z1 ++ []))),
          0x2A :: (AppendVarint 1999999994 ++ (Z2 ++ [])),
          0x2A :: (AppendVarint 1992879078 ++ ((Z3 ++ v :: 24 :: AppendVarint c) ++ []))] := by
  have l1 : (AppendVarint 302088181).length = 5 := by decide
  have l2 : (AppendVarint 1999999994).length = 5 := by decide
  have l3 : (AppendVarint 1992879078).length = 5 := by decide
  have l4 : (AppendVarint 4294967281).length = 5 := by decide
  have l5 : (AppendVarint c).length = 5 := AppendVarint_length_five c hc1 (by omega)
  have p1 : (putInt32LE 2000000000).length = 4 := rfl
  have p2 : (putInt32LE 1992879084).length = 4 := rfl
  have hP : (Z0 ++ (0x2A :: (AppendVarint 302088181 ++ Z1)) ++ putInt32LE 2000000000
      ++ (0x2A :: (AppendVarint 1999999994 ++ Z2)) ++ putInt32LE 1992879084
      ++ (0x2A :: (AppendVarint 1992879078 ++ Z3)) ++ [v]).length = 4294967281 := by
    simp only [List.length_append, List.length_cons, List.length_nil, h0, h1, h2, h3, l1, l2, l3,
      p1, p2]
  rw [Marshal_wrap _ c hP hc1 hc2]
  have w0 : putInt32LE (toInt32 4294967296) = [0, 0, 0, 0] := by decide
  have w1 : putInt32LE (toInt32 302088200) = [8, 128, 1, 18] := by decide
  have w2 : putInt32LE (toInt32 2000000000) = putInt32LE 2000000000 := by decide
  have w3 : putInt32LE (toInt32 1992879084) = putInt32LE 1992879084 := by decide
  have w4 : putInt32LE (toInt32 0) = [0, 0, 0, 0] := by decide
  unfold framesBytes framesBytes framesBytes framesBytes framesBytes frameBytes
  have e0 : ([8, 128, 1, 18] ++ (AppendVarint 4294967281 ++
      (Z0 ++ (0x2A :: (AppendVarint 302088181 ++ Z1)) ++ putInt32LE 2000000000
        ++ (0x2A :: (AppendVarint 1999999994 ++ Z2)) ++ putInt32LE 1992879084
        ++ (0x2A :: (AppendVarint 1992879078 ++ Z3)) ++ [v] ++ 24 :: AppendVarint c))).length
      = 4294967296 := by
    simp only [List.length_append, List.length_cons, List.length_nil, h0, h1, h2, h3, l1, l2, l3,
      l4, l5, p1, p2]
  have e1 : (AppendVarint 4294967281 ++ (Z0 ++ 0x2A :: (AppendVarint 302088181 ++ (Z1 ++ [])))).length
      = 302088200 := by
    simp only [List.length_append, List.length_cons, List.length_nil, h0, h1, l1, l4]
  have e2 : (0x2A :: (AppendVarint 1999999994 ++ (Z2 ++ []))).length = 2000000000 := by
    simp only [List.length_append, List.length_cons, List.length_nil, h2, l2]
  have e3 : (0x2A :: (AppendVarint 1992879078 ++ ((Z3 ++ v :: 24 :: AppendVarint c) ++ []))).length
      = 1992879084 := by
    simp only [List.length_append, List.length_cons, List.length_nil, h3, l3, l5]
  rw [e0, e1, e2, e3, w0, w1, w2, w3]
  show _ = putInt32LE (toInt32 0) ++ [] ++ _
  rw [w4]
  simp only [List.append_assoc, List.cons_append, List.nil_append, List.append_nil]
theorem unmarshalAndVerifyEntry_unknown_bytes (m : Nat) (X : List Nat) (hm : m < 2 ^ 64)
    (hX : X.length = m) :
    unmarshalAndVerifyEntry (0x2A :: (AppendVarint m ++ (X ++ []))) = Res.ok ⟨0, [], 0, none⟩ := by
  have hu : Unmarshal (0x2A :: (AppendVarint m ++ (X ++ []))) = some ⟨0, [], 0, none⟩ := by
    unfold Unmarshal
    rw [List.length_cons, unmarshalFields_unknown_bytes _ m X [] _ hm hX]
    simp [unmarshalFields]
  unfold unmarshalAndVerifyEntry
  rw [hu]
  rfl

theorem unmarshalAndVerifyEntry_wrap_first (Z0 Z1 : List Nat) (h0 : Z0.length = 8)
    (h1 : Z1.length = 302088181) :
    unmarshalAndVerifyEntry
        (AppendVarint 4294967281 ++ (Z0 ++ 0x2A :: (AppendVarint 302088181 ++ (Z1 ++ []))))
      = Res.ok ⟨0, [], 0, none⟩ := by
  have hu : Unmarshal (AppendVarint 4294967281
      ++ (Z0 ++ 0x2A :: (AppendVarint 302088181 ++ (Z1 ++ [])))) = some ⟨0, [], 0, none⟩ := by
    unfold Unmarshal
    have l1 : (AppendVarint 302088181).length = 5 := by decide
    have l4 : (AppendVarint 4294967281).length = 5 := by decide
    have e1 : (AppendVarint 4294967281
        ++ (Z0 ++ 0x2A :: (AppendVarint 302088181 ++ (Z1 ++ [])))).length
        = 302088198 + 1 + 1 := by
      simp only [List.length_append, List.length_cons, List.length_nil, h0, h1, l1, l4]
    rw [e1, unmarshalFields_unknown_fixed64 _ Z0 _ _ h0,
      unmarshalFields_unknown_bytes _ 302088181 Z1 [] _ (by norm_num) h1]
    simp [unmarshalFields]
  unfold unmarshalAndVerifyEntry
  rw [hu]
  rfl
theorem wrap_length (Z0 Z1 Z2 Z3 : List Nat) (v : Nat)
    (h0 : Z0.length = 8) (h1 : Z1.length = 302088181) (h2 : Z2.length = 1999999994)
    (h3 : Z3.length = 1992879071) :
    (Z0 ++ (0x2A :: (AppendVarint 302088181 ++ Z1)) ++ putInt32LE 2000000000
      ++ (0x2A :: (AppendVarint 1999999994 ++ Z2)) ++ putInt32LE 1992879084
      ++ (0x2A :: (AppendVarint 1992879078 ++ Z3)) ++ [v]).length = 4294967281 := by
  have l1 : (AppendVarint 302088181).length = 5 := by decide
  have l2 : (AppendVarint 1999999994).length = 5 := by decide
  have l3 : (AppendVarint 1992879078).length = 5 := by decide
  have p1 : (putInt32LE 2000000000).length = 4 := rfl
  have p2 : (putInt32LE 1992879084).length = 4 := rfl
  simp only [List.length_append, List.length_cons, List.length_nil, h0, h1, h2, h3, l1, l2, l3,
    p1, p2]

theorem wrap_bytes (Z0 Z1 Z2 Z3 : List Nat) (v : Nat)
    (h0 : ∀ b ∈ Z0, b < 256) (h1 : ∀ b ∈ Z1, b < 256) (h2 : ∀ b ∈ Z2, b < 256)
    (h3 : ∀ b ∈ Z3, b < 256) (hv : v < 256) :
    ∀ b ∈ Z0 ++ (0x2A :: (AppendVarint 302088181 ++ Z1)) ++ putInt32LE 2000000000
      ++ (0x2A :: (AppendVarint 1999999994 ++ Z2)) ++ putInt32LE 1992879084
      ++ (0x2A :: (AppendVarint 1992879078 ++ Z3)) ++ [v], b < 256 := by
  have l1 : ∀ b ∈ AppendVarint 302088181, b < 256 := by decide
  have l2 : ∀ b ∈ AppendVarint 1999999994, b < 256 := by decide
  have l3 : ∀ b ∈ AppendVarint 1992879078, b < 256 := by decide
  have p1 : ∀ b ∈ putInt32LE 2000000000, b < 256 := by decide
  have p2 : ∀ b ∈ putInt32LE 1992879084, b < 256 := by decide
  intro b hb
  simp only [List.mem_append, List.mem_cons, List.mem_singleton, List.not_mem_nil, or_false]
    at hb
  rcases hb with (((((hb | hb | hb | hb) | hb) | hb | hb | hb) | hb) | hb | hb | hb) | hb
  · exact h0 b hb
  · omega
  · exact l1 b hb
  · exact h1 b hb
  · exact p1 b hb
  · omega
  · exact l2 b hb
  · exact h2 b hb
  · exact p2 b hb
  · omega
  · exact l3 b hb
  · exact h3 b hb
  · omega

theorem wrapPayload_length : wrapPayload.length = 2 ^ 32 - 15 :=
  wrap_length (List.replicate 8 0) (List.replicate 302088181 0)
    (List.replicate 1999999994 0) (List.replicate 1992879071 0) _
    (List.length_replicate _ _) (List.length_replicate _ _) (List.length_replicate _ _)
    (List.length_replicate _ _)

theorem wrapPayload_bytes : ∀ b ∈ wrapPayload, b < 256 :=
  have hz : ∀ n : Nat, ∀ b ∈ List.replicate n 0, b < 256 := by
    intro n b hb
    rw [List.eq_of_mem_replicate hb]
    norm_num
  wrap_bytes (List.replicate 8 0) (List.replicate 302088181 0)
    (List.replicate 1999999994 0) (List.replicate 1992879071 0) _
    (hz _) (hz _) (hz _) (hz _) (Nat.mod_lt _ (by norm_num))

/-- The frame of the marshalled entry number 128 with a payload laid out as
`wrapPayload` is, byte for byte, an empty frame followed by three frames
whose bodies are shorter than 2 GiB and decode to an entry without fields. -/
theorem wrap_frames_valid (Z0 Z1 Z2 Z3 : List Nat) (v c : Nat)
    (h0 : Z0.length = 8) (h1 : Z1.length = 302088181) (h2 : Z2.length = 1999999994)
    (h3 : Z3.length = 1992879071) (hc1 : 2 ^ 28 ≤ c) (hc2 : c < 2 ^ 32) :
    ∃ B1 B2 B3 : List Nat,
      frameBytes (Marshal ⟨128,
        Z0 ++ (0x2A :: (AppendVarint 302088181 ++ Z1)) ++ putInt32LE 2000000000
          ++ (0x2A :: (AppendVarint 1999999994 ++ Z2)) ++ putInt32LE 1992879084
          ++ (0x2A :: (AppendVarint 1992879078 ++ Z3)) ++ [v], c, none⟩)
        = framesBytes [[], B1, B2, B3] ∧
      ∀ B ∈ [B1, B2, B3],
        B.length < 2 ^ 31 ∧ unmarshalAndVerifyEntry B = Res.ok ⟨0, [], 0, none⟩ := by
  have l1 : (AppendVarint 302088181).length = 5 := by decide
  have l2 : (AppendVarint 1999999994).length = 5 := by decide
  have l3 : (AppendVarint 1992879078).length = 5 := by decide
  have l4 : (AppendVarint 4294967281).length = 5 := by decide
  have l5 : (AppendVarint c).length = 5 := AppendVarint_length_five c hc1 (by omega)
  have hX : (Z3 ++ v :: 24 :: AppendVarint c).length = 1992879078 := by
    simp only [List.length_append, List.length_cons, h3, l5]
  refine ⟨_, _, _, frameBytes_wrap Z0 Z1 Z2 Z3 v c h0 h1 h2 h3 hc1 hc2, ?_⟩
  intro B hB
  simp only [List.mem_cons, List.mem_singleton, List.not_mem_nil, or_false] at hB
  rcases hB with rfl | rfl | rfl
  · refine ⟨?_, unmarshalAndVerifyEntry_wrap_first Z0 Z1 h0 h1⟩
    simp only [List.length_append, List.length_cons, List.length_nil, h0, h1, l1, l4]
    norm_num
  · refine ⟨?_, unmarshalAndVerifyEntry_unknown_bytes 1999999994 Z2 (by norm_num) h2⟩
    simp only [List.length_append, List.length_cons, List.length_nil, h2, l2]
    norm_num
  · refine ⟨?_, unmarshalAndVerifyEntry_unknown_bytes 1992879078 _ (by norm_num) hX⟩
    simp only [List.length_append, List.length_cons, List.length_nil, h3, l3, l5]
    norm_num

/-- The strict read of a segment that holds the frames of entries that decode
and then bytes that are an empty frame and three frames that decode to an
entry without fields. -/
theorem ReadAll_wrapped_frame (w : WAL) (E : List WAL_Entry) (body B1 B2 B3 : List Nat)
    (hfile : readFile w.disk w.currSegment = some (framesBytes ((E.map Marshal) ++ [body])))
    (hE : ∀ e ∈ E, (Marshal e).length < 2 ^ 31 ∧ unmarshalAndVerifyEntry (Marshal e) = Res.ok e)
    (hframe : frameBytes body = framesBytes [[], B1, B2, B3])
    (hB : ∀ B ∈ [B1, B2, B3],
      B.length < 2 ^ 31 ∧ unmarshalAndVerifyEntry B = Res.ok ⟨0, [], 0, none⟩) :
    ReadAll w = Res.ok (E ++ [⟨0, [], 0, none⟩, ⟨0, [], 0, none⟩, ⟨0, [], 0, none⟩,
      ⟨0, [], 0, none⟩]) := by
  have hfile2 : readFile w.disk w.currSegment
      = some (framesBytes ((E.map (fun x => (Marshal x, x))
          ++ [(([] : List Nat), (⟨0, [], 0, none⟩ : WAL_Entry)), (B1, ⟨0, [], 0, none⟩),
              (B2, ⟨0, [], 0, none⟩), (B3, ⟨0, [], 0, none⟩)]).map Prod.fst) ++ []) := by
    rw [hfile, framesBytes_append, List.map_append, framesBytes_append, List.append_nil,
      List.map_map]
    have : (Prod.fst ∘ fun x : WAL_Entry => (Marshal x, x)) = Marshal := rfl
    rw [this]
    congr 2
    show frameBytes body ++ [] = _
    rw [List.append_nil, hframe]
    rfl
  rw [ReadAll_of_file w _ hfile2]
  rw [readAllLoop_frames _ _ [] [] (by
    intro r hr
    rcases List.mem_append.mp hr with hr | hr
    · simp only [List.mem_map] at hr
      obtain ⟨x, hx, rfl⟩ := hr
      exact hE x hx
    · simp only [List.mem_cons, List.mem_singleton, List.not_mem_nil, or_false] at hr
      rcases hr with rfl | rfl | rfl | rfl
      · exact ⟨by norm_num, by decide⟩
      · exact hB B1 (by simp)
      · exact hB B2 (by simp)
      · exact hB B3 (by simp)) (Nat.lt_succ_self _)]
  rw [readAllLoop_nil, List.nil_append, List.map_append, List.map_map]
  have : (Prod.snd ∘ fun x : WAL_Entry => (Marshal x, x)) = id := rfl
  rw [this, List.map_id]
  rfl
/-- The entries built by `n` writes of the empty payload are numbered from
the counter upwards. -/
theorem builtEntries_replicate (n : Nat) : ∀ s : Nat, s + n < 2 ^ 64 →
    (builtEntries s (List.replicate n (Call.write []))).length = n ∧
      (builtEntries s (List.replicate n (Call.write []))).map WAL_Entry.LogSeqNumber
        = List.range' (s + 1) n := by
  induction n with
  | zero => intro s _; exact ⟨rfl, rfl⟩
  | succ n ih =>
    intro s hs
    have hm : (s + 1) % 2 ^ 64 = s + 1 := Nat.mod_eq_of_lt (by omega)
    obtain ⟨a, b⟩ := ih (s + 1) (by omega)
    rw [List.replicate_succ]
    simp only [builtEntries, hm, List.length_cons, List.map_cons, List.range'_succ]
    exact ⟨by rw [a], by rw [b]⟩
theorem Marshal_wrap_length (P : List Nat) (c : Nat) (hP : P.length = 4294967281)
    (hc1 : 2 ^ 28 ≤ c) (hc2 : c < 2 ^ 32) :
    (Marshal ⟨128, P, c, none⟩).length = 2 ^ 32 := by
  rw [Marshal_wrap P c hP hc1 hc2]
  have l4 : (AppendVarint 4294967281).length = 5 := by decide
  have l5 := AppendVarint_length_five c hc1 (by omega)
  simp only [List.length_append, List.length_cons, List.length_nil, hP, l4, l5]
  norm_num

/-! ## The claims -/

/-- C1, counterexample: a fresh log, one `WriteEntry` with a payload of
2 GiB, then `Sync`.  Both calls return nil, and `ReadAll` does not return the
entry: the length written is a negative `int32`, and `ReadAll` panics at
`make([]byte, size)`. -/
theorem ReadAll_panics_after_huge_write :
    InitWAL (CreateDefaultWALConfig "wal") noFaults [] = Res.ok exampleEngine ∧
    (∀ r ∈ (applyCalls exampleEngine ([(false, hugePayload)].map appendCall ++ [Call.sync])).2,
        r = none) ∧
      ReadAll (applyCalls exampleEngine ([(false, hugePayload)].map appendCall ++ [Call.sync])).1
        = Res.panic := by
  obtain ⟨h1, h2, h3⟩ := file_after_sync exampleEngine ([(false, hugePayload)].map appendCall)
    healthy_exampleEngine (by decide) (by decide)
  have hbuilt : builtEntries exampleEngine.lastSeqNo ([(false, hugePayload)].map appendCall)
      = [⟨1, hugePayload, ChecksumIEEE hugePayload, none⟩] := rfl
  have hfile : readFile (applyCalls exampleEngine
      ([(false, hugePayload)].map appendCall ++ [Call.sync])).1.disk
      (applyCalls exampleEngine ([(false, hugePayload)].map appendCall ++ [Call.sync])).1.currSegment
      = some (frameBytes (Marshal ⟨1, hugePayload, ChecksumIEEE hugePayload, none⟩) ++ []) := by
    rw [h2, h3, hbuilt]; rfl
  refine ⟨by decide, h1, ?_⟩
  rw [ReadAll_of_file _ _ hfile]
  obtain ⟨b1, b2⟩ := Marshal_hugePayload_length 1 none
  exact readAllLoop_frame_large _ _ _ _ b1 b2

/-- C1, amended. Payloads written to a freshly opened empty log with `WriteEntry` or
`WriteEntryWithCheckpoint`, in any mix, and followed by `Sync`: every call
returns nil, and `ReadAll` on the same engine returns one entry per write in
write order; the entry at index `i` (the `i+1`-th write) carries that write's
payload, sequence number `i + 1`, the CRC-32 of the payload, and a checkpoint
flag that is set exactly for a checkpoint write.  The payloads are such that
every encoded entry fits the signed 32-bit length word of a frame, and the
number of writes is below `2 ^ 64`, the range of the counter. -/
theorem ReadAll_returns_writes (cfg : WALConfig) (env : Env) (fs : FS) (w0 : WAL)
    (ws : List (Bool × List Nat))
    (hinit : InitWAL cfg env fs = Res.ok w0)
    (hempty : readFile w0.disk w0.currSegment = some [])
    (hsize : ∀ x ∈ ws, x.2.length + 25 < 2 ^ 31)
    (hcount : ws.length < 2 ^ 64) :
    (∀ r ∈ (applyCalls w0 (ws.map appendCall ++ [Call.sync])).2, r = none) ∧
      ReadAll (applyCalls w0 (ws.map appendCall ++ [Call.sync])).1
        = Res.ok (ws.enum.map (fun ix =>
            ({ LogSeqNumber := ix.1 + 1, Data := ix.2.2, CRC := ChecksumIEEE ix.2.2,
               IsCheckpoint := if ix.2.1 then some true else none } : WAL_Entry))) := by
  obtain ⟨hh, hseq, hlog⟩ := InitWAL_empty cfg env fs w0 hinit hempty
  obtain ⟨h1, _, _, _, h5⟩ := ReadAll_applyCalls_sync w0 (ws.map appendCall) hh
    (by rw [hseq]; norm_num) hlog (appendCall_payload ws _ hsize)
  refine ⟨h1, ?_⟩
  rw [h5, hseq, builtEntries_enum ws hcount]

theorem ReadAll_returns_writes_witness :
    InitWAL (CreateDefaultWALConfig "wal") noFaults [] = Res.ok exampleEngine ∧
    ReadAll (applyCalls exampleEngine
        ([(false, [104, 105]), (true, [33])].map appendCall ++ [Call.sync])).1
      = Res.ok [⟨1, [104, 105], ChecksumIEEE [104, 105], none⟩,
                ⟨2, [33], ChecksumIEEE [33], some true⟩] :=
  ⟨by decide,
   (ReadAll_returns_writes (CreateDefaultWALConfig "wal") noFaults [] exampleEngine
      [(false, [104, 105]), (true, [33])] (by decide) (by decide) (by decide) (by decide)).2⟩

/-- C2. Round trip of an entry: for every payload, every sequence number and
every state of the checkpoint flag, `unmarshalAndVerifyEntry` applied to the
body that `writeEntryToBuffer` marshals for the entry with checksum
`ChecksumIEEE payload` succeeds and returns that entry, equal in all four
fields. -/
theorem unmarshalAndVerifyEntry_roundtrip (payload : List Nat) (seq : Nat) (flag : Option Bool)
    (hseq : seq < 2 ^ 64) (hlen : payload.length < 2 ^ 64) :
    unmarshalAndVerifyEntry
        (Marshal { LogSeqNumber := seq, Data := payload, CRC := ChecksumIEEE payload,
                   IsCheckpoint := flag })
      = Res.ok { LogSeqNumber := seq, Data := payload, CRC := ChecksumIEEE payload,
                 IsCheckpoint := flag } :=
  unmarshalAndVerifyEntry_Marshal _ hseq rfl hlen

theorem unmarshalAndVerifyEntry_roundtrip_witness :
    (7 < 2 ^ 64 ∧ [1, 2, 3].length < 2 ^ 64) ∧
    unmarshalAndVerifyEntry (Marshal ⟨7, [1, 2, 3], ChecksumIEEE [1, 2, 3], some true⟩)
      = Res.ok ⟨7, [1, 2, 3], ChecksumIEEE [1, 2, 3], some true⟩ :=
  ⟨by decide, unmarshalAndVerifyEntry_roundtrip [1, 2, 3] 7 (some true) (by decide) (by decide)⟩

/-- C3. Monotonic sequencing: on an engine freshly opened over an empty
segment every one of `N` append calls (`WriteEntry` or
`WriteEntryWithCheckpoint`, `N` below `2 ^ 64`) returns nil; after the first
`k` calls the counter, which is the number the `k`-th call put in its entry,
is exactly `k`; and the bytes the engine accepted are the frames of entries
numbered `1, 2, ..., N` in call order. -/
theorem sequence_numbers_one_to_N (cfg : WALConfig) (env : Env) (fs : FS) (w0 : WAL)
    (ws : List (Bool × List Nat)) (k : Nat)
    (hinit : InitWAL cfg env fs = Res.ok w0)
    (hempty : readFile w0.disk w0.currSegment = some [])
    (hcount : ws.length < 2 ^ 64) (hk : k ≤ ws.length) :
    (∀ r ∈ (applyCalls w0 (ws.map appendCall)).2, r = none) ∧
      (applyCalls w0 ((ws.take k).map appendCall)).1.lastSeqNo = k ∧
      logBytes (applyCalls w0 (ws.map appendCall)).1
        = framesBytes ((ws.enum.map (fun ix =>
            ({ LogSeqNumber := ix.1 + 1, Data := ix.2.2, CRC := ChecksumIEEE ix.2.2,
               IsCheckpoint := if ix.2.1 then some true else none } : WAL_Entry))).map Marshal) := by
  obtain ⟨hh, hseq, hlog⟩ := InitWAL_empty cfg env fs w0 hinit hempty
  have hs : w0.lastSeqNo < 2 ^ 64 := by rw [hseq]; norm_num
  obtain ⟨a1, _, _, _, a5⟩ := applyCalls_healthy (ws.map appendCall) w0 hh hs
  obtain ⟨_, _, _, b4, _⟩ := applyCalls_healthy ((ws.take k).map appendCall) w0 hh hs
  refine ⟨a1, ?_, ?_⟩
  · rw [b4, hseq, builtEntries_appendCalls]
    simp only [List.length_map, List.enumFrom_length, List.length_take, Nat.zero_add]
    rw [Nat.min_eq_left hk]
    exact Nat.mod_eq_of_lt (by omega)
  · rw [a5, hlog, hseq, builtEntries_enum ws hcount, List.nil_append]

theorem sequence_numbers_one_to_N_witness :
    InitWAL (CreateDefaultWALConfig "wal") noFaults [] = Res.ok exampleEngine ∧
    (applyCalls exampleEngine (([(false, [1]), (true, [2]), (false, [])].take 2).map appendCall)).1.lastSeqNo
      = 2 :=
  ⟨by decide,
   (sequence_numbers_one_to_N (CreateDefaultWALConfig "wal") noFaults [] exampleEngine
      [(false, [1]), (true, [2]), (false, [])] 2 (by decide) (by decide) (by decide)
      (by decide)).2.1⟩

/-- C5. Checksum validity of exposed entries: whatever bytes the segment file
holds, an entry in the list of a successful `ReadAll` and the entry returned
by the recovery scan `getLastEntryInLog` have a checksum field equal to the
CRC-32 (IEEE) of their payload. -/
theorem exposed_entry_checksum_valid (w : WAL) (es : List WAL_Entry) (e : WAL_Entry)
    (hexposed : (ReadAll w = Res.ok es ∧ e ∈ es) ∨ getLastEntryInLog w = Res.ok (some e)) :
    e.CRC = ChecksumIEEE e.Data := by
  rcases hexposed with ⟨hr, he⟩ | hl
  · unfold ReadAll at hr
    split at hr
    · cases hr
    · exact readAllLoop_crc _ _ [] es (by simp) hr e he
  · unfold getLastEntryInLog at hl
    split at hl
    · cases hl
    · exact getLastEntryLoop_crc _ _ none e (by simp) hl

theorem exposed_entry_checksum_valid_witness :
    ReadAll { exampleEngine with disk := [(segmentName 0, [2, 0, 0, 0, 8, 5])] }
        = Res.ok [⟨5, [], 0, none⟩] ∧
      (⟨5, [], 0, none⟩ : WAL_Entry).CRC = ChecksumIEEE (⟨5, [], 0, none⟩ : WAL_Entry).Data :=
  ⟨by decide,
   exposed_entry_checksum_valid { exampleEngine with disk := [(segmentName 0, [2, 0, 0, 0, 8, 5])] }
     [⟨5, [], 0, none⟩] ⟨5, [], 0, none⟩ (Or.inl ⟨by decide, by decide⟩)⟩

/-- C7, at the failing input: a segment whose first length word is FF FF FF FF
(the `int32` -1) makes the recovery scan `getLastEntryInLog` panic at
`make([]byte, size)`, and `InitWAL` with it; the scan does not return. -/
theorem getLastEntryInLog_panics_on_negative_length :
    getLastEntryInLog { exampleEngine with disk := [(segmentName 0, [255, 255, 255, 255])] }
        = Res.panic ∧
      InitWAL (CreateDefaultWALConfig "wal") noFaults
          [("wal".toList, [(segmentName 0, [255, 255, 255, 255])])]
        = Res.panic := by
  decide

/-- C8. Strict read rejects a damaged tail: when the segment holds `K >= 0`
valid framed records followed by a non-empty proper initial part of a frame,
`ReadAll` returns an error, and with it no entry list. -/
theorem ReadAll_rejects_damaged_tail (w : WAL) (records : List (List Nat × WAL_Entry))
    (body : List Nat) (n : Nat)
    (hvalid : ∀ r ∈ records, r.1.length < 2 ^ 31 ∧ unmarshalAndVerifyEntry r.1 = Res.ok r.2)
    (hbody : body.length < 2 ^ 31) (h0 : 0 < n) (hn : n < (frameBytes body).length)
    (hfile : readFile w.disk w.currSegment
      = some (framesBytes (records.map Prod.fst) ++ (frameBytes body).take n)) :
    ∃ e, ReadAll w = Res.error e := by
  unfold ReadAll
  rw [hfile]
  simp only
  rw [readAllLoop_frames records _ _ [] hvalid (by omega)]
  exact readAllLoop_truncated _ _ _ (isTruncatedTail_take body n hbody h0 hn)

theorem ReadAll_rejects_damaged_tail_witness :
    ∃ e, ReadAll { exampleEngine with disk := [(segmentName 0, [2, 0, 0, 0, 8, 5, 2, 0, 0, 0, 8])] }
      = Res.error e :=
  ReadAll_rejects_damaged_tail
    { exampleEngine with disk := [(segmentName 0, [2, 0, 0, 0, 8, 5, 2, 0, 0, 0, 8])] }
    [([8, 5], ⟨5, [], 0, none⟩)] [8, 6] 5
    (by decide) (by decide) (by decide) (by decide) (by decide)

/-- C9, counterexample, in two parts.  First, a fresh log, `WriteEntry` with a
payload `A1` of 2 GiB, `WriteEntry(A2)`, `WriteEntryWithCheckpoint(C)` with
empty `A2` and `C`, then `Sync`.  All four calls return nil, and reopening
the engine on the same directory does not succeed: the recovery scan of
`InitWAL` panics at the negative length of the first frame.  Second, the
same calls with one-byte payloads in a directory named `w[a]l`: all four
calls return nil, and on reopening the glob of `prepareCurrentSegment` reads
the directory as a pattern and matches nothing, `os.Create` empties the
segment, and `ReadAll` returns no entry. -/
theorem InitWAL_panics_after_huge_write :
    (InitWAL (CreateDefaultWALConfig "wal") noFaults [] = Res.ok exampleEngine ∧
      (∀ r ∈ (applyCalls exampleEngine
          ([Call.write hugePayload, Call.write [], Call.checkpoint []] ++ [Call.sync])).2,
          r = none) ∧
      InitWAL (CreateDefaultWALConfig "wal") noFaults (fsAfter [] "wal".toList
          (applyCalls exampleEngine
            ([Call.write hugePayload, Call.write [], Call.checkpoint []] ++ [Call.sync])).1.disk)
        = Res.panic) ∧
    (InitWAL (CreateDefaultWALConfig "w[a]l") noFaults []
        = Res.ok { exampleEngine with directory := "w[a]l" } ∧
      (∀ r ∈ (applyCalls { exampleEngine with directory := "w[a]l" }
          [Call.write [1], Call.write [2], Call.checkpoint [3], Call.sync]).2, r = none) ∧
      ReadAll (applyCalls { exampleEngine with directory := "w[a]l" }
          [Call.write [1], Call.write [2], Call.checkpoint [3], Call.sync]).1
        = Res.ok [⟨1, [1], ChecksumIEEE [1], none⟩, ⟨2, [2], ChecksumIEEE [2], none⟩,
            ⟨3, [3], ChecksumIEEE [3], some true⟩] ∧
      ∃ w1, InitWAL (CreateDefaultWALConfig "w[a]l") noFaults (fsAfter [] "w[a]l".toList
          (applyCalls { exampleEngine with directory := "w[a]l" }
            [Call.write [1], Call.write [2], Call.checkpoint [3], Call.sync]).1.disk)
          = Res.ok w1 ∧
        ReadAll w1 = Res.ok []) := by
  obtain ⟨h1, h2, h3⟩ := file_after_sync exampleEngine
    [Call.write hugePayload, Call.write [], Call.checkpoint []]
    healthy_exampleEngine (by decide) (by decide)
  have hbuilt : builtEntries exampleEngine.lastSeqNo
      [Call.write hugePayload, Call.write [], Call.checkpoint []]
      = [⟨1, hugePayload, ChecksumIEEE hugePayload, none⟩, ⟨2, [], ChecksumIEEE [], none⟩,
         ⟨3, [], ChecksumIEEE [], some true⟩] := rfl
  have hfile : readFile (applyCalls exampleEngine
      ([Call.write hugePayload, Call.write [], Call.checkpoint []] ++ [Call.sync])).1.disk
      (segmentName 0)
      = some (frameBytes (Marshal ⟨1, hugePayload, ChecksumIEEE hugePayload, none⟩)
          ++ (frameBytes (Marshal ⟨2, [], ChecksumIEEE [], none⟩)
            ++ (frameBytes (Marshal ⟨3, [], ChecksumIEEE [], some true⟩) ++ []))) := by
    rw [show segmentName 0 = exampleEngine.currSegment from rfl, h3, hbuilt]; rfl
  refine ⟨⟨by decide, h1, ?_⟩, by decide, by decide, by decide, _, rfl, by decide⟩
  obtain ⟨b1, b2⟩ := Marshal_hugePayload_length 1 none
  have hplain : plainDir (fsAfter [] "wal".toList (applyCalls exampleEngine
      ([Call.write hugePayload, Call.write [], Call.checkpoint []] ++ [Call.sync])).1.disk)
      (CreateDefaultWALConfig "wal").Directory.toList :=
    plainDir_after_calls _
  have hfile2 := hfile
  rw [← fsFiles_fsAfter [] "wal".toList (applyCalls exampleEngine
    ([Call.write hugePayload, Call.write [], Call.checkpoint []] ++ [Call.sync])).1.disk]
    at hfile2
  exact InitWAL_panics_of_segment _ _ _ 0 _ (by decide) hplain
    (prepareCurrentSegment_after_calls _) hfile2
    (getLastEntryLoop_frame_large _ _ _ _ b1 b2)

/-- C9, amended. Checkpoint ordering across restart in a plain directory (its
path holds none of the characters that are special in a glob pattern, and no
system call of `InitWAL` fails): on a fresh log, after `WriteEntry(A1)`,
`WriteEntry(A2)`, `WriteEntryWithCheckpoint(C)` and `Sync` (all four return
nil), `InitWAL` on the file system the engine leaves behind selects the same
segment, and `ReadAll` on the reopened engine returns exactly three entries
with payloads `A1`, `A2`, `C` in that order, numbered 1, 2, 3, with the
checkpoint flag true on `C` and false on `A1` and `A2`.  The payloads are
such that every encoded entry fits the signed 32-bit length word of a
frame. -/
theorem checkpoint_order_across_restart (cfg : WALConfig) (fs : FS) (w0 : WAL)
    (A1 A2 C : List Nat)
    (hplain : plainDir fs cfg.Directory.toList)
    (hfresh : globSegments (fsFiles fs (Clean cfg.Directory.toList)) = [])
    (hinit : InitWAL cfg noFaults fs = Res.ok w0)
    (h1 : A1.length + 25 < 2 ^ 31) (h2 : A2.length + 25 < 2 ^ 31) (h3 : C.length + 25 < 2 ^ 31) :
    (∀ r ∈ (applyCalls w0
        [Call.write A1, Call.write A2, Call.checkpoint C, Call.sync]).2, r = none) ∧
    ∃ w1 es, InitWAL cfg noFaults (fsAfter fs cfg.Directory.toList (applyCalls w0
        [Call.write A1, Call.write A2, Call.checkpoint C, Call.sync]).1.disk) = Res.ok w1 ∧
      w1.currSegment = w0.currSegment ∧
      ReadAll w1 = Res.ok es ∧
      es = [⟨1, A1, ChecksumIEEE A1, none⟩, ⟨2, A2, ChecksumIEEE A2, none⟩,
            ⟨3, C, ChecksumIEEE C, some true⟩] ∧
      es.map WAL_Entry.GetIsCheckpoint = [false, false, true] := by
  obtain ⟨hseg, hd0, hempty, hdir⟩ := InitWAL_fresh cfg noFaults fs w0 hplain hfresh hinit
  obtain ⟨hh, hseq, hlog⟩ := InitWAL_empty cfg noFaults fs w0 hinit hempty
  have hs : w0.lastSeqNo < 2 ^ 64 := by rw [hseq]; norm_num
  have hsize : ∀ c ∈ [Call.write A1, Call.write A2, Call.checkpoint C],
      c.payload.length + 25 < 2 ^ 31 := by
    intro c hc
    simp only [List.mem_cons, List.mem_singleton, List.not_mem_nil, or_false] at hc
    rcases hc with rfl | rfl | rfl
    · exact h1
    · exact h2
    · exact h3
  have hcalls : [Call.write A1, Call.write A2, Call.checkpoint C, Call.sync]
      = [Call.write A1, Call.write A2, Call.checkpoint C] ++ [Call.sync] := rfl
  rw [hcalls]
  obtain ⟨hok, _, _, _, _⟩ := ReadAll_applyCalls_sync w0 _ hh hs hlog hsize
  -- the directory left behind
  obtain ⟨_, extra, hdisk⟩ :=
    applyCalls_disk ([Call.write A1, Call.write A2, Call.checkpoint C] ++ [Call.sync]) w0
  have hglob : globSegments
      (applyCalls w0 ([Call.write A1, Call.write A2, Call.checkpoint C] ++ [Call.sync])).1.disk
      = [segmentName 0] := by
    rw [hdisk, globSegments_appendFile, hd0]
    unfold globSegments at hfresh ⊢
    rw [List.map_append, List.filter_append, hfresh]
    decide
  have hnames : ∀ n ∈ (applyCalls w0
      ([Call.write A1, Call.write A2, Call.checkpoint C] ++ [Call.sync])).1.disk.map Prod.fst,
      '/' ∉ n := by
    rw [hdisk, appendFile_names, hd0, List.map_append]
    intro n hn
    rcases List.mem_append.mp hn with hn | hn
    · exact hplain.2.1 n hn
    · simp only [List.map_cons, List.map_nil, List.mem_singleton] at hn
      rw [hn]; decide
  have hprep := prepareCurrentSegment_single noFaults _ _
    (plainDir_fsAfter fs cfg.Directory.toList _ hplain hnames) (fsIsDir_fsAfter _ _ _)
    (by rw [fsFiles_fsAfter]; exact hglob)
  obtain ⟨w1, hw1, hc1, hr1⟩ :=
    reopen_after_sync cfg fs w0 _ 0 hdir hplain hh hs hlog hseg hprep hsize
  refine ⟨hok, w1, _, hw1, hc1, hr1, ?_, ?_⟩
  · rw [hseq]; rfl
  · rw [hseq]; rfl

theorem checkpoint_order_across_restart_witness :
    InitWAL (CreateDefaultWALConfig "wal") noFaults [] = Res.ok exampleEngine ∧
    ∃ w1 es, InitWAL (CreateDefaultWALConfig "wal") noFaults (fsAfter [] "wal".toList
        (applyCalls exampleEngine
          [Call.write [1], Call.write [2], Call.checkpoint [3], Call.sync]).1.disk) = Res.ok w1 ∧
      w1.currSegment = exampleEngine.currSegment ∧ ReadAll w1 = Res.ok es ∧
      es = [⟨1, [1], ChecksumIEEE [1], none⟩, ⟨2, [2], ChecksumIEEE [2], none⟩,
            ⟨3, [3], ChecksumIEEE [3], some true⟩] ∧
      es.map WAL_Entry.GetIsCheckpoint = [false, false, true] :=
  ⟨by decide,
   (checkpoint_order_across_restart (CreateDefaultWALConfig "wal") [] exampleEngine [1] [2] [3]
      (by decide) (by decide) (by decide) (by decide) (by decide) (by decide)).2⟩

/-- C10, counterexample: on the engine `InitWAL` returns for an empty
directory, 127 calls `WriteEntry` with an empty payload, one `WriteEntry`
with the payload `wrapPayload` of `2 ^ 32 - 15` bytes, and `Sync`.  Every
call returns nil.  The entry of the last write is marshalled to exactly
`2 ^ 32` bytes, so the length word of its frame is 0 (`int32(len)` keeps the
low 32 bits).  `ReadAll` succeeds: it returns the 127 entries numbered 1 to
127, then an entry numbered 0 for the frame of length 0, and three entries
more numbered 0, read from the bytes of the marshalled entry itself.  The
sequence numbers returned are not strictly increasing. -/
theorem ReadAll_repeats_sequence_number :
    wrapPayload.length = 2 ^ 32 - 15 ∧ (∀ b ∈ wrapPayload, b < 256) ∧
    InitWAL (CreateDefaultWALConfig "wal") noFaults [] = Res.ok exampleEngine ∧
    readFile exampleEngine.disk exampleEngine.currSegment = some [] ∧
    (Marshal ⟨128, wrapPayload, ChecksumIEEE wrapPayload, none⟩).length = 2 ^ 32 ∧
    putInt32LE (toInt32 (2 ^ 32)) = [0, 0, 0, 0] ∧
    (∀ r ∈ (applyCalls exampleEngine
        (List.replicate 127 (Call.write []) ++ [Call.write wrapPayload] ++ [Call.sync])).2,
      r = none) ∧
    (builtEntries 0 (List.replicate 127 (Call.write []))).map WAL_Entry.LogSeqNumber
      = List.range' 1 127 ∧
    ReadAll (applyCalls exampleEngine
        (List.replicate 127 (Call.write []) ++ [Call.write wrapPayload] ++ [Call.sync])).1
      = Res.ok (builtEntries 0 (List.replicate 127 (Call.write []))
          ++ [⟨0, [], 0, none⟩, ⟨0, [], 0, none⟩, ⟨0, [], 0, none⟩, ⟨0, [], 0, none⟩]) ∧
    ¬ List.Pairwise (fun a b : WAL_Entry => a.LogSeqNumber < b.LogSeqNumber)
      (builtEntries 0 (List.replicate 127 (Call.write []))
        ++ [⟨0, [], 0, none⟩, ⟨0, [], 0, none⟩, ⟨0, [], 0, none⟩, ⟨0, [], 0, none⟩]) := by
  have hc1 : 2 ^ 28 ≤ ChecksumIEEE wrapPayload := ChecksumIEEE_low_byte wrapStart
  have hc2 : ChecksumIEEE wrapPayload < 2 ^ 32 := ChecksumIEEE_lt _
  have hlen : wrapPayload.length = 4294967281 := wrapPayload_length
  obtain ⟨B1, B2, B3, hframe0, hB⟩ := wrap_frames_valid (List.replicate 8 0)
    (List.replicate 302088181 0) (List.replicate 1999999994 0) (List.replicate 1992879071 0)
    (wrapStart.foldl crcUpdateByte 0xFFFFFFFF % 256) (ChecksumIEEE wrapPayload)
    (List.length_replicate _ _) (List.length_replicate _ _) (List.length_replicate _ _)
    (List.length_replicate _ _) hc1 hc2
  have hframe : frameBytes (Marshal ⟨128, wrapPayload, ChecksumIEEE wrapPayload, none⟩)
      = framesBytes [[], B1, B2, B3] := hframe0
  have hMlen : (Marshal ⟨128, wrapPayload, ChecksumIEEE wrapPayload, none⟩).length = 2 ^ 32 :=
    Marshal_wrap_length wrapPayload _ hlen hc1 hc2
  -- the run of calls
  obtain ⟨h1, h2, h3⟩ := file_after_sync exampleEngine
    (List.replicate 127 (Call.write []) ++ [Call.write wrapPayload])
    healthy_exampleEngine (by decide) (by decide)
  have hbuilt : builtEntries exampleEngine.lastSeqNo
      (List.replicate 127 (Call.write []) ++ [Call.write wrapPayload])
      = builtEntries 0 (List.replicate 127 (Call.write []))
        ++ [⟨128, wrapPayload, ChecksumIEEE wrapPayload, none⟩] := by
    show builtEntries 0 _ = _
    rw [builtEntries_append]
    rw [(builtEntries_replicate 127 0 (by norm_num)).1]
    rfl
  have hE : ∀ e ∈ builtEntries 0 (List.replicate 127 (Call.write [])),
      (Marshal e).length < 2 ^ 31 ∧ unmarshalAndVerifyEntry (Marshal e) = Res.ok e :=
    builtEntries_decodable _ 0 (by
      intro c hc
      rw [List.eq_of_mem_replicate hc]
      decide)
  have hfile : readFile (applyCalls exampleEngine
      (List.replicate 127 (Call.write []) ++ [Call.write wrapPayload] ++ [Call.sync])).1.disk
      (applyCalls exampleEngine
        (List.replicate 127 (Call.write []) ++ [Call.write wrapPayload]
          ++ [Call.sync])).1.currSegment
      = some (framesBytes ((builtEntries 0 (List.replicate 127 (Call.write []))).map Marshal
          ++ [Marshal ⟨128, wrapPayload, ChecksumIEEE wrapPayload, none⟩])) := by
    rw [h2, h3, hbuilt, List.map_append]
    rfl
  refine ⟨wrapPayload_length, wrapPayload_bytes, by decide, by decide, hMlen, by decide, h1,
    (builtEntries_replicate 127 0 (by norm_num)).2, ReadAll_wrapped_frame _ _ _ B1 B2 B3 hfile hE hframe hB, ?_⟩
  intro hp
  have h4 := (List.pairwise_append.mp hp).2.1
  rw [List.pairwise_cons] at h4
  exact absurd (h4.1 _ (List.mem_cons_self _ _)) (by decide)

/-- C10, amended. Sequence order on disk: for every sequence of `WriteEntry`,
`WriteEntryWithCheckpoint` and `Sync` calls on an engine opened on an empty
segment, whenever `ReadAll` succeeds, the entries it returns have strictly
increasing sequence numbers in file order.  The payloads are shorter than
4 GiB less 25 bytes, so that the length of an encoded entry fits 32 bits,
and the number of calls is below `2 ^ 64`, the range of the counter. -/
theorem ReadAll_sequence_numbers_increase (cfg : WALConfig) (env : Env) (fs : FS) (w0 : WAL)
    (calls : List Call) (es : List WAL_Entry)
    (hinit : InitWAL cfg env fs = Res.ok w0)
    (hempty : readFile w0.disk w0.currSegment = some [])
    (hsize : ∀ c ∈ calls, c.payload.length + 25 < 2 ^ 32)
    (hcount : calls.length < 2 ^ 64)
    (hread : ReadAll (applyCalls w0 calls).1 = Res.ok es) :
    List.Pairwise (fun a b : WAL_Entry => a.LogSeqNumber < b.LogSeqNumber) es := by
  obtain ⟨hh, hseq, hlog⟩ := InitWAL_empty cfg env fs w0 hinit hempty
  obtain ⟨_, a2, _, _, a5⟩ := applyCalls_healthy calls w0 hh (by rw [hseq]; norm_num)
  rw [hlog, hseq, List.nil_append] at a5
  obtain ⟨file, hfile⟩ := Option.isSome_iff_exists.mp a2.2.2.2
  have hcat : file ++ (applyCalls w0 calls).1.bufWriter
      = framesBytes ((builtEntries 0 calls).map Marshal) := by
    rw [← a5]; simp [logBytes, hfile]
  have hdec := builtEntries_decodable_wide calls 0 hsize
  have hvalid : ∀ r ∈ (builtEntries 0 calls).map (fun x => (Marshal x, x)),
      r.1.length < 2 ^ 32 ∧ unmarshalAndVerifyEntry r.1 = Res.ok r.2 := by
    intro r hr
    simp only [List.mem_map] at hr
    obtain ⟨x, hx, rfl⟩ := hr
    exact hdec x hx
  have hm1 : ((builtEntries 0 calls).map (fun x => (Marshal x, x))).map Prod.fst
      = (builtEntries 0 calls).map Marshal := by
    simp [List.map_map, Function.comp_def]
  unfold ReadAll at hread
  rw [hfile] at hread
  obtain ⟨k, hk⟩ := readAllLoop_initial_part_wide _ file _ [] es hvalid (by rw [hm1]; exact hcat) hread
  have hes : es = (builtEntries 0 calls).take k := by
    rw [hk, List.nil_append, ← List.map_take, List.map_map]
    simp [Function.comp_def]
  have hinc := (builtEntries_increasing calls 0 (by
    have := builtEntries_length_le calls 0
    omega)).2
  rw [hes]
  exact List.Pairwise.sublist (List.take_sublist _ _) hinc

theorem ReadAll_sequence_numbers_increase_witness :
    InitWAL (CreateDefaultWALConfig "wal") noFaults [] = Res.ok exampleEngine ∧
    ReadAll (applyCalls exampleEngine
        [Call.write [1], Call.checkpoint [2], Call.write [], Call.sync, Call.write [3]]).1
      = Res.ok [⟨1, [1], ChecksumIEEE [1], none⟩, ⟨2, [2], ChecksumIEEE [2], some true⟩,
          ⟨3, [], 0, none⟩] ∧
    List.Pairwise (fun a b : WAL_Entry => a.LogSeqNumber < b.LogSeqNumber)
      [⟨1, [1], ChecksumIEEE [1], none⟩, ⟨2, [2], ChecksumIEEE [2], some true⟩,
        ⟨3, [], 0, none⟩] :=
  ⟨by decide, by decide,
   ReadAll_sequence_numbers_increase (CreateDefaultWALConfig "wal") noFaults [] exampleEngine
      [Call.write [1], Call.checkpoint [2], Call.write [], Call.sync, Call.write [3]]
      [⟨1, [1], ChecksumIEEE [1], none⟩, ⟨2, [2], ChecksumIEEE [2], some true⟩,
        ⟨3, [], 0, none⟩]
      (by decide) (by decide) (by decide) (by decide) (by decide)⟩

/-- C11, counterexample: on the engine `InitWAL` returns for an empty
directory, one `WriteEntry` with a payload of 5000 bytes returns nil and,
with no `Sync`, leaves the first 4096 bytes of the frame in the segment file
(the frame is longer than the buffer of the `bufio.Writer`, which writes
through).  `ReadAll` returned the empty list before the call and returns an
error after it. -/
theorem WriteEntry_long_frame_reaches_file :
    InitWAL (CreateDefaultWALConfig "wal") noFaults [] = Res.ok exampleEngine ∧
    (WriteEntry exampleEngine (List.replicate 5000 7)).2 = none ∧
    readFile exampleEngine.disk exampleEngine.currSegment = some [] ∧
    ReadAll exampleEngine = Res.ok [] ∧
    (∃ file, readFile (WriteEntry exampleEngine (List.replicate 5000 7)).1.disk
        exampleEngine.currSegment = some file ∧ file.length = 4096) ∧
    (∃ err, ReadAll (WriteEntry exampleEngine (List.replicate 5000 7)).1 = Res.error err) := by
  have hlen : (List.replicate 5000 7 : List Nat).length = 5000 := List.length_replicate _ _
  generalize (List.replicate 5000 7 : List Nat) = data at hlen
  have hge := Marshal_length_ge ⟨1, data, ChecksumIEEE data, none⟩
  have hle := Marshal_length_le ⟨1, data, ChecksumIEEE data, none⟩
    (by show data.length < 2 ^ 35; rw [hlen]; norm_num)
  have hd : (⟨1, data, ChecksumIEEE data, none⟩ : WAL_Entry).Data.length = 5000 := hlen
  rw [hd] at hge hle
  have hfl := frameBytes_length (Marshal ⟨1, data, ChecksumIEEE data, none⟩)
  have hw : WriteEntry exampleEngine data
      = ({ exampleEngine with
            lastSeqNo := 1,
            disk := appendFile exampleEngine.disk exampleEngine.currSegment
              ((frameBytes (Marshal ⟨1, data, ChecksumIEEE data, none⟩)).take defaultBufSize),
            bufWriter := (frameBytes (Marshal ⟨1, data, ChecksumIEEE data, none⟩)).drop
              defaultBufSize }, none) :=
    writeEntryToBuffer_spill { exampleEngine with lastSeqNo := 1 }
      ⟨1, data, ChecksumIEEE data, none⟩ healthy_exampleEngine rfl
      (by rw [hfl]; show 4096 < _; omega) (by rw [hfl]; show _ ≤ 2 * 4096; omega)
  have hfile : readFile (WriteEntry exampleEngine data).1.disk exampleEngine.currSegment
      = some ((frameBytes (Marshal ⟨1, data, ChecksumIEEE data, none⟩)).take 4096) := by
    rw [hw]
    show readFile (appendFile exampleEngine.disk exampleEngine.currSegment _) _ = _
    rw [readFile_appendFile]
    rfl
  refine ⟨by decide, by rw [hw], by decide, by decide, ⟨_, hfile, ?_⟩, ?_⟩
  · rw [List.length_take, hfl]; omega
  · have hseg : (WriteEntry exampleEngine data).1.currSegment = exampleEngine.currSegment := by
      rw [hw]
    rw [ReadAll_of_file _ _ (by rw [hseg]; exact hfile)]
    exact readAllLoop_truncated _ _ _
      (isTruncatedTail_take _ 4096 (by omega) (by norm_num) (by rw [hfl]; omega))

/-- C11, amended. A `WriteEntry` that returns nil and whose frame (the four
length bytes and the encoded entry) fits the free space of the 4096-byte
buffer, in any engine state: the directory is left as it is, so `ReadAll`
returns what it returned before the call, and the frame stands at the end of
the buffer.  When the next `Sync` returns nil, it has put the buffer, frame
included, behind the segment file; if `ReadAll` returned `es` before the call
and the bytes buffered before the call are the frames of entries `ps` that
decode, `ReadAll` then returns `es`, `ps` and the new entry. -/
theorem WriteEntry_invisible_until_Sync (w : WAL) (data : List Nat)
    (hok : (WriteEntry w data).2 = none)
    (hfit : w.bufWriter.length + (frameBytes (Marshal
        ⟨(w.lastSeqNo + 1) % 2 ^ 64, data, ChecksumIEEE data, none⟩)).length ≤ defaultBufSize) :
    (WriteEntry w data).1.disk = w.disk ∧
      (WriteEntry w data).1.currSegment = w.currSegment ∧
      ReadAll (WriteEntry w data).1 = ReadAll w ∧
      (WriteEntry w data).1.bufWriter = w.bufWriter ++ frameBytes (Marshal
        ⟨(w.lastSeqNo + 1) % 2 ^ 64, data, ChecksumIEEE data, none⟩) ∧
      ((Sync (WriteEntry w data).1).2 = none →
        (Sync (WriteEntry w data).1).1.disk = appendFile w.disk w.currSegment
          (w.bufWriter ++ frameBytes (Marshal
            ⟨(w.lastSeqNo + 1) % 2 ^ 64, data, ChecksumIEEE data, none⟩)) ∧
        ∀ es ps : List WAL_Entry, ReadAll w = Res.ok es →
          w.bufWriter = framesBytes (ps.map Marshal) →
          (∀ p ∈ ps, (Marshal p).length < 2 ^ 31 ∧
            unmarshalAndVerifyEntry (Marshal p) = Res.ok p) →
          ReadAll (Sync (WriteEntry w data).1).1
            = Res.ok (es ++ ps ++ [⟨(w.lastSeqNo + 1) % 2 ^ 64, data, ChecksumIEEE data, none⟩])) := by
  generalize he : (⟨(w.lastSeqNo + 1) % 2 ^ 64, data, ChecksumIEEE data, none⟩ : WAL_Entry) = e
    at hfit ⊢
  have hwe : WriteEntry w data
      = writeEntryToBuffer { w with lastSeqNo := (w.lastSeqNo + 1) % 2 ^ 64 } e := by
    rw [← he]; rfl
  obtain ⟨h1, h2, h3⟩ := writeEntryToBuffer_fits
    { w with lastSeqNo := (w.lastSeqNo + 1) % 2 ^ 64 } e hfit
  rw [hwe] at hok ⊢
  have h4 := h3 hok
  refine ⟨h1, h2, ?_, by rw [h4], ?_⟩
  · unfold ReadAll; rw [h1, h2]
  · intro hs
    have hso := Sync_ok _ hs
    have hdisk : (Sync (writeEntryToBuffer
        { w with lastSeqNo := (w.lastSeqNo + 1) % 2 ^ 64 } e).1).1.disk
        = appendFile w.disk w.currSegment (w.bufWriter ++ frameBytes (Marshal e)) := by
      rw [hso, h4]
    have hseg : (Sync (writeEntryToBuffer
        { w with lastSeqNo := (w.lastSeqNo + 1) % 2 ^ 64 } e).1).1.currSegment
        = w.currSegment := by
      rw [hso, h4]
    refine ⟨hdisk, ?_⟩
    intro es ps hread hbuf hps
    unfold ReadAll at hread ⊢
    rw [hdisk, hseg, readFile_appendFile]
    cases hf : readFile w.disk w.currSegment with
    | none => rw [hf] at hread; cases hread
    | some file =>
      rw [hf] at hread
      simp only [Option.map_some'] at hread ⊢
      rw [readAllLoop_append _ file _ [] es (Nat.lt_succ_self _) hread]
      -- the buffer and the new frame, as one run of frames
      have hev : (Marshal e).length < 2 ^ 31 ∧ unmarshalAndVerifyEntry (Marshal e) = Res.ok e := by
        have hl := frameBytes_length (Marshal e)
        have hD : defaultBufSize = 4096 := rfl
        have hge := Marshal_length_ge e
        refine ⟨by omega, unmarshalAndVerifyEntry_Marshal e ?_ ?_ ?_⟩
        · rw [← he]; exact Nat.mod_lt _ (by norm_num)
        · rw [← he]
        · omega
      have hrun : w.bufWriter ++ frameBytes (Marshal e)
          = framesBytes (((ps ++ [e]).map (fun x => (Marshal x, x))).map Prod.fst) ++ [] := by
        rw [hbuf, List.append_nil, List.map_map]
        have : (Prod.fst ∘ fun x => (Marshal x, x)) = Marshal := rfl
        rw [this, List.map_append, framesBytes_append]
        simp [framesBytes]
      rw [hrun]
      rw [readAllLoop_frames _ _ [] es (by
        intro r hr
        simp only [List.mem_map, List.mem_append, List.mem_singleton] at hr
        obtain ⟨x, hx, rfl⟩ := hr
        rcases hx with hx | hx
        · exact hps x hx
        · rw [hx]; exact hev) (Nat.lt_succ_self _)]
      rw [readAllLoop_nil, List.map_map]
      have : (Prod.snd ∘ fun x : WAL_Entry => (Marshal x, x)) = id := rfl
      rw [this, List.map_id, List.append_assoc]

theorem WriteEntry_invisible_until_Sync_witness :
    (WriteEntry exampleEngine [104, 105]).2 = none ∧
    (WriteEntry exampleEngine [104, 105]).1.disk = exampleEngine.disk ∧
    ReadAll (WriteEntry exampleEngine [104, 105]).1 = ReadAll exampleEngine ∧
    ReadAll (Sync (WriteEntry exampleEngine [104, 105]).1).1
      = Res.ok [⟨1, [104, 105], ChecksumIEEE [104, 105], none⟩] :=
  have h := WriteEntry_invisible_until_Sync exampleEngine [104, 105] (by decide) (by decide)
  ⟨by decide, h.1, h.2.2.1, (h.2.2.2.2 (by decide)).2 [] [] (by decide) (by decide)
    (by intro p hp; cases hp)⟩

/-- C12, at the failing input: the directory `wal` whose only file is
`wal-segment--5`.  The glob returns that file, its remainder `-5` parses
(`strconv.Atoi` accepts a sign) as the ID -5, the only and therefore the
highest ID present; `prepareCurrentSegment` returns 0, the value its
running maximum starts from, and `InitWAL` then makes a new file
`wal-segment-0` next to the one found. -/
theorem prepareCurrentSegment_negative_id :
    Glob [("wal".toList, [("wal-segment--5".toList, [])])]
        (Join "wal".toList (SegmentPrefix ++ ['*'])) = some ["wal/wal-segment--5".toList] ∧
    Atoi (TrimPrefix (Base "wal/wal-segment--5".toList) SegmentPrefix) = some (-5) ∧
    prepareCurrentSegment noFaults "wal".toList [("wal".toList, [("wal-segment--5".toList, [])])]
      = Res.ok (0, [("wal".toList, [("wal-segment--5".toList, [])])]) ∧
    (∃ w, InitWAL (CreateDefaultWALConfig "wal") noFaults
          [("wal".toList, [("wal-segment--5".toList, [])])] = Res.ok w ∧
      w.currSegment = "wal-segment-0".toList ∧
      w.disk = [("wal-segment--5".toList, []), ("wal-segment-0".toList, [])]) := by
  refine ⟨by decide, by decide, by decide, _, rfl, by decide, by decide⟩

/-- C13, counterexample: two directories with a name that starts with the
segment stem and whose remainder is no decimal integer.  The file
`wal-segment-` (empty remainder) is skipped: `prepareCurrentSegment` returns
0 without error.  The file `wal-segment-3.log` (digits and a dot-extension)
is accepted as ID 3: the extension is taken off before the parse, and
`InitWAL` then opens a segment `wal-segment-3`. -/
theorem prepareCurrentSegment_accepts_malformed_names :
    Atoi (TrimPrefix "wal-segment-".toList SegmentPrefix) = none ∧
    prepareCurrentSegment noFaults "wal".toList [("wal".toList, [("wal-segment-".toList, [])])]
      = Res.ok (0, [("wal".toList, [("wal-segment-".toList, [])])]) ∧
    Atoi (TrimPrefix "wal-segment-3.log".toList SegmentPrefix) = none ∧
    prepareCurrentSegment noFaults "wal".toList
        [("wal".toList, [("wal-segment-3.log".toList, [1])])]
      = Res.ok (3, [("wal".toList, [("wal-segment-3.log".toList, [1])])]) ∧
    (∃ w, InitWAL (CreateDefaultWALConfig "wal") noFaults
          [("wal".toList, [("wal-segment-3.log".toList, [1])])] = Res.ok w ∧
      w.currSegment = "wal-segment-3".toList ∧
      w.disk = [("wal-segment-3.log".toList, [1]), ("wal-segment-3".toList, [])]) := by
  refine ⟨by decide, by decide, by decide, by decide, _, rfl, by decide, by decide⟩

/-- C13, amended. In a plain directory that exists (its path holds none of
the characters that are special in a glob pattern, its file names are path
elements and none of its subdirectories starts with the segment stem), the
function `prepareCurrentSegment` returns an error exactly when the directory
has a file whose name starts with the segment stem and that, with its
extension (`filepath.Ext`) taken off, still starts with the stem and has a
non-empty remainder that `strconv.Atoi` rejects; the error is then the one
for an invalid segment name.  A name with an empty remainder is skipped, and
an extension is never part of what is parsed. -/
theorem prepareCurrentSegment_error_iff (fs : FS) (dir : List Char)
    (hplain : plainDir fs dir) (hd : fsIsDir fs (Clean dir) = true) :
    ((∃ e, prepareCurrentSegment noFaults dir fs = Res.error e) ↔
      ∃ name ∈ globSegments (fsFiles fs (Clean dir)),
        HasPrefix (TrimSuffix name (Ext name)) SegmentPrefix = true ∧
        TrimPrefix (TrimSuffix name (Ext name)) SegmentPrefix ≠ [] ∧
        Atoi (TrimPrefix (TrimSuffix name (Ext name)) SegmentPrefix) = none) ∧
    ((∃ e, prepareCurrentSegment noFaults dir fs = Res.error e) →
      prepareCurrentSegment noFaults dir fs = Res.error WalError.invalidSegmentName) := by
  rw [← maxSegmentLoop_error_iff (globSegments (fsFiles fs (Clean dir))) 0]
  rw [prepareCurrentSegment_plain noFaults fs dir hplain hd]
  by_cases hlen : (globSegments (fsFiles fs (Clean dir))).length = 0
  · have hnil : globSegments (fsFiles fs (Clean dir)) = [] := List.length_eq_zero.mp hlen
    rw [if_pos hlen, createSegmentFile_plain fs dir 0 hplain hd, hnil]
    simp [maxSegmentLoop]
  · rw [if_neg hlen]
    cases h : maxSegmentLoop (globSegments (fsFiles fs (Clean dir))) 0 with
    | ok m => simp
    | error e =>
      have he : e = WalError.invalidSegmentName := maxSegmentLoop_error _ _ e h
      subst he
      simp
    | panic => simp

theorem prepareCurrentSegment_error_iff_witness :
    plainDir [("wal".toList, [("wal-segment-0".toList, []), ("wal-segment-3x".toList, [7])])]
        "wal".toList ∧
    prepareCurrentSegment noFaults "wal".toList
        [("wal".toList, [("wal-segment-0".toList, []), ("wal-segment-3x".toList, [7])])]
      = Res.error WalError.invalidSegmentName :=
  have h := prepareCurrentSegment_error_iff
    [("wal".toList, [("wal-segment-0".toList, []), ("wal-segment-3x".toList, [7])])]
    "wal".toList (by decide) (by decide)
  ⟨by decide, h.2 (h.1.mpr ⟨"wal-segment-3x".toList, by decide, by decide, by decide, by decide⟩)⟩

/-- C14, the code at the failing input and in general.  The engine `InitWAL`
returns has its timer armed with the `SyncInterval` of the configuration;
after any calls, a `Sync` that returns nil has re-armed the timer with the
package constant `SyncInterval` (300 ms), whatever the configuration says. -/
theorem Sync_rearms_with_constant (cfg : WALConfig) (env : Env) (fs : FS) (w0 : WAL)
    (calls : List Call)
    (hinit : InitWAL cfg env fs = Res.ok w0)
    (hsync : (Sync (applyCalls w0 calls).1).2 = none) :
    w0.syncTimer = cfg.SyncInterval ∧
      (Sync (applyCalls w0 calls).1).1.syncTimer = SyncInterval := by
  refine ⟨(InitWAL_config cfg env fs w0 hinit).1, ?_⟩
  rw [Sync_ok _ hsync]

theorem Sync_rearms_with_constant_witness :
    InitWAL { CreateDefaultWALConfig "wal" with SyncInterval := 1000000000 } noFaults []
        = Res.ok { exampleEngine with syncTimer := 1000000000 } ∧
      ({ exampleEngine with syncTimer := 1000000000 } : WAL).syncTimer = 1000000000 ∧
      (Sync (applyCalls { exampleEngine with syncTimer := 1000000000 } [Call.write [1]]).1).2
        = none ∧
      (Sync (applyCalls { exampleEngine with syncTimer := 1000000000 }
        [Call.write [1]]).1).1.syncTimer = 300000000 :=
  have h := Sync_rearms_with_constant
    { CreateDefaultWALConfig "wal" with SyncInterval := 1000000000 } noFaults []
    { exampleEngine with syncTimer := 1000000000 } [Call.write [1]] (by decide) (by decide)
  ⟨by decide, h.1, by decide, h.2⟩

/-- C15, counterexample: the engine `InitWAL` returns for a segment whose one
record is numbered `2 ^ 64 - 2`.  A `WriteEntry` is buffered and takes the
counter to `2 ^ 64 - 1`; the disk then fails, `Sync` returns the flush
error, and the next `WriteEntry` returns an error.  The counter afterwards
is 0, not one greater than before the call, and the append after that is
assigned 1. -/
theorem WriteEntry_failure_wraps_counter :
    unmarshalAndVerifyEntry [8, 254, 255, 255, 255, 255, 255, 255, 255, 255, 1]
      = Res.ok ⟨2 ^ 64 - 2, [], 0, none⟩ ∧
    ∃ w, InitWAL (CreateDefaultWALConfig "wal") noFaults
        [("wal".toList, [(segmentName 0,
          [11, 0, 0, 0, 8, 254, 255, 255, 255, 255, 255, 255, 255, 255, 1])])] = Res.ok w ∧
      w.lastSeqNo = 2 ^ 64 - 2 ∧
      (WriteEntry w [1]).2 = none ∧
      (Sync { (WriteEntry w [1]).1 with ioFault := true }).2 = some WalError.flush ∧
      (Sync { (WriteEntry w [1]).1 with ioFault := true }).1.lastSeqNo = 2 ^ 64 - 1 ∧
      (WriteEntry (Sync { (WriteEntry w [1]).1 with ioFault := true }).1 [2]).2
        = some WalError.writeSize ∧
      (WriteEntry (Sync { (WriteEntry w [1]).1 with ioFault := true }).1 [2]).1.lastSeqNo = 0 ∧
      (WriteEntry (WriteEntry (Sync { (WriteEntry w [1]).1 with ioFault := true }).1
        [2]).1 [3]).1.lastSeqNo = 1 := by
  refine ⟨by decide, _, rfl, by decide, by decide, by decide, by decide, by decide, by decide,
    by decide⟩

/-- C15, amended. A failed append consumes a sequence number: in every engine
state whose counter is below `2 ^ 64 - 1`, the last value of its range, and
for every payload, when `WriteEntry` returns an error the counter stands
exactly one higher than before the call, and the writer holds its error.
The next `WriteEntry` builds its entry with the number after that in the
unsigned 64-bit arithmetic of `lastSeqNo++` (plainly two higher than before
the failed call when that is in range), which is not the number of the
failed append. -/
theorem WriteEntry_failure_consumes_number (w : WAL) (data next : List Nat)
    (hfail : (WriteEntry w data).2 ≠ none) (hlt : w.lastSeqNo + 1 < 2 ^ 64) :
    (WriteEntry w data).1.lastSeqNo = w.lastSeqNo + 1 ∧
      (WriteEntry w data).1.bufErr = true ∧
      WriteEntry (WriteEntry w data).1 next
        = writeEntryToBuffer
            { (WriteEntry w data).1 with lastSeqNo := (w.lastSeqNo + 2) % 2 ^ 64 }
            ⟨(w.lastSeqNo + 2) % 2 ^ 64, next, ChecksumIEEE next, none⟩ ∧
      (WriteEntry (WriteEntry w data).1 next).1.lastSeqNo = (w.lastSeqNo + 2) % 2 ^ 64 ∧
      (w.lastSeqNo + 2) % 2 ^ 64 ≠ w.lastSeqNo + 1 ∧
      (w.lastSeqNo + 2 < 2 ^ 64 →
        (WriteEntry (WriteEntry w data).1 next).1.lastSeqNo = w.lastSeqNo + 2) := by
  have hseq : ∀ (v : WAL) (d : List Nat),
      (WriteEntry v d).1.lastSeqNo = (v.lastSeqNo + 1) % 2 ^ 64 := fun v d =>
    (writeEntryToBuffer_fields { v with lastSeqNo := (v.lastSeqNo + 1) % 2 ^ 64 }
      ⟨(v.lastSeqNo + 1) % 2 ^ 64, d, ChecksumIEEE d, none⟩).1
  have herr : (WriteEntry w data).1.bufErr = true :=
    (writeEntryToBuffer_fields { w with lastSeqNo := (w.lastSeqNo + 1) % 2 ^ 64 }
      ⟨(w.lastSeqNo + 1) % 2 ^ 64, data, ChecksumIEEE data, none⟩).2.2.2.2.mp hfail
  have h2 : ((WriteEntry w data).1.lastSeqNo + 1) % 2 ^ 64 = (w.lastSeqNo + 2) % 2 ^ 64 := by
    rw [hseq w data]; omega
  refine ⟨by rw [hseq w data, Nat.mod_eq_of_lt hlt], herr, ?_, by rw [hseq, h2], by omega,
    fun h => by rw [hseq, h2, Nat.mod_eq_of_lt h]⟩
  show writeEntryToBuffer
      { (WriteEntry w data).1 with lastSeqNo := ((WriteEntry w data).1.lastSeqNo + 1) % 2 ^ 64 }
      ⟨((WriteEntry w data).1.lastSeqNo + 1) % 2 ^ 64, next, ChecksumIEEE next, none⟩ = _
  rw [h2]

theorem WriteEntry_failure_consumes_number_witness :
    (Sync { (WriteEntry exampleEngine [1]).1 with ioFault := true }).2 = some WalError.flush ∧
    (Sync { (WriteEntry exampleEngine [1]).1 with ioFault := true }).1.lastSeqNo = 1 ∧
    (WriteEntry (Sync { (WriteEntry exampleEngine [1]).1 with ioFault := true }).1 [2]).2
      = some WalError.writeSize ∧
    (WriteEntry (Sync { (WriteEntry exampleEngine [1]).1 with ioFault := true }).1 [2]).1.lastSeqNo
      = 2 ∧
    (WriteEntry (WriteEntry (Sync { (WriteEntry exampleEngine [1]).1 with ioFault := true }).1
      [2]).1 [3]).1.lastSeqNo = 3 :=
  have h := WriteEntry_failure_consumes_number
    (Sync { (WriteEntry exampleEngine [1]).1 with ioFault := true }).1 [2] [3] (by decide)
    (by decide)
  ⟨by decide, by decide, by decide, h.1.trans (by decide), h.2.2.2.1.trans (by decide)⟩

/-- C16. Checkpoint atomicity on pre-flush failure: in every engine state and
for every payload, when the `Sync` that `WriteEntryWithCheckpoint` runs
first returns an error, the call returns that error (wrapped), the engine is
left in the state the failed `Sync` left, which does not depend on the
payload, and the counter is unchanged.  The buffer is as before the call
(the flush failed) or empty (the flush went through and the fsync failed):
no byte of a checkpoint entry has been written. -/
theorem WriteEntryWithCheckpoint_sync_failure (w : WAL) (data : List Nat) (err : WalError)
    (hsync : (Sync w).2 = some err) :
    (WriteEntryWithCheckpoint w data).2 = some (WalError.syncBeforeCheckpoint err) ∧
      (WriteEntryWithCheckpoint w data).1 = (Sync w).1 ∧
      (WriteEntryWithCheckpoint w data).1.lastSeqNo = w.lastSeqNo ∧
      (((WriteEntryWithCheckpoint w data).1.bufWriter = w.bufWriter ∧
          (WriteEntryWithCheckpoint w data).1.disk = w.disk) ∨
        ((WriteEntryWithCheckpoint w data).1.bufWriter = [] ∧
          (WriteEntryWithCheckpoint w data).1.disk
            = appendFile w.disk w.currSegment w.bufWriter)) := by
  have hw : WriteEntryWithCheckpoint w data
      = ((Sync w).1, some (WalError.syncBeforeCheckpoint err)) := by
    unfold WriteEntryWithCheckpoint
    simp only [hsync]
  rw [hw]
  refine ⟨rfl, rfl, (Sync_fields w).1, ?_⟩
  rcases Sync_error w err hsync with ⟨_, h1, h2⟩ | ⟨_, h1, h2⟩
  · exact Or.inl ⟨h1, h2⟩
  · exact Or.inr ⟨h1, h2⟩

theorem WriteEntryWithCheckpoint_sync_failure_witness :
    (Sync { (WriteEntry exampleEngine [1]).1 with ioFault := true }).2 = some WalError.flush ∧
    (WriteEntryWithCheckpoint { (WriteEntry exampleEngine [1]).1 with ioFault := true } [9]).2
      = some (WalError.syncBeforeCheckpoint WalError.flush) ∧
    (WriteEntryWithCheckpoint { (WriteEntry exampleEngine [1]).1 with ioFault := true }
      [9]).1.lastSeqNo = 1 ∧
    (WriteEntryWithCheckpoint { (WriteEntry exampleEngine [1]).1 with ioFault := true }
      [9]).1.bufWriter = (WriteEntry exampleEngine [1]).1.bufWriter :=
  have h := WriteEntryWithCheckpoint_sync_failure
    { (WriteEntry exampleEngine [1]).1 with ioFault := true } [9] WalError.flush (by decide)
  ⟨by decide, h.1, h.2.2.1.trans (by decide), by decide⟩

/-- C17. Idempotent sync: in every engine state with nothing buffered, where
the writer holds no error from an earlier failed write and the fsync, if
enabled, does not fail, and so in particular in the state a `Sync` that
returned nil has just left, `Sync` returns nil and leaves the directory, the
content of the segment file, the buffer and the counter as they are; all it
does is re-arm the timer. -/
theorem Sync_idempotent (w v : WAL)
    (hw : (w.bufWriter = [] ∧ w.bufErr = false ∧
            (w.shouldFsync = true → w.ioFault = false ∧ w.closed = false)) ∨
          (w = (Sync v).1 ∧ (Sync v).2 = none)) :
    (Sync w).2 = none ∧ (Sync w).1.disk = w.disk ∧
      readFile (Sync w).1.disk (Sync w).1.currSegment = readFile w.disk w.currSegment ∧
      (Sync w).1.lastSeqNo = w.lastSeqNo ∧
      (Sync w).1 = { w with syncTimer := SyncInterval } := by
  have hstate : w.bufWriter = [] ∧ w.bufErr = false ∧
      (w.shouldFsync = true → w.ioFault = false ∧ w.closed = false) := by
    rcases hw with hw | ⟨rfl, hv⟩
    · exact hw
    · exact Sync_ok_state v hv
  rw [Sync_empty w hstate.1 hstate.2.1 hstate.2.2]
  exact ⟨rfl, rfl, rfl, rfl, rfl⟩

theorem Sync_idempotent_witness :
    (Sync (WriteEntry exampleEngine [1]).1).2 = none ∧
    (Sync (Sync (WriteEntry exampleEngine [1]).1).1).2 = none ∧
    (Sync (Sync (WriteEntry exampleEngine [1]).1).1).1.disk
      = (Sync (WriteEntry exampleEngine [1]).1).1.disk ∧
    (Sync (Sync (WriteEntry exampleEngine [1]).1).1).1.lastSeqNo = 1 :=
  have h := Sync_idempotent (Sync (WriteEntry exampleEngine [1]).1).1
    (WriteEntry exampleEngine [1]).1 (Or.inr ⟨rfl, by decide⟩)
  ⟨by decide, h.1, h.2.1, h.2.2.2.1.trans (by decide)⟩

/-- C18, at the failing input: the directory path `w[l`, which is not empty,
on a file system without that directory and on one where it exists and is
empty, so that it holds no file matching the segment stem.  After
`os.MkdirAll` the glob of `prepareCurrentSegment` reads the path as a
pattern, the pattern is malformed, and `InitWAL` returns
`filepath.ErrBadPattern`: it does not succeed, and no segment file is made. -/
theorem InitWAL_fails_on_pattern_directory :
    (CreateDefaultWALConfig "w[l").Directory ≠ "" ∧
    globSegments (fsFiles [] (Clean "w[l".toList)) = [] ∧
    Match (Join "w[l".toList (SegmentPrefix ++ ['*'])) [] = none ∧
    Glob (MkdirAll [] "w[l".toList) (Join "w[l".toList (SegmentPrefix ++ ['*'])) = none ∧
    InitWAL (CreateDefaultWALConfig "w[l") noFaults [] = Res.error WalError.badPattern ∧
    InitWAL (CreateDefaultWALConfig "w[l") noFaults [("w[l".toList, [])]
      = Res.error WalError.badPattern := by
  decide

/-- C19. The two scanners agree: for every engine state, hence every content
of the segment file, on which `ReadAll` succeeds with the list `es`, the
recovery scan `getLastEntryInLog` returns without error the last entry of
`es`, and no entry when `es` is empty; `getLastSeqNo` then returns the
sequence number of that entry, or 0. -/
theorem getLastEntryInLog_agrees_with_ReadAll (w : WAL) (es : List WAL_Entry)
    (h : ReadAll w = Res.ok es) :
    getLastEntryInLog w = Res.ok es.getLast? ∧
      getLastSeqNo w
        = Res.ok (match es.getLast? with | none => 0 | some entry => entry.LogSeqNumber) := by
  have hl : getLastEntryInLog w = Res.ok es.getLast? := by
    unfold ReadAll at h
    unfold getLastEntryInLog
    cases hf : readFile w.disk w.currSegment with
    | none => rw [hf] at h; cases h
    | some file =>
      rw [hf] at h
      exact getLastEntryLoop_of_readAllLoop _ file [] es none (Nat.lt_succ_self _) h rfl
  refine ⟨hl, ?_⟩
  unfold getLastSeqNo
  rw [hl]
  cases es.getLast? <;> rfl

theorem getLastEntryInLog_agrees_with_ReadAll_witness :
    ReadAll { exampleEngine with disk := [(segmentName 0,
        [11, 0, 0, 0, 8, 1, 18, 1, 7, 24, 174, 244, 153, 227, 4, 2, 0, 0, 0, 8, 5])] }
      = Res.ok [⟨1, [7], 1281784366, none⟩, ⟨5, [], 0, none⟩] ∧
    getLastEntryInLog { exampleEngine with disk := [(segmentName 0,
        [11, 0, 0, 0, 8, 1, 18, 1, 7, 24, 174, 244, 153, 227, 4, 2, 0, 0, 0, 8, 5])] }
      = Res.ok (some ⟨5, [], 0, none⟩) :=
  ⟨by decide,
   (getLastEntryInLog_agrees_with_ReadAll
      { exampleEngine with disk := [(segmentName 0,
        [11, 0, 0, 0, 8, 1, 18, 1, 7, 24, 174, 244, 153, 227, 4, 2, 0, 0, 0, 8, 5])] }
      [⟨1, [7], 1281784366, none⟩, ⟨5, [], 0, none⟩] (by decide)).1⟩

/-- C20, at the failing input: the directory `w[a]l` that holds the segment
file `wal-segment-0` with one valid record.  The glob of
`prepareCurrentSegment` reads the path as a pattern, which the directory's
own name does not match, and returns no file; `prepareCurrentSegment` runs
`os.Create` on `wal-segment-0`, which empties it, and returns 0.  `InitWAL`
succeeds on the emptied file: the record that was there is gone, so the
content before is no initial part of the content after. -/
theorem InitWAL_truncates_segment :
    readFile (fsFiles [("w[a]l".toList, [(segmentName 0, [2, 0, 0, 0, 8, 5])])]
        (Clean "w[a]l".toList)) (segmentName 0) = some [2, 0, 0, 0, 8, 5] ∧
    Glob [("w[a]l".toList, [(segmentName 0, [2, 0, 0, 0, 8, 5])])]
        (Join "w[a]l".toList (SegmentPrefix ++ ['*'])) = some [] ∧
    prepareCurrentSegment noFaults "w[a]l".toList
        [("w[a]l".toList, [(segmentName 0, [2, 0, 0, 0, 8, 5])])]
      = Res.ok (0, [("w[a]l".toList, [(segmentName 0, [])])]) ∧
    (∃ w, InitWAL (CreateDefaultWALConfig "w[a]l") noFaults
          [("w[a]l".toList, [(segmentName 0, [2, 0, 0, 0, 8, 5])])] = Res.ok w ∧
      w.currSegment = segmentName 0 ∧
      readFile w.disk (segmentName 0) = some [] ∧
      ReadAll w = Res.ok []) := by
  refine ⟨by decide, by decide, by decide, _, rfl, by decide, by decide, by decide⟩

end SimpleWal
